import Mathlib

/-! The F-field update of the finite-difference solver.

A shallow embedding of `Source/FieldSolver/FiniteDifferenceSolver/EvolveF.cpp` and
`EvolveFPML.cpp`, followed by one of
`Source/FieldSolver/SpectralSolver/SpectralHankelTransform/BesselRoots.cpp`.  Real arithmetic is taken exactly (`ℚ`), integer indices are `Int`.
An `Array4<Real>` view is a total function of `(i, j, k, comp)`; a `MultiFab` walked by an
`MFIter` is the list of its steps, each step carrying the views of its grid and the tile box
to loop over.  The stencil algorithms (`T_Algo`), whose headers are not part of the sources
at hand, are parameters of the kernels.
-/

namespace WarpX

/-! ## Data model -/

/-- View of one field on one grid: the value at cell `(i, j, k)`, component `n`. -/
abbrev Array4 := Int → Int → Int → Int → ℚ

/-- The assignment `a(i, j, k, n) = v`. -/
def Array4.set (a : Array4) (i j k n : Int) (v : ℚ) : Array4 :=
  fun i' j' k' n' => if i' = i ∧ j' = j ∧ k' = k ∧ n' = n then v else a i' j' k' n'

/-- Signature shared by `T_Algo::DownwardDx`, `DownwardDy` and `DownwardDz`:
field view, coefficient table, its length, cell `(i, j, k)` and component. -/
abbrev Stencil := Array4 → List ℚ → Int → Int → Int → Int → Int → ℚ

/-- Signature of `T_Algo::DownwardDrr_over_r`: field view, `r`, `dr`, coefficient table,
its length, cell `(i, j, k)` and component. -/
abbrev StencilR := Array4 → ℚ → ℚ → List ℚ → Int → Int → Int → Int → Int → ℚ

/-- Capability set of a Cartesian stencil algorithm (the template argument `T_Algo`). -/
structure CartesianAlgorithm where
  DownwardDx : Stencil
  DownwardDy : Stencil
  DownwardDz : Stencil

/-- Capability set of a cylindrical stencil algorithm (the template argument `T_Algo`). -/
structure CylindricalAlgorithm where
  DownwardDrr_over_r : StencilR
  DownwardDz : Stencil

/-- Modelled from the spec: the enumeration `ElectromagneticSolverAlgo` of
`Utils/WarpXAlgorithmSelection.H`, which is not part of the sources at hand.  The
dispatchers compare the configured family with `Yee` and `CKC` only; every other family
is `Other tag`. -/
inductive ElectromagneticSolverAlgo where
  | Yee
  | CKC
  | Other (tag : Nat)
deriving DecidableEq, Repr

/-- Modelled from the spec: the enumeration `GridType` of `Utils/WarpXAlgorithmSelection.H`,
which is not part of the sources at hand.  The dispatchers compare the grid centering
with `Collocated` only; every other centering is `Other tag`. -/
inductive GridType where
  | Collocated
  | Other (tag : Nat)
deriving DecidableEq, Repr

/-- The members of `FiniteDifferenceSolver` read by `EvolveF` and `EvolveFPML`. -/
structure FiniteDifferenceSolver where
  m_fdtd_algo : ElectromagneticSolverAlgo
  m_grid_type : GridType
  m_stencil_coefs_x : List ℚ
  m_stencil_coefs_y : List ℚ
  m_stencil_coefs_z : List ℚ
  m_stencil_coefs_r : List ℚ
  m_dr : ℚ
  m_rmin : ℚ
  m_nmodes : Int

/-- The views taken on one grid by `EvolveFCartesian`. -/
structure Fields where
  F : Array4
  Ex : Array4
  Ey : Array4
  Ez : Array4
  rho : Array4

/-- The views taken on one grid by `EvolveFCylindrical`. -/
structure FieldsRZ where
  F : Array4
  Er : Array4
  Et : Array4
  Ez : Array4
  rho : Array4

/-- The views taken on one grid by `EvolveFPMLCartesian`. -/
structure FieldsPML where
  F : Array4
  Ex : Array4
  Ey : Array4
  Ez : Array4

/-- A three-dimensional index box, both ends included. -/
structure Box where
  ilo : Int
  jlo : Int
  klo : Int
  ihi : Int
  jhi : Int
  khi : Int

/-- A two-dimensional index box (the cylindrical build has two dimensions, `r` and `z`),
both ends included. -/
structure Box2D where
  ilo : Int
  jlo : Int
  ihi : Int
  jhi : Int

/-- One step of an `MFIter`: the views of the grid it stands on and the tile box. -/
structure Tile (σ β : Type) where
  views : σ
  tilebox : β

/-- Outcome of a dispatcher: it returns with the fields it leaves behind, or it aborts
with a message, the fields being those at the moment of the abort. -/
inductive Run (σ : Type) where
  | done (fields : σ)
  | abort (msg : String) (fields : σ)

/-! ## Loops -/

/-- The integers `lo, lo+1, ..., hi-1` in increasing order. -/
def intRange (lo hi : Int) : List Int :=
  (List.range (hi - lo).toNat).map (fun (t : Nat) => lo + (t : Int))

/-- The loop `for (int m = lo; m < hi; m++) body`. -/
def forLoop {σ : Type} (lo hi : Int) (body : Int → σ → σ) (s : σ) : σ :=
  (intRange lo hi).foldl (fun s m => body m s) s

/-- The cells of a box, in the order of the nested loops over `k`, `j`, `i`. -/
def Box.cells (b : Box) : List (Int × Int × Int) :=
  (intRange b.klo (b.khi + 1)).flatMap fun k =>
    (intRange b.jlo (b.jhi + 1)).flatMap fun j =>
      (intRange b.ilo (b.ihi + 1)).map fun i => (i, j, k)

/-- The cells of a two-dimensional box, in the order of the nested loops over `j`, `i`. -/
def Box2D.cells (b : Box2D) : List (Int × Int) :=
  (intRange b.jlo (b.jhi + 1)).flatMap fun j =>
    (intRange b.ilo (b.ihi + 1)).map fun i => (i, j)

/-- The pass `amrex::ParallelFor(box, f)` over a three-dimensional box. -/
def ParallelFor {σ : Type} (b : Box) (f : Int → Int → Int → σ → σ) (s : σ) : σ :=
  b.cells.foldl (fun s c => f c.1 c.2.1 c.2.2 s) s

/-- The pass `amrex::ParallelFor(box, f)` over a two-dimensional box: the third index
handed to `f` is `0`. -/
def ParallelFor2D {σ : Type} (b : Box2D) (f : Int → Int → Int → σ → σ) (s : σ) : σ :=
  b.cells.foldl (fun s c => f c.1 c.2 0 s) s

/-! ## `EvolveF.cpp`, Cartesian build -/

/-- Body of the per-cell lambda of `EvolveFCartesian`.  `ep0` is `PhysConst::ep0`; the
stencil operators are called without a component, which is component `0`. -/
def EvolveFCartesian_cell (T_Algo : CartesianAlgorithm) (ep0 : ℚ)
    (coefs_x : List ℚ) (n_coefs_x : Int) (coefs_y : List ℚ) (n_coefs_y : Int)
    (coefs_z : List ℚ) (n_coefs_z : Int) (rhocomp : Int) (dt : ℚ)
    (i j k : Int) (s : Fields) : Fields :=
  let inv_epsilon0 : ℚ := 1 / ep0
  { s with F := Array4.set s.F i j k 0 (s.F i j k 0 + dt * (
      - s.rho i j k rhocomp * inv_epsilon0
      + T_Algo.DownwardDx s.Ex coefs_x n_coefs_x i j k 0
      + T_Algo.DownwardDy s.Ey coefs_y n_coefs_y i j k 0
      + T_Algo.DownwardDz s.Ez coefs_z n_coefs_z i j k 0 )) }

/-- The function `FiniteDifferenceSolver::EvolveFCartesian<T_Algo>`: for every step of the `MFIter`,
one pass of the per-cell lambda over the tile box. -/
def EvolveFCartesian (T_Algo : CartesianAlgorithm) (ep0 : ℚ) (solver : FiniteDifferenceSolver)
    (rhocomp : Int) (dt : ℚ) (mf : List (Tile Fields Box)) : List (Tile Fields Box) :=
  mf.map fun mfi =>
    let coefs_x := solver.m_stencil_coefs_x
    let n_coefs_x : Int := solver.m_stencil_coefs_x.length
    let coefs_y := solver.m_stencil_coefs_y
    let n_coefs_y : Int := solver.m_stencil_coefs_y.length
    let coefs_z := solver.m_stencil_coefs_z
    let n_coefs_z : Int := solver.m_stencil_coefs_z.length
    let tf := mfi.tilebox
    { mfi with views := (ParallelFor tf
        (EvolveFCartesian_cell T_Algo ep0 coefs_x n_coefs_x coefs_y n_coefs_y
          coefs_z n_coefs_z rhocomp dt) mfi.views) }

/-- The function `FiniteDifferenceSolver::EvolveF`, Cartesian build.  The three algorithms are those of
the headers `CartesianNodalAlgorithm.H`, `CartesianYeeAlgorithm.H` and
`CartesianCKCAlgorithm.H`. -/
def EvolveF (Nodal Yee CKC : CartesianAlgorithm) (ep0 : ℚ) (solver : FiniteDifferenceSolver)
    (rhocomp : Int) (dt : ℚ) (mf : List (Tile Fields Box)) : Run (List (Tile Fields Box)) :=
  if solver.m_grid_type = GridType.Collocated then
    Run.done (EvolveFCartesian Nodal ep0 solver rhocomp dt mf)
  else if solver.m_fdtd_algo = ElectromagneticSolverAlgo.Yee then
    Run.done (EvolveFCartesian Yee ep0 solver rhocomp dt mf)
  else if solver.m_fdtd_algo = ElectromagneticSolverAlgo.CKC then
    Run.done (EvolveFCartesian CKC ep0 solver rhocomp dt mf)
  else
    Run.abort "EvolveF: Unknown algorithm" mf

/-! ## `EvolveF.cpp`, cylindrical build (`WARPX_DIM_RZ`) -/

/-- The value of `rho_shift`; `ncomps` is `WarpX::ncomps`. -/
def rho_shift (ncomps : Int) (rhocomp : Int) : Int :=
  if rhocomp = 1 then ncomps else 0

/-- Body of the loop over the higher-order modes, off axis: the real part, then the
imaginary part of mode `m`. -/
def EvolveFCylindrical_offaxis_mode (T_Algo : CylindricalAlgorithm) (inv_epsilon0 : ℚ)
    (coefs_r : List ℚ) (n_coefs_r : Int) (coefs_z : List ℚ) (n_coefs_z : Int)
    (r dr : ℚ) (rho_shift : Int) (dt : ℚ) (i j : Int) (m : Int) (s : FieldsRZ) : FieldsRZ :=
  let s1 : FieldsRZ := { s with F := Array4.set s.F i j 0 (2*m-1) (s.F i j 0 (2*m-1) + dt * (
      - s.rho i j 0 (rho_shift + 2*m-1) * inv_epsilon0
      + T_Algo.DownwardDrr_over_r s.Er r dr coefs_r n_coefs_r i j 0 (2*m-1)
      + (m : ℚ) * s.Et i j 0 (2*m) / r
      + T_Algo.DownwardDz s.Ez coefs_z n_coefs_z i j 0 (2*m-1) )) }
  { s1 with F := Array4.set s1.F i j 0 (2*m) (s1.F i j 0 (2*m) + dt * (
      - s1.rho i j 0 (rho_shift + 2*m-1) * inv_epsilon0
      + T_Algo.DownwardDrr_over_r s1.Er r dr coefs_r n_coefs_r i j 0 (2*m-1)
      - (m : ℚ) * s1.Et i j 0 (2*m-1) / r
      + T_Algo.DownwardDz s1.Ez coefs_z n_coefs_z i j 0 (2*m) )) }

/-- Body of the loop over the higher-order modes, on axis: both parts of mode `m` are
set to zero. -/
def EvolveFCylindrical_onaxis_mode (i j : Int) (m : Int) (s : FieldsRZ) : FieldsRZ :=
  let s1 : FieldsRZ := { s with F := Array4.set s.F i j 0 (2*m-1) 0 }
  { s1 with F := Array4.set s1.F i j 0 (2*m) 0 }

/-- Body of the per-cell lambda of `EvolveFCylindrical`; the third index is ignored. -/
def EvolveFCylindrical_cell (T_Algo : CylindricalAlgorithm) (ep0 : ℚ)
    (coefs_r : List ℚ) (n_coefs_r : Int) (coefs_z : List ℚ) (n_coefs_z : Int)
    (dr : ℚ) (nmodes : Int) (rmin : ℚ) (rho_shift : Int) (dt : ℚ)
    (i j _k : Int) (s : FieldsRZ) : FieldsRZ :=
  let inv_epsilon0 : ℚ := 1 / ep0
  let r : ℚ := rmin + (i : ℚ) * dr
  if r ≠ 0 then
    let s0 : FieldsRZ := { s with F := Array4.set s.F i j 0 0 (s.F i j 0 0 + dt * (
        - s.rho i j 0 rho_shift * inv_epsilon0
        + T_Algo.DownwardDrr_over_r s.Er r dr coefs_r n_coefs_r i j 0 0
        + T_Algo.DownwardDz s.Ez coefs_z n_coefs_z i j 0 0 )) }
    forLoop 1 nmodes
      (EvolveFCylindrical_offaxis_mode T_Algo inv_epsilon0 coefs_r n_coefs_r coefs_z n_coefs_z
        r dr rho_shift dt i j) s0
  else
    let s0 : FieldsRZ := { s with F := Array4.set s.F i j 0 0 (s.F i j 0 0 + dt * (
        - s.rho i j 0 rho_shift * inv_epsilon0
        + 4 * s.Er i j 0 0 / dr
        + T_Algo.DownwardDz s.Ez coefs_z n_coefs_z i j 0 0 )) }
    forLoop 1 nmodes (EvolveFCylindrical_onaxis_mode i j) s0

/-- The function `FiniteDifferenceSolver::EvolveFCylindrical<T_Algo>`: for every step of the `MFIter`,
one pass of the per-cell lambda over the tile box.  `ncomps` is `WarpX::ncomps`. -/
def EvolveFCylindrical (T_Algo : CylindricalAlgorithm) (ep0 : ℚ) (ncomps : Int)
    (solver : FiniteDifferenceSolver) (rhocomp : Int) (dt : ℚ)
    (mf : List (Tile FieldsRZ Box2D)) : List (Tile FieldsRZ Box2D) :=
  mf.map fun mfi =>
    let coefs_r := solver.m_stencil_coefs_r
    let n_coefs_r : Int := solver.m_stencil_coefs_r.length
    let coefs_z := solver.m_stencil_coefs_z
    let n_coefs_z : Int := solver.m_stencil_coefs_z.length
    let dr := solver.m_dr
    let nmodes := solver.m_nmodes
    let rmin := solver.m_rmin
    let tf := mfi.tilebox
    { mfi with views := (ParallelFor2D tf
        (EvolveFCylindrical_cell T_Algo ep0 coefs_r n_coefs_r coefs_z n_coefs_z
          dr nmodes rmin (rho_shift ncomps rhocomp) dt) mfi.views) }

/-- The function `FiniteDifferenceSolver::EvolveF`, cylindrical build.  The algorithm is that of the
header `CylindricalYeeAlgorithm.H`. -/
def EvolveF_RZ (CylindricalYee : CylindricalAlgorithm) (ep0 : ℚ) (ncomps : Int)
    (solver : FiniteDifferenceSolver) (rhocomp : Int) (dt : ℚ)
    (mf : List (Tile FieldsRZ Box2D)) : Run (List (Tile FieldsRZ Box2D)) :=
  if solver.m_fdtd_algo = ElectromagneticSolverAlgo.Yee then
    Run.done (EvolveFCylindrical CylindricalYee ep0 ncomps solver rhocomp dt mf)
  else
    Run.abort "EvolveF: Unknown algorithm" mf

/-! ## `EvolveFPML.cpp` -/

/-- The constants of `PMLComp` (header `BoundaryConditions/PMLComponent.H`, not part of
the sources at hand) that `EvolveFPMLCartesian` uses. -/
structure PMLComp where
  x : Int
  y : Int
  z : Int
  xx : Int
  xy : Int
  xz : Int
  yx : Int
  yy : Int
  yz : Int
  zx : Int
  zy : Int
  zz : Int

/-- Body of the per-cell lambda of `EvolveFPMLCartesian`. -/
def EvolveFPMLCartesian_cell (T_Algo : CartesianAlgorithm) (pc : PMLComp)
    (coefs_x : List ℚ) (n_coefs_x : Int) (coefs_y : List ℚ) (n_coefs_y : Int)
    (coefs_z : List ℚ) (n_coefs_z : Int) (dt : ℚ)
    (i j k : Int) (s : FieldsPML) : FieldsPML :=
  let s1 : FieldsPML := { s with F := Array4.set s.F i j k pc.x (s.F i j k pc.x + dt * (
        T_Algo.DownwardDx s.Ex coefs_x n_coefs_x i j k pc.xx
      + T_Algo.DownwardDx s.Ex coefs_x n_coefs_x i j k pc.xy
      + T_Algo.DownwardDx s.Ex coefs_x n_coefs_x i j k pc.xz )) }
  let s2 : FieldsPML := { s1 with F := Array4.set s1.F i j k pc.y (s1.F i j k pc.y + dt * (
        T_Algo.DownwardDy s1.Ey coefs_y n_coefs_y i j k pc.yx
      + T_Algo.DownwardDy s1.Ey coefs_y n_coefs_y i j k pc.yy
      + T_Algo.DownwardDy s1.Ey coefs_y n_coefs_y i j k pc.yz )) }
  { s2 with F := Array4.set s2.F i j k pc.z (s2.F i j k pc.z + dt * (
        T_Algo.DownwardDz s2.Ez coefs_z n_coefs_z i j k pc.zx
      + T_Algo.DownwardDz s2.Ez coefs_z n_coefs_z i j k pc.zy
      + T_Algo.DownwardDz s2.Ez coefs_z n_coefs_z i j k pc.zz )) }

/-- The function `FiniteDifferenceSolver::EvolveFPMLCartesian<T_Algo>`: for every step of the `MFIter`,
one pass of the per-cell lambda over the tile box. -/
def EvolveFPMLCartesian (T_Algo : CartesianAlgorithm) (pc : PMLComp)
    (solver : FiniteDifferenceSolver) (dt : ℚ)
    (mf : List (Tile FieldsPML Box)) : List (Tile FieldsPML Box) :=
  mf.map fun mfi =>
    let coefs_x := solver.m_stencil_coefs_x
    let n_coefs_x : Int := solver.m_stencil_coefs_x.length
    let coefs_y := solver.m_stencil_coefs_y
    let n_coefs_y : Int := solver.m_stencil_coefs_y.length
    let coefs_z := solver.m_stencil_coefs_z
    let n_coefs_z : Int := solver.m_stencil_coefs_z.length
    let tf := mfi.tilebox
    { mfi with views := (ParallelFor tf
        (EvolveFPMLCartesian_cell T_Algo pc coefs_x n_coefs_x coefs_y n_coefs_y
          coefs_z n_coefs_z dt) mfi.views) }

/-- The function `FiniteDifferenceSolver::EvolveFPML`, Cartesian build. -/
def EvolveFPML (Nodal Yee CKC : CartesianAlgorithm) (pc : PMLComp)
    (solver : FiniteDifferenceSolver) (dt : ℚ)
    (mf : List (Tile FieldsPML Box)) : Run (List (Tile FieldsPML Box)) :=
  if solver.m_grid_type = GridType.Collocated then
    Run.done (EvolveFPMLCartesian Nodal pc solver dt mf)
  else if solver.m_fdtd_algo = ElectromagneticSolverAlgo.Yee then
    Run.done (EvolveFPMLCartesian Yee pc solver dt mf)
  else if solver.m_fdtd_algo = ElectromagneticSolverAlgo.CKC then
    Run.done (EvolveFPMLCartesian CKC pc solver dt mf)
  else
    Run.abort "EvolveFPML: Unknown algorithm" mf

/-- The function `FiniteDifferenceSolver::EvolveFPML`, cylindrical build (`WARPX_DIM_RZ`): the
arguments are ignored and the call aborts. -/
def EvolveFPML_RZ (_solver : FiniteDifferenceSolver) (_dt : ℚ)
    (mf : List (Tile FieldsPML Box2D)) : Run (List (Tile FieldsPML Box2D)) :=
  Run.abort "PML are not implemented in cylindrical geometry." mf

/-! ## Auxiliary definitions -/

/-- Rewriting of every component of the cell `(i, j, k)`: component `n` holding `v`
becomes `φ n v`; the other cells are kept. -/
def Array4.mapCell (a : Array4) (i j k : Int) (φ : Int → ℚ → ℚ) : Array4 :=
  fun i' j' k' n => if i' = i ∧ j' = j ∧ k' = k then φ n (a i' j' k' n) else a i' j' k' n

/-- Membership of a cell in a three-dimensional box. -/
def Box.contains (b : Box) (i j k : Int) : Prop :=
  b.ilo ≤ i ∧ i ≤ b.ihi ∧ b.jlo ≤ j ∧ j ≤ b.jhi ∧ b.klo ≤ k ∧ k ≤ b.khi

/-- Membership of a cell in a two-dimensional box. -/
def Box2D.contains (b : Box2D) (i j : Int) : Prop :=
  b.ilo ≤ i ∧ i ≤ b.ihi ∧ b.jlo ≤ j ∧ j ≤ b.jhi

instance (b : Box) (i j k : Int) : Decidable (b.contains i j k) := by
  unfold Box.contains; infer_instance

instance (b : Box2D) (i j : Int) : Decidable (b.contains i j) := by
  unfold Box2D.contains; infer_instance

/-- Modelled from the spec: the header `CartesianYeeAlgorithm.H` is not part of the sources
at hand; the downward derivative of the Yee stencil is the first coefficient times the
difference between the value at the cell and the value one cell below along the axis. -/
def CartesianYeeAlgorithm : CartesianAlgorithm where
  DownwardDx := fun F coefs_x _ i j k n => coefs_x.getD 0 0 * (F i j k n - F (i-1) j k n)
  DownwardDy := fun F coefs_y _ i j k n => coefs_y.getD 0 0 * (F i j k n - F i (j-1) k n)
  DownwardDz := fun F coefs_z _ i j k n => coefs_z.getD 0 0 * (F i j k n - F i j (k-1) n)

/-- Modelled from the spec: the header `CylindricalYeeAlgorithm.H` is not part of the
sources at hand; the radial operator is the ring operator
`(1/r) * inv_dr * ((r + dr/2) * F(i) - (r - dr/2) * F(i-1))` and the axial derivative, along
the second index, is `inv_dz * (F(j) - F(j-1))`. -/
def CylindricalYeeAlgorithm : CylindricalAlgorithm where
  DownwardDrr_over_r := fun F r dr coefs_r _ i j k n =>
    1 / r * coefs_r.getD 0 0 * ((r + dr / 2) * F i j k n - (r - dr / 2) * F (i-1) j k n)
  DownwardDz := fun F coefs_z _ i j k n => coefs_z.getD 0 0 * (F i j k n - F i (j-1) k n)

/-- A solver configuration used in the examples: staggered grid, Yee family, unit
coefficients, unit radial spacing, axis at `rmin = 0`, two azimuthal modes. -/
def sampleSolver : FiniteDifferenceSolver where
  m_fdtd_algo := ElectromagneticSolverAlgo.Yee
  m_grid_type := GridType.Other 0
  m_stencil_coefs_x := [1]
  m_stencil_coefs_y := [1]
  m_stencil_coefs_z := [1]
  m_stencil_coefs_r := [1]
  m_dr := 1
  m_rmin := 0
  m_nmodes := 2

/-- The box holding the single cell `(0, 0, 0)`. -/
def unitBox : Box := ⟨0, 0, 0, 0, 0, 0⟩

/-- Cartesian fields used in the examples: `F = 5`, `Ex = i`, `Ey = 2j`, `Ez = 3k`,
`rho = 7` everywhere. -/
def sampleFields : Fields where
  F := fun _ _ _ _ => 5
  Ex := fun i _ _ _ => (i : ℚ)
  Ey := fun _ j _ _ => 2 * (j : ℚ)
  Ez := fun _ _ k _ => 3 * (k : ℚ)
  rho := fun _ _ _ _ => 7

/-- The increment of the real part of mode `m` off axis, as written in the loop over the
higher-order modes. -/
def incRe (T_Algo : CylindricalAlgorithm) (inv_epsilon0 : ℚ)
    (coefs_r : List ℚ) (n_coefs_r : Int) (coefs_z : List ℚ) (n_coefs_z : Int)
    (r dr : ℚ) (rho_shift : Int) (dt : ℚ) (s : FieldsRZ) (i j : Int) (m : Int) : ℚ :=
  dt * ( - s.rho i j 0 (rho_shift + 2*m-1) * inv_epsilon0
      + T_Algo.DownwardDrr_over_r s.Er r dr coefs_r n_coefs_r i j 0 (2*m-1)
      + (m : ℚ) * s.Et i j 0 (2*m) / r
      + T_Algo.DownwardDz s.Ez coefs_z n_coefs_z i j 0 (2*m-1) )

/-- The increment of the imaginary part of mode `m` off axis, as written in the loop over
the higher-order modes. -/
def incIm (T_Algo : CylindricalAlgorithm) (inv_epsilon0 : ℚ)
    (coefs_r : List ℚ) (n_coefs_r : Int) (coefs_z : List ℚ) (n_coefs_z : Int)
    (r dr : ℚ) (rho_shift : Int) (dt : ℚ) (s : FieldsRZ) (i j : Int) (m : Int) : ℚ :=
  dt * ( - s.rho i j 0 (rho_shift + 2*m-1) * inv_epsilon0
      + T_Algo.DownwardDrr_over_r s.Er r dr coefs_r n_coefs_r i j 0 (2*m-1)
      - (m : ℚ) * s.Et i j 0 (2*m-1) / r
      + T_Algo.DownwardDz s.Ez coefs_z n_coefs_z i j 0 (2*m) )

/-- The increment of mode `0`, off axis (`r ≠ 0`) and on axis (`r = 0`), as written in the
two branches of the per-cell lambda. -/
def inc0 (T_Algo : CylindricalAlgorithm) (inv_epsilon0 : ℚ)
    (coefs_r : List ℚ) (n_coefs_r : Int) (coefs_z : List ℚ) (n_coefs_z : Int)
    (r dr : ℚ) (rho_shift : Int) (dt : ℚ) (s : FieldsRZ) (i j : Int) : ℚ :=
  if r ≠ 0 then
    dt * ( - s.rho i j 0 rho_shift * inv_epsilon0
        + T_Algo.DownwardDrr_over_r s.Er r dr coefs_r n_coefs_r i j 0 0
        + T_Algo.DownwardDz s.Ez coefs_z n_coefs_z i j 0 0 )
  else
    dt * ( - s.rho i j 0 rho_shift * inv_epsilon0
        + 4 * s.Er i j 0 0 / dr
        + T_Algo.DownwardDz s.Ez coefs_z n_coefs_z i j 0 0 )

/-- What the per-cell lambda of `EvolveFCylindrical` makes of component `n` of its cell
when that component holds `w`: mode `0` is incremented; off axis the components
`1 .. 2*nmodes-2` are incremented (odd ones are real parts, even ones imaginary parts), on
axis they are set to zero; any other component is kept. -/
def cylCellMap (T_Algo : CylindricalAlgorithm) (ep0 : ℚ)
    (coefs_r : List ℚ) (n_coefs_r : Int) (coefs_z : List ℚ) (n_coefs_z : Int)
    (dr : ℚ) (nmodes : Int) (rmin : ℚ) (rho_shift : Int) (dt : ℚ)
    (s : FieldsRZ) (i j : Int) (n : Int) (w : ℚ) : ℚ :=
  if n = 0 then
    w + inc0 T_Algo (1 / ep0) coefs_r n_coefs_r coefs_z n_coefs_z
      (rmin + (i : ℚ) * dr) dr rho_shift dt s i j
  else if 1 ≤ n ∧ n ≤ 2 * nmodes - 2 then
    if rmin + (i : ℚ) * dr ≠ 0 then
      if n % 2 = 1 then
        w + incRe T_Algo (1 / ep0) coefs_r n_coefs_r coefs_z n_coefs_z
          (rmin + (i : ℚ) * dr) dr rho_shift dt s i j ((n + 1) / 2)
      else
        w + incIm T_Algo (1 / ep0) coefs_r n_coefs_r coefs_z n_coefs_z
          (rmin + (i : ℚ) * dr) dr rho_shift dt s i j (n / 2)
    else 0
  else w

/-- The two-dimensional box holding the single cell `(0, 0)`, which is on the axis for
`sampleSolver`. -/
def axisBox : Box2D := ⟨0, 0, 0, 0⟩

/-- The two-dimensional box holding the single cell `(1, 0)`, which is off the axis for
`sampleSolver`. -/
def offAxisBox : Box2D := ⟨1, 0, 1, 0⟩

/-- Cylindrical fields used in the examples: `F = 5`, `Er = 3`, `Et = n` (its component
index), `rho = 7` everywhere, and `Ez = j` in component `1`, `0` in the other components. -/
def sampleFieldsRZ : FieldsRZ where
  F := fun _ _ _ _ => 5
  Er := fun _ _ _ _ => 3
  Et := fun _ _ _ n => (n : ℚ)
  Ez := fun _ j _ n => if n = 1 then (j : ℚ) else 0
  rho := fun _ _ _ _ => 7

/-- The view `a` with the value at `(i, j, k)`, component `n`, replaced by its negation. -/
def Array4.negateAt (a : Array4) (i j k n : Int) : Array4 :=
  Array4.set a i j k n (- a i j k n)

/-- The component indices at which the per-cell lambda of `EvolveFCylindrical` reads
`rho`, in the order of the source: `rho_shift` for mode `0`, then `rho_shift + 2*m-1` twice
(real part, imaginary part) for each higher mode `m`. -/
def rhoComponentsRead (rho_shift : Int) (nmodes : Int) : List Int :=
  rho_shift :: (intRange 1 nmodes).flatMap fun m => [rho_shift + 2*m-1, rho_shift + 2*m-1]

/-- Cylindrical fields that differ from `sampleFieldsRZ` only in the components `3, 4, ...`
of `rho`, those of the second time level when there are two modes. -/
def sampleFieldsRZ_otherRho : FieldsRZ :=
  { sampleFieldsRZ with rho := fun _ _ _ c => if 3 ≤ c then 100 else 7 }

/-- Modelled from the spec: the header `CartesianNodalAlgorithm.H` is not part of the
sources at hand; on the collocated grid the derivative is the centred difference, half the
first coefficient times the difference between the values one cell above and one cell
below along the axis. -/
def CartesianNodalAlgorithm : CartesianAlgorithm where
  DownwardDx := fun F coefs_x _ i j k n =>
    1 / 2 * coefs_x.getD 0 0 * (F (i+1) j k n - F (i-1) j k n)
  DownwardDy := fun F coefs_y _ i j k n =>
    1 / 2 * coefs_y.getD 0 0 * (F i (j+1) k n - F i (j-1) k n)
  DownwardDz := fun F coefs_z _ i j k n =>
    1 / 2 * coefs_z.getD 0 0 * (F i j (k+1) n - F i j (k-1) n)

/-- Modelled from the spec: the header `CartesianCKCAlgorithm.H` is not part of the sources
at hand; the downward derivative of the CKC stencil is, like that of the Yee stencil, the
first coefficient times the difference between the value at the cell and the value one
cell below along the axis. -/
def CartesianCKCAlgorithm : CartesianAlgorithm where
  DownwardDx := fun F coefs_x _ i j k n => coefs_x.getD 0 0 * (F i j k n - F (i-1) j k n)
  DownwardDy := fun F coefs_y _ i j k n => coefs_y.getD 0 0 * (F i j k n - F i (j-1) k n)
  DownwardDz := fun F coefs_z _ i j k n => coefs_z.getD 0 0 * (F i j k n - F i j (k-1) n)

/-- A solver configuration with a collocated grid and an algorithm family that is neither
`Yee` nor `CKC`. -/
def collocatedSolver : FiniteDifferenceSolver :=
  { sampleSolver with
    m_fdtd_algo := ElectromagneticSolverAlgo.Other 0
    m_grid_type := GridType.Collocated }

/-- A solver configuration with a staggered grid and an algorithm family that is neither
`Yee` nor `CKC`. -/
def unknownSolver : FiniteDifferenceSolver :=
  { sampleSolver with m_fdtd_algo := ElectromagneticSolverAlgo.Other 0 }

/-- The expression `dt * (D(E, a) + D(E, b) + D(E, c))` that the per-cell lambda of
`EvolveFPMLCartesian` adds to one component of `F`: the derivative `D` of the three split
sub-components `a`, `b`, `c` of one component `E` of the field. -/
def pmlIncrement (D : Stencil) (E : Array4) (coefs : List ℚ) (n_coefs : Int) (dt : ℚ)
    (i j k : Int) (a b c : Int) : ℚ :=
  dt * ( D E coefs n_coefs i j k a + D E coefs n_coefs i j k b + D E coefs n_coefs i j k c )

/-- What the per-cell lambda of `EvolveFPMLCartesian` makes of component `n` of its cell
when that component holds `w`: the three statements in the order of the source. -/
def pmlCellMap (T_Algo : CartesianAlgorithm) (pc : PMLComp)
    (coefs_x : List ℚ) (n_coefs_x : Int) (coefs_y : List ℚ) (n_coefs_y : Int)
    (coefs_z : List ℚ) (n_coefs_z : Int) (dt : ℚ)
    (s : FieldsPML) (i j k : Int) (n : Int) (w : ℚ) : ℚ :=
  let w1 := if n = pc.x then
    w + pmlIncrement T_Algo.DownwardDx s.Ex coefs_x n_coefs_x dt i j k pc.xx pc.xy pc.xz else w
  let w2 := if n = pc.y then
    w1 + pmlIncrement T_Algo.DownwardDy s.Ey coefs_y n_coefs_y dt i j k pc.yx pc.yy pc.yz else w1
  if n = pc.z then
    w2 + pmlIncrement T_Algo.DownwardDz s.Ez coefs_z n_coefs_z dt i j k pc.zx pc.zy pc.zz else w2

/-- A stencil operator whose derivative of an identically-zero component is `0`. -/
def ZeroOnZero (D : Stencil) : Prop :=
  ∀ (E : Array4) (coefs : List ℚ) (n_coefs i j k c : Int),
    (∀ i' j' k', E i' j' k' c = 0) → D E coefs n_coefs i j k c = 0

/-- A stencil operator that, called with component `c`, reads component `c` only. -/
def ReadsOwnComponent (D : Stencil) : Prop :=
  ∀ (E E' : Array4) (coefs : List ℚ) (n_coefs i j k c : Int),
    (∀ i' j' k', E i' j' k' c = E' i' j' k' c) →
      D E coefs n_coefs i j k c = D E' coefs n_coefs i j k c

/-- The view `E` with every component other than `c` set to zero. -/
def Array4.keepComp (E : Array4) (c : Int) : Array4 :=
  fun i j k n => if n = c then E i j k n else 0

/-- The constants of `PMLComp` used in the examples. -/
def samplePMLComp : PMLComp :=
  { x := 0, y := 1, z := 2, xx := 0, xy := 1, xz := 2, yx := 0, yy := 1, yz := 2,
    zx := 0, zy := 1, zz := 2 }

/-- Split fields used in the examples: `F = 5`; the sub-components `0, 1, 2` of `Ex` are
`i`, `2i`, `3i`, those of `Ey` are `j`, `0`, `0` and those of `Ez` are `0`. -/
def sampleFieldsPML : FieldsPML where
  F := fun _ _ _ _ => 5
  Ex := fun i _ _ n => ((n : ℚ) + 1) * (i : ℚ)
  Ey := fun _ j _ n => if n = 0 then (j : ℚ) else 0
  Ez := fun _ _ _ _ => 0

/-- The box holding the two cells `(0, 0, 0)` and `(1, 0, 0)`. -/
def twoCellBox : Box := ⟨0, 0, 0, 1, 0, 0⟩

/-- The two-dimensional box holding the two cells `(0, 0)`, on the axis for `sampleSolver`,
and `(1, 0)`, off the axis. -/
def twoCellBox2D : Box2D := ⟨0, 0, 1, 0⟩

/-- The stencil algorithms a Cartesian dispatcher can instantiate its kernel with. -/
inductive StencilChoice where
  | Nodal
  | Yee
  | CKC
deriving DecidableEq, Repr

/-- The algorithm that stands for a choice, among the three of the Cartesian build. -/
def StencilChoice.pick (Nodal Yee CKC : CartesianAlgorithm) :
    StencilChoice → CartesianAlgorithm
  | StencilChoice.Nodal => Nodal
  | StencilChoice.Yee => Yee
  | StencilChoice.CKC => CKC

/-- The selection table in the words of the specification: the nodal stencil when the grid
centering is collocated, whatever the algorithm family; otherwise the Yee stencil when the
family is Yee; otherwise the CKC stencil when the family is CKC; otherwise no stencil (the
call aborts). -/
def selectStencil_spec (solver : FiniteDifferenceSolver) : Option StencilChoice :=
  match solver.m_grid_type, solver.m_fdtd_algo with
  | GridType.Collocated, _ => some StencilChoice.Nodal
  | GridType.Other _, ElectromagneticSolverAlgo.Yee => some StencilChoice.Yee
  | GridType.Other _, ElectromagneticSolverAlgo.CKC => some StencilChoice.CKC
  | GridType.Other _, ElectromagneticSolverAlgo.Other _ => none

/-- A dispatcher outcome that is an abort. -/
def Run.aborts {σ : Type} : Run σ → Bool
  | Run.done _ => false
  | Run.abort _ _ => true

/-- A radial stencil operator that, called with component `c`, reads component `c` only. -/
def ReadsOwnComponentR (D : StencilR) : Prop :=
  ∀ (E E' : Array4) (r dr : ℚ) (coefs : List ℚ) (n_coefs i j k c : Int),
    (∀ i' j' k', E i' j' k' c = E' i' j' k' c) →
      D E r dr coefs n_coefs i j k c = D E' r dr coefs n_coefs i j k c

/-- Cylindrical fields that differ from `sampleFieldsRZ` only in the imaginary components
`2, 4, ...` of `Er` and of `rho` at the third index `0`. -/
def sampleFieldsRZ_otherImag : FieldsRZ :=
  { sampleFieldsRZ with
    Er := fun _ _ k c => if k = 0 ∧ 2 ≤ c ∧ c % 2 = 0 then 100 else 3
    rho := fun _ _ k c => if k = 0 ∧ 2 ≤ c ∧ c % 2 = 0 then 200 else 7 }

/-- A stencil operator whose derivative of a spatially constant component is `0`. -/
def ZeroOnConstant (D : Stencil) : Prop :=
  ∀ (E : Array4) (coefs : List ℚ) (n_coefs i j k c : Int) (v : ℚ),
    (∀ i' j' k', E i' j' k' c = v) → D E coefs n_coefs i j k c = 0

/-- The box of a `4 × 4` grid: `0 ≤ i ≤ 3`, `0 ≤ j ≤ 3`, `k = 0`. -/
def grid4x4 : Box := ⟨0, 0, 0, 3, 3, 0⟩

/-- Cartesian fields with the uniform field `E = (1, 0, 0)` at every cell, ghost cells
included, `rho = 0`, and `F = i + 4j`. -/
def uniformEFields : Fields where
  F := fun i j _ _ => (i : ℚ) + 4 * (j : ℚ)
  Ex := fun _ _ _ _ => 1
  Ey := fun _ _ _ _ => 0
  Ez := fun _ _ _ _ => 0
  rho := fun _ _ _ _ => 0

/-- A solver configuration for the cylindrical build with radial spacing `dr = 1/2`, the
first radial coefficient being `1/dr = 2`, axis at `rmin = 0` and two modes. -/
def halfStepSolver : FiniteDifferenceSolver :=
  { sampleSolver with m_stencil_coefs_r := [2], m_dr := 1 / 2 }

/-- Cylindrical fields with `Er = a * r`, `a = 3`, sampled at the radially staggered
positions `r_i = (i + 1/2) * dr`, `dr = 1/2`; `F = 5`, `rho = 7`, `Et = Ez = 0`. -/
def linearErFields : FieldsRZ where
  F := fun _ _ _ _ => 5
  Er := fun i _ _ _ => 3 * ((i : ℚ) + 1 / 2) * (1 / 2)
  Et := fun _ _ _ _ => 0
  Ez := fun _ _ _ _ => 0
  rho := fun _ _ _ _ => 7

/-! ## `BesselRoots.cpp`

Real arithmetic is taken exactly (`ℚ`).  The Bessel function `jn` of the C library, the
constant `MathConst::pi` and the cube root `std::pow(n, 1/3)` are parameters.  Besides
their results the functions return a record of what they did (the secant iterations that
reached the division, the stores into the output vectors), on which the claims are
stated. -/

/-- Record of one turn of the secant loop that reached the division: the try, the loop
index, the two points and their function values, the new iterate and the step. -/
structure SecantStep where
  ntry : Nat
  it : Int
  p0 : ℚ
  p1 : ℚ
  q0 : ℚ
  q1 : ℚ
  p : ℚ
  dp : ℚ

/-- What the inner loop of `SecantRootFinder` leaves: whether the `return` inside the loop
was taken, the value of `p`, and the record of the turns. -/
structure SecantTry where
  converged : Bool
  p : ℚ
  steps : List SecantStep

/-- The loop `for (int it = ...; it <= nitmx; it++)` of `SecantRootFinder`; the first
argument is the number of turns left, `nitmx - it + 1`. -/
def secantLoop (jn : Int → ℚ → ℚ) (n : Int) (tol : ℚ) (ntry : Nat) :
    Nat → Int → ℚ → ℚ → ℚ → ℚ → ℚ → SecantTry
  | 0, _, _, _, _, _, p => ⟨false, p, []⟩
  | turns + 1, it, p0, p1, q0, q1, p =>
    if q1 = q0 then ⟨false, p, []⟩
    else
      let p' : ℚ := p1 - q1 * (p1 - p0) / (q1 - q0)
      let dp : ℚ := p' - p1
      let step : SecantStep := ⟨ntry, it, p0, p1, q0, q1, p', dp⟩
      if it > 1 ∧ |dp| < tol then ⟨true, p', [step]⟩
      else
        let rest := secantLoop jn n tol ntry turns (it + 1) p1 p' q1 (jn n p') p'
        ⟨rest.converged, rest.p, step :: rest.steps⟩

/-- Result of `SecantRootFinder`: the values left in `*zeroj` and `*ier`, and the record
of the secant iterations. -/
structure SecantResult where
  zeroj : ℚ
  ier : Int
  steps : List SecantStep

/-- The function `SecantRootFinder(n, nitmx, tol, zeroj, ier)`: the two tries `ntry = 0, 1`
with `c[0] = 0.95` and `c[1] = 0.999`. -/
def SecantRootFinder (jn : Int → ℚ → ℚ) (n nitmx : Int) (tol zeroj : ℚ) : SecantResult :=
  let c0 : ℚ := 95 / 100
  let c1 : ℚ := 999 / 1000
  let p : ℚ := zeroj
  let try0 := secantLoop jn n tol 0 nitmx.toNat 1 (c0 * zeroj) zeroj
    (jn n (c0 * zeroj)) (jn n zeroj) p
  if try0.converged then ⟨try0.p, 0, try0.steps⟩
  else
    let try1 := secantLoop jn n tol 1 nitmx.toNat 1 (c1 * zeroj) zeroj
      (jn n (c1 * zeroj)) (jn n zeroj) try0.p
    if try1.converged then ⟨try1.p, 0, try0.steps ++ try1.steps⟩
    else ⟨try1.p, 3, try0.steps ++ try1.steps⟩

/-- The constant `tol` of `GetBesselRoots`. -/
def besselTol : ℚ := 1 / 100000000000000

/-- The constant `nitmx` of `GetBesselRoots`. -/
def besselNitmx : Int := 10

/-- The estimate of a root by Mac Mahon's series, as computed at the head of the loop of
`GetBesselRoots` from the order `n` and the counter `k`. -/
def macMahon (pi : ℚ) (n k : Int) : ℚ :=
  let t0 : ℚ := 4 * (n : ℚ) * (n : ℚ)
  let t1 : ℚ := t0 - 1
  let t3 : ℚ := 4 * t1 * (7 * t0 - 31)
  let t5 : ℚ := 32 * t1 * ((83 * t0 - 982) * t0 + 3779)
  let t7 : ℚ := 64 * t1 * (((6949 * t0 - 153855) * t0 + 1585743) * t0 - 6277237)
  let b0 : ℚ := ((k : ℚ) + 1 / 2 * (n : ℚ) - 1 / 4) * pi
  let b1 : ℚ := 8 * b0
  let b2 : ℚ := b1 * b1
  let b3 : ℚ := 3 * b1 * b2
  let b5 : ℚ := 5 * b3 * b2
  let b7 : ℚ := 7 * b5 * b2
  b0 - (t1 / b1) - (t3 / b3) - (t5 / b5) - (t7 / b7)

/-- Record of the two stores `roots[index] = root` and `ier[index] = ier` that
`GetBesselRoots` makes for one root. -/
structure RootWrite where
  index : Int
  root : ℚ
  ier : Int

/-- The loop `while (ik < nk)` of `GetBesselRoots`, as the list of its stores; the first
argument is the number of turns left, `nk - ik`, and `ierror` is the value the variable
holds when the turn starts. -/
def besselLoop (jn : Int → ℚ → ℚ) (pi : ℚ) (n : Int) :
    Nat → Int → Int → Int → List RootWrite
  | 0, _, _, _ => []
  | turns + 1, ik, k, ierror =>
    let zeroj : ℚ := macMahon pi n k
    let errj : ℚ := |jn n zeroj|
    let refined := SecantRootFinder jn n besselNitmx besselTol zeroj
    let zeroj' : ℚ := if errj > besselTol then refined.zeroj else zeroj
    let ierror' : Int := if errj > besselTol then refined.ier else ierror
    ⟨ik, zeroj', ierror'⟩ :: besselLoop jn pi n turns (ik + 1) (k + 1) ierror'

/-- The stores of `GetBesselRoots(n, nk, roots, ier)` in program order.  `pow13` is
`std::pow(n, 1/3)`. -/
def GetBesselRoots_writes (jn : Int → ℚ → ℚ) (pi : ℚ) (pow13 : Int → ℚ) (n nk : Int) :
    List RootWrite :=
  let c1 : ℚ := 18557571 / 10000000
  let c2 : ℚ := 103315 / 100000
  let c3 : ℚ := 397 / 100000
  let c4 : ℚ := 908 / 10000
  let c5 : ℚ := 43 / 1000
  if n = 0 then
    let zeroj : ℚ := c1 + c2 - c3 - c4 + c5
    let first := SecantRootFinder jn n besselNitmx besselTol zeroj
    ⟨0, first.zeroj, first.ier⟩ :: besselLoop jn pi n (nk - 1).toNat 1 2 first.ier
  else
    let f1 : ℚ := pow13 n
    let f2 : ℚ := f1 * f1 * (n : ℚ)
    let f3 : ℚ := f1 * (n : ℚ) * (n : ℚ)
    let zeroj : ℚ := (n : ℚ) + c1 * f1 + (c2 / f1) - (c3 / (n : ℚ)) - (c4 / f2) + (c5 / f3)
    let first := SecantRootFinder jn n besselNitmx besselTol zeroj
    ⟨0, 0, 0⟩ :: ⟨1, first.zeroj, first.ier⟩
      :: besselLoop jn pi n (nk - 2).toNat 2 2 first.ier

/-- The call `v.resize(nk)`: the first `nk` elements are kept, new elements are `d`. -/
def resize {α : Type} (v : List α) (nk : Nat) (d : α) : List α :=
  v.take nk ++ List.replicate (nk - v.length) d

/-- One store `v[i] = x`, checked: there is no result when `i` is not an index of `v`. -/
def storeAt {α : Type} (v : List α) (i : Int) (x : α) : Option (List α) :=
  if 0 ≤ i ∧ i < v.length then some (v.set i.toNat x) else none

/-- The stores of a list of records, in order, into the two output vectors. -/
def applyWrites : List RootWrite → List ℚ × List Int → Option (List ℚ × List Int)
  | [], out => some out
  | w :: ws, out =>
    match storeAt out.1 w.index w.root, storeAt out.2 w.index w.ier with
    | some roots, some ier => applyWrites ws (roots, ier)
    | _, _ => none

/-- The function `GetBesselRoots(n, nk, roots, ier)`: both vectors are resized to `nk`,
then the stores are made; there is no result when a store is out of bounds. -/
def GetBesselRoots (jn : Int → ℚ → ℚ) (pi : ℚ) (pow13 : Int → ℚ) (n nk : Int)
    (roots : List ℚ) (ier : List Int) : Option (List ℚ × List Int) :=
  applyWrites (GetBesselRoots_writes jn pi pow13 n nk)
    (resize roots nk.toNat 0, resize ier nk.toNat 0)

/-- A stand-in for `jn` used in the examples: the function `x - 3` for every order. -/
def sampleJn : Int → ℚ → ℚ := fun _ x => x - 3

/-- How a root relates to the store before it: it sits at the next index; when the
estimate of Mac Mahon's series already satisfies `|jn(n, zeroj)| ≤ tol` the estimate is
stored with the code of the store before; otherwise the refined value and its code are
stored.  `d` is the offset between the root counter `k` and the index. -/
def RootAfter (jn : Int → ℚ → ℚ) (pi : ℚ) (n d : Int) (wprev w : RootWrite) : Prop :=
  w.index = wprev.index + 1 ∧
  (|jn n (macMahon pi n (w.index + d))| ≤ besselTol →
    w.root = macMahon pi n (w.index + d) ∧ w.ier = wprev.ier) ∧
  (besselTol < |jn n (macMahon pi n (w.index + d))| →
    w.root = (SecantRootFinder jn n besselNitmx besselTol
        (macMahon pi n (w.index + d))).zeroj ∧
    w.ier = (SecantRootFinder jn n besselNitmx besselTol
        (macMahon pi n (w.index + d))).ier)

/-- A stand-in for `jn` used in the examples: the zero function. -/
def zeroJn : Int → ℚ → ℚ := fun _ _ => 0

/-! ## Loops and boxes: basic facts -/

theorem mem_intRange (lo hi x : Int) : x ∈ intRange lo hi ↔ lo ≤ x ∧ x < hi := by
  unfold intRange
  simp only [List.mem_map, List.mem_range]
  constructor
  · rintro ⟨t, ht, rfl⟩
    omega
  · rintro ⟨h1, h2⟩
    exact ⟨(x - lo).toNat, by omega, by omega⟩

theorem nodup_intRange (lo hi : Int) : (intRange lo hi).Nodup := by
  unfold intRange
  apply List.Nodup.map _ (List.nodup_range _)
  intro a b h
  simp only at h
  omega

theorem intRange_succ (lo : Int) (n : Nat) :
    intRange lo (lo + (n + 1 : Nat)) = intRange lo (lo + n) ++ [lo + n] := by
  unfold intRange
  have h1 : (lo + ((n + 1 : Nat) : Int) - lo).toNat = n + 1 := by omega
  have h2 : (lo + (n : Int) - lo).toNat = n := by omega
  rw [h1, h2, List.range_succ, List.map_append]
  rfl

theorem Box.mem_cells (b : Box) (i j k : Int) : (i, j, k) ∈ b.cells ↔ b.contains i j k := by
  unfold Box.cells Box.contains
  simp only [List.mem_flatMap, List.mem_map, mem_intRange, Prod.mk.injEq]
  constructor
  · rintro ⟨k', hk, j', hj, i', hi, rfl, rfl, rfl⟩
    omega
  · intro h
    exact ⟨k, by omega, j, by omega, i, by omega, rfl, rfl, rfl⟩

theorem Box.nodup_cells (b : Box) : b.cells.Nodup := by
  unfold Box.cells
  rw [List.nodup_flatMap]
  refine ⟨fun k _ => ?_, ?_⟩
  · rw [List.nodup_flatMap]
    refine ⟨fun j _ => ?_, ?_⟩
    · apply List.Nodup.map _ (nodup_intRange _ _)
      intro a c h
      simpa using h
    · apply (nodup_intRange _ _).imp
      intro j1 j2 hne c h1 h2
      simp only [List.mem_map] at h1 h2
      obtain ⟨_, _, rfl⟩ := h1
      obtain ⟨_, _, h⟩ := h2
      simp only [Prod.mk.injEq] at h
      exact hne h.2.1.symm
  · apply (nodup_intRange _ _).imp
    intro k1 k2 hne c h1 h2
    simp only [List.mem_flatMap, List.mem_map] at h1 h2
    obtain ⟨_, _, _, _, rfl⟩ := h1
    obtain ⟨_, _, _, _, h⟩ := h2
    simp only [Prod.mk.injEq] at h
    exact hne h.2.2.symm

theorem Box2D.mem_cells2D (b : Box2D) (i j : Int) : (i, j) ∈ b.cells ↔ b.contains i j := by
  unfold Box2D.cells Box2D.contains
  simp only [List.mem_flatMap, List.mem_map, mem_intRange, Prod.mk.injEq]
  constructor
  · rintro ⟨j', hj, i', hi, rfl, rfl⟩
    omega
  · intro h
    exact ⟨j, by omega, i, by omega, rfl, rfl⟩

theorem Box2D.nodup_cells2D (b : Box2D) : b.cells.Nodup := by
  unfold Box2D.cells
  rw [List.nodup_flatMap]
  refine ⟨fun j _ => ?_, ?_⟩
  · apply List.Nodup.map _ (nodup_intRange _ _)
    intro a c h
    simpa using h
  · apply (nodup_intRange _ _).imp
    intro j1 j2 hne c h1 h2
    simp only [List.mem_map] at h1 h2
    obtain ⟨_, _, rfl⟩ := h1
    obtain ⟨_, _, h⟩ := h2
    simp only [Prod.mk.injEq] at h
    exact hne h.2.symm

/-! ## Passes that rewrite one cell at a time -/

theorem Array4.set_eq_mapCell (a : Array4) (i j k c : Int) (v : ℚ) :
    Array4.set a i j k c v = Array4.mapCell a i j k (fun n w => if n = c then v else w) := by
  funext i' j' k' n
  unfold Array4.set Array4.mapCell
  by_cases h : i' = i ∧ j' = j ∧ k' = k
  · by_cases hn : n = c
    · simp [h, hn]
    · have : ¬ (i' = i ∧ j' = j ∧ k' = k ∧ n = c) := fun hh => hn hh.2.2.2
      simp [h, hn, this]
  · have : ¬ (i' = i ∧ j' = j ∧ k' = k ∧ n = c) := fun hh => h ⟨hh.1, hh.2.1, hh.2.2.1⟩
    simp [h, this]

theorem Array4.mapCell_mapCell (a : Array4) (i j k : Int) (φ ψ : Int → ℚ → ℚ) :
    Array4.mapCell (Array4.mapCell a i j k φ) i j k ψ
      = Array4.mapCell a i j k (fun n v => ψ n (φ n v)) := by
  funext i' j' k' n
  unfold Array4.mapCell
  by_cases h : i' = i ∧ j' = j ∧ k' = k <;> simp [h]

/-- A pass over distinct cells, each step rewriting its own cell from the value it holds:
every visited cell is rewritten once, every other cell is kept. -/
theorem foldl_mapCell (φ : Int × Int × Int → Int → ℚ → ℚ) (L : List (Int × Int × Int))
    (hL : L.Nodup) (F : Array4) :
    L.foldl (fun G c => Array4.mapCell G c.1 c.2.1 c.2.2 (φ c)) F
      = fun i j k n => if (i, j, k) ∈ L then φ (i, j, k) n (F i j k n) else F i j k n := by
  induction L generalizing F with
  | nil => simp
  | cons c L ih =>
    rw [List.nodup_cons] at hL
    rw [List.foldl_cons, ih hL.2]
    funext i j k n
    obtain ⟨ci, cj, ck⟩ := c
    unfold Array4.mapCell
    by_cases h : i = ci ∧ j = cj ∧ k = ck
    · obtain ⟨rfl, rfl, rfl⟩ := h
      simp [hL.1]
    · have hne : (i, j, k) ≠ (ci, cj, ck) := by
        intro hh
        simp only [Prod.mk.injEq] at hh
        exact h hh
      simp [h, hne]

/-- Two steps that each rewrite one cell from the value it holds commute. -/
theorem Array4.mapCell_comm (a : Array4) (i j k i' j' k' : Int) (φ ψ : Int → ℚ → ℚ)
    (h : (i = i' ∧ j = j' ∧ k = k') → ∀ n v, φ n (ψ n v) = ψ n (φ n v)) :
    Array4.mapCell (Array4.mapCell a i j k φ) i' j' k' ψ
      = Array4.mapCell (Array4.mapCell a i' j' k' ψ) i j k φ := by
  funext x y z n
  unfold Array4.mapCell
  by_cases h1 : x = i ∧ y = j ∧ z = k <;> by_cases h2 : x = i' ∧ y = j' ∧ z = k'
  · simp only [if_pos h1, if_pos h2]
    refine (h ?_ n _).symm
    obtain ⟨rfl, rfl, rfl⟩ := h1
    exact h2
  · simp only [if_pos h1, if_neg h2]
  · simp only [if_neg h1, if_pos h2]
  · simp only [if_neg h1, if_neg h2]

theorem Array4.set_add_eq_mapCell (a : Array4) (i j k c : Int) (d : ℚ) :
    Array4.set a i j k c (a i j k c + d)
      = Array4.mapCell a i j k (fun n w => if n = c then w + d else w) := by
  funext i' j' k' n
  unfold Array4.set Array4.mapCell
  by_cases h : i' = i ∧ j' = j ∧ k' = k
  · by_cases hn : n = c
    · obtain ⟨rfl, rfl, rfl⟩ := h
      simp [hn]
    · have : ¬ (i' = i ∧ j' = j ∧ k' = k ∧ n = c) := fun hh => hn hh.2.2.2
      simp [h, hn, this]
  · have : ¬ (i' = i ∧ j' = j ∧ k' = k ∧ n = c) := fun hh => h ⟨hh.1, hh.2.1, hh.2.2.1⟩
    simp [h, this]

/-- A pass whose steps change the field `F` only, each step computing the new `F` from
the unchanged fields and the current `F`, is a pass over `F` alone. -/
theorem foldl_viaF {σ γ : Type} (getF : σ → Array4) (setF : σ → Array4 → σ)
    (K : γ → σ → σ) (G : σ → γ → Array4 → Array4)
    (hK : ∀ c s, K c s = setF s (G s c (getF s)))
    (hG : ∀ s F c, G (setF s F) c = G s c)
    (hget : ∀ s F, getF (setF s F) = F)
    (hset : ∀ s F F', setF (setF s F) F' = setF s F')
    (hid : ∀ s, setF s (getF s) = s) (L : List γ) (s : σ) :
    L.foldl (fun s c => K c s) s = setF s (L.foldl (fun F c => G s c F) (getF s)) := by
  induction L generalizing s with
  | nil => simp [hid]
  | cons c L ih =>
    rw [List.foldl_cons, ih, List.foldl_cons, hK, hset, hget]
    simp only [hG]

/-! ## The Cartesian kernel -/

/-- The per-cell lambda of `EvolveFCartesian` rewrites component `0` of its own cell by
adding the increment, and nothing else. -/
theorem EvolveFCartesian_cell_eq (T_Algo : CartesianAlgorithm) (ep0 : ℚ)
    (coefs_x : List ℚ) (n_coefs_x : Int) (coefs_y : List ℚ) (n_coefs_y : Int)
    (coefs_z : List ℚ) (n_coefs_z : Int) (rhocomp : Int) (dt : ℚ)
    (i j k : Int) (s : Fields) :
    EvolveFCartesian_cell T_Algo ep0 coefs_x n_coefs_x coefs_y n_coefs_y coefs_z n_coefs_z
        rhocomp dt i j k s
      = { s with F := Array4.mapCell s.F i j k (fun n w => if n = 0 then
            w + dt * ( - s.rho i j k rhocomp * (1 / ep0)
              + T_Algo.DownwardDx s.Ex coefs_x n_coefs_x i j k 0
              + T_Algo.DownwardDy s.Ey coefs_y n_coefs_y i j k 0
              + T_Algo.DownwardDz s.Ez coefs_z n_coefs_z i j k 0 ) else w) } := by
  unfold EvolveFCartesian_cell
  simp only [Array4.set_add_eq_mapCell]

/-- One pass of the Cartesian kernel over a box, in closed form. -/
theorem EvolveFCartesian_pass (T_Algo : CartesianAlgorithm) (ep0 : ℚ)
    (coefs_x : List ℚ) (n_coefs_x : Int) (coefs_y : List ℚ) (n_coefs_y : Int)
    (coefs_z : List ℚ) (n_coefs_z : Int) (rhocomp : Int) (dt : ℚ) (b : Box) (s : Fields) :
    ParallelFor b (EvolveFCartesian_cell T_Algo ep0 coefs_x n_coefs_x coefs_y n_coefs_y
        coefs_z n_coefs_z rhocomp dt) s
      = { s with F := fun i j k n => if (i, j, k) ∈ b.cells then (if n = 0 then
            s.F i j k n + dt * ( - s.rho i j k rhocomp * (1 / ep0)
              + T_Algo.DownwardDx s.Ex coefs_x n_coefs_x i j k 0
              + T_Algo.DownwardDy s.Ey coefs_y n_coefs_y i j k 0
              + T_Algo.DownwardDz s.Ez coefs_z n_coefs_z i j k 0 ) else s.F i j k n)
          else s.F i j k n } := by
  unfold ParallelFor
  rw [foldl_viaF (fun s : Fields => s.F) (fun s F => { s with F := F })
    (fun (c : Int × Int × Int) s => EvolveFCartesian_cell T_Algo ep0 coefs_x n_coefs_x
      coefs_y n_coefs_y coefs_z n_coefs_z rhocomp dt c.1 c.2.1 c.2.2 s)
    (fun s c F => Array4.mapCell F c.1 c.2.1 c.2.2 (fun n w => if n = 0 then
        w + dt * ( - s.rho c.1 c.2.1 c.2.2 rhocomp * (1 / ep0)
          + T_Algo.DownwardDx s.Ex coefs_x n_coefs_x c.1 c.2.1 c.2.2 0
          + T_Algo.DownwardDy s.Ey coefs_y n_coefs_y c.1 c.2.1 c.2.2 0
          + T_Algo.DownwardDz s.Ez coefs_z n_coefs_z c.1 c.2.1 c.2.2 0 ) else w))
    (fun c s => EvolveFCartesian_cell_eq _ _ _ _ _ _ _ _ _ _ _ _ _ s)
    (fun _ _ _ => rfl) (fun _ _ => rfl) (fun _ _ _ => rfl) (fun _ => rfl)]
  rw [foldl_mapCell (fun c n w => if n = 0 then
        w + dt * ( - s.rho c.1 c.2.1 c.2.2 rhocomp * (1 / ep0)
          + T_Algo.DownwardDx s.Ex coefs_x n_coefs_x c.1 c.2.1 c.2.2 0
          + T_Algo.DownwardDy s.Ey coefs_y n_coefs_y c.1 c.2.1 c.2.2 0
          + T_Algo.DownwardDz s.Ez coefs_z n_coefs_z c.1 c.2.1 c.2.2 0 ) else w)
    b.cells b.nodup_cells]

/-- The step of `EvolveFCartesian` on grid `g`: one pass over its tile box. -/
theorem EvolveFCartesian_step (T_Algo : CartesianAlgorithm) (ep0 : ℚ)
    (solver : FiniteDifferenceSolver) (rhocomp : Int) (dt : ℚ)
    (mf : List (Tile Fields Box)) (g : Nat) (mfi : Tile Fields Box)
    (hg : mf[g]? = some mfi) :
    (EvolveFCartesian T_Algo ep0 solver rhocomp dt mf)[g]?
      = some ⟨ParallelFor mfi.tilebox (EvolveFCartesian_cell T_Algo ep0
          solver.m_stencil_coefs_x solver.m_stencil_coefs_x.length
          solver.m_stencil_coefs_y solver.m_stencil_coefs_y.length
          solver.m_stencil_coefs_z solver.m_stencil_coefs_z.length rhocomp dt) mfi.views,
        mfi.tilebox⟩ := by
  unfold EvolveFCartesian
  rw [List.getElem?_map, hg]
  rfl

/-! ## Claims on the Cartesian kernel -/

/-- C1: Cartesian update formula.  For every step of the `MFIter` (grid `g` with its tile
box), every cell `(i, j, k)` of the tile box, every `dt`, every `rhocomp` and every field
contents, after `EvolveFCartesian` the value `F(i, j, k)` is the value before plus
`dt * (-rho(i, j, k, rhocomp)/ep0 + DownwardDx(Ex) + DownwardDy(Ey) + DownwardDz(Ez))`,
the derivatives being those of the selected algorithm with the x, y and z coefficient
tables. -/
theorem C1_EvolveFCartesian_update (T_Algo : CartesianAlgorithm) (ep0 : ℚ)
    (solver : FiniteDifferenceSolver) (rhocomp : Int) (dt : ℚ)
    (mf : List (Tile Fields Box)) (g : Nat) (mfi : Tile Fields Box)
    (hg : mf[g]? = some mfi) (i j k : Int) (hc : mfi.tilebox.contains i j k) :
    ∃ out : Tile Fields Box,
      (EvolveFCartesian T_Algo ep0 solver rhocomp dt mf)[g]? = some out ∧
      out.views.F i j k 0 = mfi.views.F i j k 0 + dt * (
        - mfi.views.rho i j k rhocomp / ep0
        + T_Algo.DownwardDx mfi.views.Ex solver.m_stencil_coefs_x
            solver.m_stencil_coefs_x.length i j k 0
        + T_Algo.DownwardDy mfi.views.Ey solver.m_stencil_coefs_y
            solver.m_stencil_coefs_y.length i j k 0
        + T_Algo.DownwardDz mfi.views.Ez solver.m_stencil_coefs_z
            solver.m_stencil_coefs_z.length i j k 0 ) := by
  have hmem : (i, j, k) ∈ mfi.tilebox.cells := (Box.mem_cells _ _ _ _).2 hc
  rw [EvolveFCartesian_step T_Algo ep0 solver rhocomp dt mf g mfi hg]
  refine ⟨_, rfl, ?_⟩
  simp only [EvolveFCartesian_pass, if_pos hmem, if_true, neg_mul, mul_one_div]

/-- Instance of C1 on a one-cell box with the Yee stencil: `5 + 1 * (-7 + 1 + 2 + 3) = 4`. -/
theorem C1_EvolveFCartesian_update_witness :
    ∃ out : Tile Fields Box,
      (EvolveFCartesian CartesianYeeAlgorithm 1 sampleSolver 0 1
        [⟨sampleFields, unitBox⟩])[0]? = some out ∧ out.views.F 0 0 0 0 = 4 := by
  obtain ⟨out, h1, h2⟩ := C1_EvolveFCartesian_update CartesianYeeAlgorithm 1 sampleSolver 0 1
    [⟨sampleFields, unitBox⟩] 0 ⟨sampleFields, unitBox⟩ rfl 0 0 0 (by decide)
  refine ⟨out, h1, ?_⟩
  rw [h2]
  simp [sampleFields, sampleSolver, CartesianYeeAlgorithm]
  norm_num

/-! ## The cylindrical kernel -/

theorem Array4.mapCell_id (a : Array4) (i j k : Int) :
    Array4.mapCell a i j k (fun _ w => w) = a := by
  funext i' j' k' n
  unfold Array4.mapCell
  simp

/-- The loop over the higher-order modes, when the body of mode `m` rewrites the
components `2m-1` and `2m` of one cell, rewrites the components `1 .. 2t` after `t` turns. -/
theorem foldl_modes (fRe fIm : Int → ℚ → ℚ) (i j k : Int) (t : Nat) (F : Array4) :
    (intRange 1 (1 + (t : Int))).foldl (fun G m => Array4.mapCell G i j k
        (fun n w => if n = 2*m then fIm m (if n = 2*m-1 then fRe m w else w)
          else if n = 2*m-1 then fRe m w else w)) F
      = Array4.mapCell F i j k (fun n w => if 1 ≤ n ∧ n ≤ 2 * (t : Int) then
          (if n % 2 = 1 then fRe ((n + 1) / 2) w else fIm (n / 2) w) else w) := by
  induction t with
  | zero =>
    have h0 : intRange 1 (1 + ((0 : Nat) : Int)) = [] := by
      unfold intRange; simp
    rw [h0, List.foldl_nil]
    have : (fun (n : Int) (w : ℚ) => if 1 ≤ n ∧ n ≤ 2 * ((0 : Nat) : Int) then
        (if n % 2 = 1 then fRe ((n + 1) / 2) w else fIm (n / 2) w) else w)
        = fun _ w => w := by
      funext n w
      have : ¬ (1 ≤ n ∧ n ≤ 2 * ((0 : Nat) : Int)) := by omega
      simp only [if_neg this]
    rw [this, Array4.mapCell_id]
  | succ t ih =>
    rw [intRange_succ, List.foldl_append, ih, List.foldl_cons, List.foldl_nil,
      Array4.mapCell_mapCell]
    refine congrArg (Array4.mapCell F i j k) ?_
    funext n w
    by_cases h1 : n = 2 * (1 + (t : Int))
    · have a1 : ¬ (n = 2 * (1 + (t : Int)) - 1) := by omega
      have a2 : ¬ (1 ≤ n ∧ n ≤ 2 * (t : Int)) := by omega
      have a3 : 1 ≤ n ∧ n ≤ 2 * ((t + 1 : Nat) : Int) := by omega
      have a4 : ¬ (n % 2 = 1) := by omega
      have a5 : n / 2 = 1 + (t : Int) := by omega
      simp only [if_pos h1, if_neg a1, if_neg a2, if_pos a3, if_neg a4, a5]
    · by_cases h2 : n = 2 * (1 + (t : Int)) - 1
      · have a2 : ¬ (1 ≤ n ∧ n ≤ 2 * (t : Int)) := by omega
        have a3 : 1 ≤ n ∧ n ≤ 2 * ((t + 1 : Nat) : Int) := by omega
        have a4 : n % 2 = 1 := by omega
        have a5 : (n + 1) / 2 = 1 + (t : Int) := by omega
        simp only [if_neg h1, if_pos h2, if_neg a2, if_pos a3, if_pos a4, a5]
      · by_cases h3 : 1 ≤ n ∧ n ≤ 2 * (t : Int)
        · have a3 : 1 ≤ n ∧ n ≤ 2 * ((t + 1 : Nat) : Int) := by omega
          simp only [if_neg h1, if_neg h2, if_pos h3, if_pos a3]
        · have a3 : ¬ (1 ≤ n ∧ n ≤ 2 * ((t + 1 : Nat) : Int)) := by omega
          simp only [if_neg h1, if_neg h2, if_neg h3, if_neg a3]

/-- The range of the loop over the higher-order modes, whatever the sign of `nmodes`. -/
theorem intRange_modes (nmodes : Int) :
    intRange 1 nmodes = intRange 1 (1 + (((nmodes - 1).toNat : Nat) : Int)) := by
  unfold intRange
  congr 2
  omega

/-- The loop over the higher-order modes in closed form, for a body that changes `F`
only and rewrites the components `2m-1` and `2m` of the cell `(i, j, 0)`. -/
theorem forLoop_modes (body : Int → FieldsRZ → FieldsRZ) (fRe fIm : FieldsRZ → Int → ℚ → ℚ)
    (i j : Int)
    (hbody : ∀ m s, body m s = { s with F := (Array4.mapCell s.F i j 0
      (fun n w => if n = 2*m then fIm s m (if n = 2*m-1 then fRe s m w else w)
        else if n = 2*m-1 then fRe s m w else w)) })
    (hRe : ∀ (s : FieldsRZ) (F : Array4), fRe { s with F := F } = fRe s)
    (hIm : ∀ (s : FieldsRZ) (F : Array4), fIm { s with F := F } = fIm s)
    (nmodes : Int) (s : FieldsRZ) :
    forLoop 1 nmodes body s = { s with F := (Array4.mapCell s.F i j 0
      (fun n w => if 1 ≤ n ∧ n ≤ 2 * nmodes - 2 then
        (if n % 2 = 1 then fRe s ((n + 1) / 2) w else fIm s (n / 2) w) else w)) } := by
  unfold forLoop
  rw [foldl_viaF (fun s : FieldsRZ => s.F) (fun s F => { s with F := F }) body
    (fun s m F => Array4.mapCell F i j 0
      (fun n w => if n = 2*m then fIm s m (if n = 2*m-1 then fRe s m w else w)
        else if n = 2*m-1 then fRe s m w else w))
    hbody (fun s F m => by simp only [hRe, hIm])
    (fun _ _ => rfl) (fun _ _ _ => rfl) (fun _ => rfl)]
  rw [intRange_modes, foldl_modes (fRe s) (fIm s)]
  congr 1
  refine congrArg (Array4.mapCell s.F i j 0) ?_
  funext n w
  by_cases h : 1 ≤ n ∧ n ≤ 2 * nmodes - 2
  · have h' : 1 ≤ n ∧ n ≤ 2 * (((nmodes - 1).toNat : Nat) : Int) := by omega
    simp only [if_pos h, if_pos h']
  · have h' : ¬ (1 ≤ n ∧ n ≤ 2 * (((nmodes - 1).toNat : Nat) : Int)) := by omega
    simp only [if_neg h, if_neg h']

theorem EvolveFCylindrical_offaxis_mode_eq (T_Algo : CylindricalAlgorithm) (inv_epsilon0 : ℚ)
    (coefs_r : List ℚ) (n_coefs_r : Int) (coefs_z : List ℚ) (n_coefs_z : Int)
    (r dr : ℚ) (rho_shift : Int) (dt : ℚ) (i j : Int) (m : Int) (s : FieldsRZ) :
    EvolveFCylindrical_offaxis_mode T_Algo inv_epsilon0 coefs_r n_coefs_r coefs_z n_coefs_z
        r dr rho_shift dt i j m s
      = { s with F := (Array4.mapCell s.F i j 0
          (fun n w => if n = 2*m then
              (if n = 2*m-1 then w + incRe T_Algo inv_epsilon0 coefs_r n_coefs_r coefs_z
                  n_coefs_z r dr rho_shift dt s i j m else w)
                + incIm T_Algo inv_epsilon0 coefs_r n_coefs_r coefs_z n_coefs_z
                  r dr rho_shift dt s i j m
            else if n = 2*m-1 then w + incRe T_Algo inv_epsilon0 coefs_r n_coefs_r coefs_z
              n_coefs_z r dr rho_shift dt s i j m else w)) } := by
  unfold EvolveFCylindrical_offaxis_mode
  simp only [Array4.set_add_eq_mapCell, Array4.mapCell_mapCell]
  rfl

theorem EvolveFCylindrical_onaxis_mode_eq (i j : Int) (m : Int) (s : FieldsRZ) :
    EvolveFCylindrical_onaxis_mode i j m s
      = { s with F := (Array4.mapCell s.F i j 0
          (fun n w => if n = 2*m then (0 : ℚ) else if n = 2*m-1 then 0 else w)) } := by
  unfold EvolveFCylindrical_onaxis_mode
  simp only [Array4.set_eq_mapCell, Array4.mapCell_mapCell]

/-- The per-cell lambda of `EvolveFCylindrical` rewrites the components of the cell
`(i, j, 0)` as `cylCellMap` says, and nothing else. -/
theorem EvolveFCylindrical_cell_eq (T_Algo : CylindricalAlgorithm) (ep0 : ℚ)
    (coefs_r : List ℚ) (n_coefs_r : Int) (coefs_z : List ℚ) (n_coefs_z : Int)
    (dr : ℚ) (nmodes : Int) (rmin : ℚ) (rho_shift : Int) (dt : ℚ)
    (i j k : Int) (s : FieldsRZ) :
    EvolveFCylindrical_cell T_Algo ep0 coefs_r n_coefs_r coefs_z n_coefs_z dr nmodes rmin
        rho_shift dt i j k s
      = { s with F := (Array4.mapCell s.F i j 0 (cylCellMap T_Algo ep0 coefs_r n_coefs_r
          coefs_z n_coefs_z dr nmodes rmin rho_shift dt s i j)) } := by
  unfold EvolveFCylindrical_cell
  by_cases hr : rmin + (i : ℚ) * dr ≠ 0
  · simp only [if_pos hr]
    rw [forLoop_modes _
      (fun s m w => w + incRe T_Algo (1 / ep0) coefs_r n_coefs_r coefs_z n_coefs_z
        (rmin + (i : ℚ) * dr) dr rho_shift dt s i j m)
      (fun s m w => w + incIm T_Algo (1 / ep0) coefs_r n_coefs_r coefs_z n_coefs_z
        (rmin + (i : ℚ) * dr) dr rho_shift dt s i j m) i j
      (fun m s => EvolveFCylindrical_offaxis_mode_eq _ _ _ _ _ _ _ _ _ _ _ _ m s)
      (fun _ _ => rfl) (fun _ _ => rfl)]
    simp only [Array4.set_add_eq_mapCell, Array4.mapCell_mapCell]
    congr 1
    refine congrArg (Array4.mapCell s.F i j 0) ?_
    funext n w
    unfold cylCellMap inc0
    by_cases h0 : n = 0
    · have h' : ¬ (1 ≤ n ∧ n ≤ 2 * nmodes - 2) := by omega
      simp only [if_pos h0, if_neg h', if_pos hr]
    · simp only [if_neg h0, if_pos hr]
      rfl
  · simp only [if_neg hr]
    rw [forLoop_modes _ (fun _ _ _ => 0) (fun _ _ _ => 0) i j
      (fun m s => EvolveFCylindrical_onaxis_mode_eq i j m s)
      (fun _ _ => rfl) (fun _ _ => rfl)]
    simp only [Array4.set_add_eq_mapCell, Array4.mapCell_mapCell]
    congr 1
    refine congrArg (Array4.mapCell s.F i j 0) ?_
    funext n w
    unfold cylCellMap inc0
    by_cases h0 : n = 0
    · have h' : ¬ (1 ≤ n ∧ n ≤ 2 * nmodes - 2) := by omega
      simp only [if_pos h0, if_neg h', if_neg hr]
    · simp only [if_neg h0, if_neg hr]
      by_cases h' : 1 ≤ n ∧ n ≤ 2 * nmodes - 2
      · simp only [if_pos h']
        by_cases h2 : n % 2 = 1 <;> simp only [h2, if_true, if_false]
      · simp only [if_neg h']

/-- A pass over distinct cells of a two-dimensional box, each step rewriting its own cell
`(i, j, 0)` from the value it holds. -/
theorem foldl_mapCell2D (φ : Int × Int → Int → ℚ → ℚ) (L : List (Int × Int))
    (hL : L.Nodup) (F : Array4) :
    L.foldl (fun G c => Array4.mapCell G c.1 c.2 0 (φ c)) F
      = fun i j k n => if k = 0 ∧ (i, j) ∈ L then φ (i, j) n (F i j k n) else F i j k n := by
  induction L generalizing F with
  | nil => simp
  | cons c L ih =>
    rw [List.nodup_cons] at hL
    rw [List.foldl_cons, ih hL.2]
    funext i j k n
    obtain ⟨ci, cj⟩ := c
    unfold Array4.mapCell
    by_cases h : i = ci ∧ j = cj ∧ k = 0
    · obtain ⟨rfl, rfl, rfl⟩ := h
      simp [hL.1]
    · by_cases hk : k = 0
      · have hne : (i, j) ≠ (ci, cj) := by
          intro hh
          simp only [Prod.mk.injEq] at hh
          exact h ⟨hh.1, hh.2, hk⟩
        have h2 : ¬ (i = ci ∧ j = cj) := fun hh => h ⟨hh.1, hh.2, hk⟩
        simp [h2, hk]
      · simp [h, hk]

/-- One pass of the cylindrical kernel over a box, in closed form. -/
theorem EvolveFCylindrical_pass (T_Algo : CylindricalAlgorithm) (ep0 : ℚ)
    (coefs_r : List ℚ) (n_coefs_r : Int) (coefs_z : List ℚ) (n_coefs_z : Int)
    (dr : ℚ) (nmodes : Int) (rmin : ℚ) (rho_shift : Int) (dt : ℚ) (b : Box2D)
    (s : FieldsRZ) :
    ParallelFor2D b (EvolveFCylindrical_cell T_Algo ep0 coefs_r n_coefs_r coefs_z n_coefs_z
        dr nmodes rmin rho_shift dt) s
      = { s with F := (fun i j k n => if k = 0 ∧ (i, j) ∈ b.cells then
            cylCellMap T_Algo ep0 coefs_r n_coefs_r coefs_z n_coefs_z dr nmodes rmin
              rho_shift dt s i j n (s.F i j k n)
          else s.F i j k n) } := by
  unfold ParallelFor2D
  rw [foldl_viaF (fun s : FieldsRZ => s.F) (fun s F => { s with F := F })
    (fun (c : Int × Int) s => EvolveFCylindrical_cell T_Algo ep0 coefs_r n_coefs_r
      coefs_z n_coefs_z dr nmodes rmin rho_shift dt c.1 c.2 0 s)
    (fun s c F => Array4.mapCell F c.1 c.2 0 (cylCellMap T_Algo ep0 coefs_r n_coefs_r
      coefs_z n_coefs_z dr nmodes rmin rho_shift dt s c.1 c.2))
    (fun c s => EvolveFCylindrical_cell_eq _ _ _ _ _ _ _ _ _ _ _ _ _ _ s)
    (fun _ _ _ => rfl) (fun _ _ => rfl) (fun _ _ _ => rfl) (fun _ => rfl)]
  rw [foldl_mapCell2D (fun c => cylCellMap T_Algo ep0 coefs_r n_coefs_r
      coefs_z n_coefs_z dr nmodes rmin rho_shift dt s c.1 c.2) b.cells b.nodup_cells2D]

/-- The step of `EvolveFCylindrical` on grid `g`: one pass over its tile box. -/
theorem EvolveFCylindrical_step (T_Algo : CylindricalAlgorithm) (ep0 : ℚ) (ncomps : Int)
    (solver : FiniteDifferenceSolver) (rhocomp : Int) (dt : ℚ)
    (mf : List (Tile FieldsRZ Box2D)) (g : Nat) (mfi : Tile FieldsRZ Box2D)
    (hg : mf[g]? = some mfi) :
    (EvolveFCylindrical T_Algo ep0 ncomps solver rhocomp dt mf)[g]?
      = some ⟨ParallelFor2D mfi.tilebox (EvolveFCylindrical_cell T_Algo ep0
          solver.m_stencil_coefs_r solver.m_stencil_coefs_r.length
          solver.m_stencil_coefs_z solver.m_stencil_coefs_z.length
          solver.m_dr solver.m_nmodes solver.m_rmin (rho_shift ncomps rhocomp) dt) mfi.views,
        mfi.tilebox⟩ := by
  unfold EvolveFCylindrical
  rw [List.getElem?_map, hg]
  rfl

/-- After `EvolveFCylindrical`, component `n` of a cell `(i, j, 0)` of the tile box of grid
`g` is what `cylCellMap` makes of the value it held. -/
theorem EvolveFCylindrical_at (T_Algo : CylindricalAlgorithm) (ep0 : ℚ) (ncomps : Int)
    (solver : FiniteDifferenceSolver) (rhocomp : Int) (dt : ℚ)
    (mf : List (Tile FieldsRZ Box2D)) (g : Nat) (mfi : Tile FieldsRZ Box2D)
    (hg : mf[g]? = some mfi) (i j : Int) (hc : mfi.tilebox.contains i j) :
    ∃ out : Tile FieldsRZ Box2D,
      (EvolveFCylindrical T_Algo ep0 ncomps solver rhocomp dt mf)[g]? = some out ∧
      ∀ n, out.views.F i j 0 n = cylCellMap T_Algo ep0
        solver.m_stencil_coefs_r solver.m_stencil_coefs_r.length
        solver.m_stencil_coefs_z solver.m_stencil_coefs_z.length
        solver.m_dr solver.m_nmodes solver.m_rmin (rho_shift ncomps rhocomp) dt
        mfi.views i j n (mfi.views.F i j 0 n) := by
  have hmem : (i, j) ∈ mfi.tilebox.cells := (Box2D.mem_cells2D _ _ _).2 hc
  rw [EvolveFCylindrical_step T_Algo ep0 ncomps solver rhocomp dt mf g mfi hg]
  refine ⟨_, rfl, fun n => ?_⟩
  simp only [EvolveFCylindrical_pass, hmem, and_self, if_true]

/-! ## Claims on the cylindrical kernel -/

/-- C2: axis invariant.  After `EvolveFCylindrical`, at every cell `(i, j)` of a tile box
with `r = rmin + i*dr = 0`, the components `2m-1` and `2m` of `F` are `0` for every mode
`m` with `1 ≤ m < nmodes`, whatever `F`, `E`, `rho`, `dt` and `rhocomp` were. -/
theorem C2_axis_invariant (T_Algo : CylindricalAlgorithm) (ep0 : ℚ) (ncomps : Int)
    (solver : FiniteDifferenceSolver) (rhocomp : Int) (dt : ℚ)
    (mf : List (Tile FieldsRZ Box2D)) (g : Nat) (mfi : Tile FieldsRZ Box2D)
    (hg : mf[g]? = some mfi) (i j : Int) (hc : mfi.tilebox.contains i j)
    (hr : solver.m_rmin + (i : ℚ) * solver.m_dr = 0)
    (m : Int) (hm : 1 ≤ m ∧ m < solver.m_nmodes) :
    ∃ out : Tile FieldsRZ Box2D,
      (EvolveFCylindrical T_Algo ep0 ncomps solver rhocomp dt mf)[g]? = some out ∧
      out.views.F i j 0 (2*m-1) = 0 ∧ out.views.F i j 0 (2*m) = 0 := by
  obtain ⟨out, h1, h2⟩ :=
    EvolveFCylindrical_at T_Algo ep0 ncomps solver rhocomp dt mf g mfi hg i j hc
  refine ⟨out, h1, ?_, ?_⟩
  · have a0 : ¬ (2 * m - 1 = 0) := by omega
    have a1 : 1 ≤ 2 * m - 1 ∧ 2 * m - 1 ≤ 2 * solver.m_nmodes - 2 := by omega
    rw [h2]
    unfold cylCellMap
    simp only [if_neg a0, if_pos a1, hr, ne_eq, not_true_eq_false, if_false]
  · have a0 : ¬ (2 * m = 0) := by omega
    have a1 : 1 ≤ 2 * m ∧ 2 * m ≤ 2 * solver.m_nmodes - 2 := by omega
    rw [h2]
    unfold cylCellMap
    simp only [if_neg a0, if_pos a1, hr, ne_eq, not_true_eq_false, if_false]

/-- Instance of C2: two modes, the on-axis cell `(0, 0)`, `F = 5` before the update. -/
theorem C2_axis_invariant_witness :
    sampleFieldsRZ.F 0 0 0 1 = 5 ∧ sampleFieldsRZ.F 0 0 0 2 = 5 ∧
    ∃ out : Tile FieldsRZ Box2D,
      (EvolveFCylindrical CylindricalYeeAlgorithm 1 3 sampleSolver 0 1
        [⟨sampleFieldsRZ, axisBox⟩])[0]? = some out ∧
      out.views.F 0 0 0 (2*1-1) = 0 ∧ out.views.F 0 0 0 (2*1) = 0 :=
  ⟨rfl, rfl, C2_axis_invariant CylindricalYeeAlgorithm 1 3 sampleSolver 0 1
    [⟨sampleFieldsRZ, axisBox⟩] 0 ⟨sampleFieldsRZ, axisBox⟩ rfl 0 0 (by decide)
    (by simp [sampleSolver]) 1 (by decide)⟩

/-- C5: mode-0 cylindrical update, off and on axis.  After `EvolveFCylindrical`, at every
cell `(i, j)` of a tile box, `F(i, j, 0, 0)` is the value before plus
`dt * (-rho(i, j, 0, rho_shift)/ep0 + R + DownwardDz(Ez, component 0))`, where `R` is
`DownwardDrr_over_r(Er, r, dr, component 0)` when `r ≠ 0` and `4 * Er(i, j, 0, 0) / dr` when
`r = 0`; and on the axis the per-cell update does not depend on the radial operator at
all. -/
theorem C5_mode0_update (T_Algo : CylindricalAlgorithm) (ep0 : ℚ) (ncomps : Int)
    (solver : FiniteDifferenceSolver) (rhocomp : Int) (dt : ℚ)
    (mf : List (Tile FieldsRZ Box2D)) (g : Nat) (mfi : Tile FieldsRZ Box2D)
    (hg : mf[g]? = some mfi) (i j : Int) (hc : mfi.tilebox.contains i j) :
    (∃ out : Tile FieldsRZ Box2D,
      (EvolveFCylindrical T_Algo ep0 ncomps solver rhocomp dt mf)[g]? = some out ∧
      out.views.F i j 0 0 = mfi.views.F i j 0 0 + dt * (
        - mfi.views.rho i j 0 (rho_shift ncomps rhocomp) / ep0
        + (if solver.m_rmin + (i : ℚ) * solver.m_dr ≠ 0 then
            T_Algo.DownwardDrr_over_r mfi.views.Er (solver.m_rmin + (i : ℚ) * solver.m_dr)
              solver.m_dr solver.m_stencil_coefs_r solver.m_stencil_coefs_r.length i j 0 0
          else 4 * mfi.views.Er i j 0 0 / solver.m_dr)
        + T_Algo.DownwardDz mfi.views.Ez solver.m_stencil_coefs_z
            solver.m_stencil_coefs_z.length i j 0 0 )) ∧
    (solver.m_rmin + (i : ℚ) * solver.m_dr = 0 →
      ∀ T' : CylindricalAlgorithm, T'.DownwardDz = T_Algo.DownwardDz →
        ∀ (k : Int) (s : FieldsRZ),
          EvolveFCylindrical_cell T' ep0
              solver.m_stencil_coefs_r solver.m_stencil_coefs_r.length
              solver.m_stencil_coefs_z solver.m_stencil_coefs_z.length
              solver.m_dr solver.m_nmodes solver.m_rmin (rho_shift ncomps rhocomp) dt i j k s
            = EvolveFCylindrical_cell T_Algo ep0
              solver.m_stencil_coefs_r solver.m_stencil_coefs_r.length
              solver.m_stencil_coefs_z solver.m_stencil_coefs_z.length
              solver.m_dr solver.m_nmodes solver.m_rmin (rho_shift ncomps rhocomp) dt
              i j k s) := by
  constructor
  · obtain ⟨out, h1, h2⟩ :=
      EvolveFCylindrical_at T_Algo ep0 ncomps solver rhocomp dt mf g mfi hg i j hc
    refine ⟨out, h1, ?_⟩
    rw [h2]
    unfold cylCellMap inc0
    by_cases hr : solver.m_rmin + (i : ℚ) * solver.m_dr ≠ 0
    · simp only [if_pos hr, if_true, neg_mul, mul_one_div]
    · simp only [if_neg hr, if_true, neg_mul, mul_one_div]
  · intro hr T' hT k s
    unfold EvolveFCylindrical_cell
    simp only [hr, ne_eq, not_true_eq_false, if_false, hT]

/-- Instance of C5 at the on-axis cell `(0, 0)`: `5 + 1 * (-7 + 4*3/1 + 0) = 10`. -/
theorem C5_mode0_update_witness :
    ∃ out : Tile FieldsRZ Box2D,
      (EvolveFCylindrical CylindricalYeeAlgorithm 1 3 sampleSolver 0 1
        [⟨sampleFieldsRZ, axisBox⟩])[0]? = some out ∧ out.views.F 0 0 0 0 = 10 := by
  obtain ⟨out, h1, h2⟩ := (C5_mode0_update CylindricalYeeAlgorithm 1 3 sampleSolver 0 1
    [⟨sampleFieldsRZ, axisBox⟩] 0 ⟨sampleFieldsRZ, axisBox⟩ rfl 0 0 (by decide)).1
  refine ⟨out, h1, ?_⟩
  rw [h2]
  simp [sampleFieldsRZ, sampleSolver, CylindricalYeeAlgorithm, rho_shift]
  norm_num

theorem Array4.set_of_ne (a : Array4) (i j k n : Int) (v : ℚ) (i' j' k' n' : Int)
    (h : ¬ (i' = i ∧ j' = j ∧ k' = k ∧ n' = n)) :
    Array4.set a i j k n v i' j' k' n' = a i' j' k' n' := by
  unfold Array4.set
  rw [if_neg h]

theorem Array4.set_same (a : Array4) (i j k n : Int) (v : ℚ) :
    Array4.set a i j k n v i j k n = v := by
  unfold Array4.set
  simp

/-- C4 (the claim as stated fails): with two modes, at the off-axis cell `(1, 0)` and for
an `Ez` whose components `1` and `2` have different axial derivatives, no single `S`
gives both the increment `dt * (S + m*Et(2m)/r)` of the real part and the increment
`dt * (S - m*Et(2m-1)/r)` of the imaginary part of mode `1`. -/
theorem C4_shared_S_counterexample :
    ∃ out : Tile FieldsRZ Box2D,
      (EvolveFCylindrical CylindricalYeeAlgorithm 1 3 sampleSolver 0 1
        [⟨sampleFieldsRZ, offAxisBox⟩])[0]? = some out ∧
      ¬ ∃ S : ℚ,
        out.views.F 1 0 0 (2*1-1) = sampleFieldsRZ.F 1 0 0 (2*1-1)
          + 1 * (S + ((1 : Int) : ℚ) * sampleFieldsRZ.Et 1 0 0 (2*1) / (0 + ((1 : Int) : ℚ) * 1)) ∧
        out.views.F 1 0 0 (2*1) = sampleFieldsRZ.F 1 0 0 (2*1)
          + 1 * (S - ((1 : Int) : ℚ) * sampleFieldsRZ.Et 1 0 0 (2*1-1) / (0 + ((1 : Int) : ℚ) * 1)) := by
  obtain ⟨out, h1, h2⟩ := EvolveFCylindrical_at CylindricalYeeAlgorithm 1 3 sampleSolver 0 1
    [⟨sampleFieldsRZ, offAxisBox⟩] 0 ⟨sampleFieldsRZ, offAxisBox⟩ rfl 1 0 (by decide)
  refine ⟨out, h1, ?_⟩
  rintro ⟨S, hre, him⟩
  rw [h2] at hre him
  simp [cylCellMap, incRe, incIm, sampleFieldsRZ, sampleSolver, CylindricalYeeAlgorithm,
    rho_shift] at hre him
  norm_num at hre him
  linarith

/-- C4 (amended): at every off-axis cell `(i, j)` of a tile box and for every mode `m`
with `1 ≤ m < nmodes`, `EvolveFCylindrical` adds `dt * (S_re + m*Et(i,j,0,2m)/r)` to the
real part `F(i,j,0,2m-1)` and `dt * (S_im - m*Et(i,j,0,2m-1)/r)` to the imaginary part
`F(i,j,0,2m)`, where `S_re` and `S_im` have the same charge-density term
`-rho(i,j,0,rho_shift+2m-1)/ep0` and the same radial derivative
`DownwardDrr_over_r(Er, component 2m-1)`, while the axial derivative `DownwardDz(Ez)` is
taken at component `2m-1` in `S_re` and at component `2m` in `S_im`. -/
theorem C4_higher_mode_update (T_Algo : CylindricalAlgorithm) (ep0 : ℚ) (ncomps : Int)
    (solver : FiniteDifferenceSolver) (rhocomp : Int) (dt : ℚ)
    (mf : List (Tile FieldsRZ Box2D)) (g : Nat) (mfi : Tile FieldsRZ Box2D)
    (hg : mf[g]? = some mfi) (i j : Int) (hc : mfi.tilebox.contains i j)
    (hr : solver.m_rmin + (i : ℚ) * solver.m_dr ≠ 0)
    (m : Int) (hm : 1 ≤ m ∧ m < solver.m_nmodes) :
    ∃ out : Tile FieldsRZ Box2D,
      (EvolveFCylindrical T_Algo ep0 ncomps solver rhocomp dt mf)[g]? = some out ∧
      out.views.F i j 0 (2*m-1) = mfi.views.F i j 0 (2*m-1) + dt * (
        ( - mfi.views.rho i j 0 (rho_shift ncomps rhocomp + 2*m-1) / ep0
          + T_Algo.DownwardDrr_over_r mfi.views.Er (solver.m_rmin + (i : ℚ) * solver.m_dr)
              solver.m_dr solver.m_stencil_coefs_r solver.m_stencil_coefs_r.length
              i j 0 (2*m-1)
          + T_Algo.DownwardDz mfi.views.Ez solver.m_stencil_coefs_z
              solver.m_stencil_coefs_z.length i j 0 (2*m-1) )
        + (m : ℚ) * mfi.views.Et i j 0 (2*m) / (solver.m_rmin + (i : ℚ) * solver.m_dr) ) ∧
      out.views.F i j 0 (2*m) = mfi.views.F i j 0 (2*m) + dt * (
        ( - mfi.views.rho i j 0 (rho_shift ncomps rhocomp + 2*m-1) / ep0
          + T_Algo.DownwardDrr_over_r mfi.views.Er (solver.m_rmin + (i : ℚ) * solver.m_dr)
              solver.m_dr solver.m_stencil_coefs_r solver.m_stencil_coefs_r.length
              i j 0 (2*m-1)
          + T_Algo.DownwardDz mfi.views.Ez solver.m_stencil_coefs_z
              solver.m_stencil_coefs_z.length i j 0 (2*m) )
        - (m : ℚ) * mfi.views.Et i j 0 (2*m-1) / (solver.m_rmin + (i : ℚ) * solver.m_dr) ) := by
  obtain ⟨out, h1, h2⟩ :=
    EvolveFCylindrical_at T_Algo ep0 ncomps solver rhocomp dt mf g mfi hg i j hc
  refine ⟨out, h1, ?_, ?_⟩
  · have a0 : ¬ (2 * m - 1 = 0) := by omega
    have a1 : 1 ≤ 2 * m - 1 ∧ 2 * m - 1 ≤ 2 * solver.m_nmodes - 2 := by omega
    have a2 : (2 * m - 1) % 2 = 1 := by omega
    have a3 : (2 * m - 1 + 1) / 2 = m := by omega
    rw [h2]
    unfold cylCellMap incRe
    simp only [if_neg a0, if_pos a1, if_pos hr, if_pos a2, a3]
    ring
  · have a0 : ¬ (2 * m = 0) := by omega
    have a1 : 1 ≤ 2 * m ∧ 2 * m ≤ 2 * solver.m_nmodes - 2 := by omega
    have a2 : ¬ ((2 * m) % 2 = 1) := by omega
    have a3 : (2 * m) / 2 = m := by omega
    rw [h2]
    unfold cylCellMap incIm
    simp only [if_neg a0, if_pos a1, if_pos hr, if_neg a2, a3]
    ring

/-- Instance of the amended C4 at the off-axis cell `(1, 0)`, mode `1`: the real part
becomes `5 + (-7 + 3 + 1 + 2) = 4` and the imaginary part `5 + (-7 + 3 + 0 - 1) = 0`. -/
theorem C4_higher_mode_update_witness :
    ∃ out : Tile FieldsRZ Box2D,
      (EvolveFCylindrical CylindricalYeeAlgorithm 1 3 sampleSolver 0 1
        [⟨sampleFieldsRZ, offAxisBox⟩])[0]? = some out ∧
      out.views.F 1 0 0 (2*1-1) = 4 ∧ out.views.F 1 0 0 (2*1) = 0 := by
  obtain ⟨out, h1, h2, h3⟩ := C4_higher_mode_update CylindricalYeeAlgorithm 1 3 sampleSolver
    0 1 [⟨sampleFieldsRZ, offAxisBox⟩] 0 ⟨sampleFieldsRZ, offAxisBox⟩ rfl 1 0 (by decide)
    (by simp [sampleSolver]) 1 (by decide)
  refine ⟨out, h1, ?_, ?_⟩
  · rw [h2]
    simp [sampleFieldsRZ, sampleSolver, CylindricalYeeAlgorithm, rho_shift]
    norm_num
  · rw [h3]
    simp [sampleFieldsRZ, sampleSolver, CylindricalYeeAlgorithm, rho_shift]
    norm_num

/-- Negating one entry of `Et` changes what the per-cell lambda makes of component `n` of
the cell `(i', j')` only when that entry is the one the component couples to: entry
`n + 1` of the same cell for an odd `n`, entry `n - 1` for an even `n`. -/
theorem cylCellMap_negateAt (T_Algo : CylindricalAlgorithm) (ep0 : ℚ)
    (coefs_r : List ℚ) (n_coefs_r : Int) (coefs_z : List ℚ) (n_coefs_z : Int)
    (dr : ℚ) (nmodes : Int) (rmin : ℚ) (rho_shift : Int) (dt : ℚ)
    (s : FieldsRZ) (i j c : Int) (i' j' n : Int) (w : ℚ)
    (h : ¬ (i' = i ∧ j' = j ∧ ((n % 2 = 1 ∧ c = n + 1) ∨ (n % 2 = 0 ∧ c = n - 1)))) :
    cylCellMap T_Algo ep0 coefs_r n_coefs_r coefs_z n_coefs_z dr nmodes rmin rho_shift dt
        { s with Et := Array4.negateAt s.Et i j 0 c } i' j' n w
      = cylCellMap T_Algo ep0 coefs_r n_coefs_r coefs_z n_coefs_z dr nmodes rmin rho_shift dt
        s i' j' n w := by
  unfold cylCellMap
  by_cases h0 : n = 0
  · simp only [if_pos h0]
    rfl
  · simp only [if_neg h0]
    by_cases h1 : 1 ≤ n ∧ n ≤ 2 * nmodes - 2
    · simp only [if_pos h1]
      by_cases hr : rmin + (i' : ℚ) * dr ≠ 0
      · simp only [if_pos hr]
        by_cases h2 : n % 2 = 1
        · simp only [if_pos h2]
          unfold incRe Array4.negateAt
          have hne : ¬ (i' = i ∧ j' = j ∧ (0 : Int) = 0 ∧ 2 * ((n + 1) / 2) = c) := by
            rintro ⟨e1, e2, -, e3⟩
            exact h ⟨e1, e2, Or.inl ⟨h2, by omega⟩⟩
          simp only [Array4.set_of_ne _ _ _ _ _ _ _ _ _ _ hne]
        · simp only [if_neg h2]
          unfold incIm Array4.negateAt
          have hne : ¬ (i' = i ∧ j' = j ∧ (0 : Int) = 0 ∧ 2 * (n / 2) - 1 = c) := by
            rintro ⟨e1, e2, -, e3⟩
            exact h ⟨e1, e2, Or.inr ⟨by omega, by omega⟩⟩
          simp only [Array4.set_of_ne _ _ _ _ _ _ _ _ _ _ hne]
      · simp only [if_neg hr]
    · simp only [if_neg h1]

/-- C9: mode coupling antisymmetry.  At an off-axis cell `(i, j)` of a tile box and for a
mode `m` with `1 ≤ m < nmodes`, with all other inputs fixed: negating `Et(i,j,0,2m)` turns
the increment of the real part `F(i,j,0,2m-1)` from `dt * (S + c)` into `dt * (S - c)`,
`c = m*Et(i,j,0,2m)/r`, and changes no other value of `F`; negating `Et(i,j,0,2m-1)` turns
the increment of the imaginary part `F(i,j,0,2m)` from `dt * (S' + c')` into
`dt * (S' - c')`, `c' = -m*Et(i,j,0,2m-1)/r`, and changes no other value of `F`.  `S` and
`S'` are the sums of the charge-density term and of the radial and axial derivatives. -/
theorem C9_mode_coupling_antisymmetry (T_Algo : CylindricalAlgorithm) (ep0 : ℚ)
    (ncomps : Int) (solver : FiniteDifferenceSolver) (rhocomp : Int) (dt : ℚ)
    (mf mf' mf'' : List (Tile FieldsRZ Box2D)) (g : Nat) (mfi : Tile FieldsRZ Box2D)
    (i j : Int) (m : Int)
    (hg : mf[g]? = some mfi)
    (hg' : mf'[g]? = some
      ⟨{ mfi.views with Et := Array4.negateAt mfi.views.Et i j 0 (2*m) }, mfi.tilebox⟩)
    (hg'' : mf''[g]? = some
      ⟨{ mfi.views with Et := Array4.negateAt mfi.views.Et i j 0 (2*m-1) }, mfi.tilebox⟩)
    (hc : mfi.tilebox.contains i j)
    (hr : solver.m_rmin + (i : ℚ) * solver.m_dr ≠ 0)
    (hm : 1 ≤ m ∧ m < solver.m_nmodes) :
    ∃ out out' out'' : Tile FieldsRZ Box2D,
      (EvolveFCylindrical T_Algo ep0 ncomps solver rhocomp dt mf)[g]? = some out ∧
      (EvolveFCylindrical T_Algo ep0 ncomps solver rhocomp dt mf')[g]? = some out' ∧
      (EvolveFCylindrical T_Algo ep0 ncomps solver rhocomp dt mf'')[g]? = some out'' ∧
      (∃ S c : ℚ,
        S = - mfi.views.rho i j 0 (rho_shift ncomps rhocomp + 2*m-1) / ep0
          + T_Algo.DownwardDrr_over_r mfi.views.Er (solver.m_rmin + (i : ℚ) * solver.m_dr)
              solver.m_dr solver.m_stencil_coefs_r solver.m_stencil_coefs_r.length
              i j 0 (2*m-1)
          + T_Algo.DownwardDz mfi.views.Ez solver.m_stencil_coefs_z
              solver.m_stencil_coefs_z.length i j 0 (2*m-1) ∧
        c = (m : ℚ) * mfi.views.Et i j 0 (2*m) / (solver.m_rmin + (i : ℚ) * solver.m_dr) ∧
        out.views.F i j 0 (2*m-1) = mfi.views.F i j 0 (2*m-1) + dt * (S + c) ∧
        out'.views.F i j 0 (2*m-1) = mfi.views.F i j 0 (2*m-1) + dt * (S - c)) ∧
      (∀ i' j' k' n : Int, ¬ (i' = i ∧ j' = j ∧ k' = 0 ∧ n = 2*m-1) →
        out'.views.F i' j' k' n = out.views.F i' j' k' n) ∧
      (∃ S' c' : ℚ,
        S' = - mfi.views.rho i j 0 (rho_shift ncomps rhocomp + 2*m-1) / ep0
          + T_Algo.DownwardDrr_over_r mfi.views.Er (solver.m_rmin + (i : ℚ) * solver.m_dr)
              solver.m_dr solver.m_stencil_coefs_r solver.m_stencil_coefs_r.length
              i j 0 (2*m-1)
          + T_Algo.DownwardDz mfi.views.Ez solver.m_stencil_coefs_z
              solver.m_stencil_coefs_z.length i j 0 (2*m) ∧
        c' = - (m : ℚ) * mfi.views.Et i j 0 (2*m-1)
              / (solver.m_rmin + (i : ℚ) * solver.m_dr) ∧
        out.views.F i j 0 (2*m) = mfi.views.F i j 0 (2*m) + dt * (S' + c') ∧
        out''.views.F i j 0 (2*m) = mfi.views.F i j 0 (2*m) + dt * (S' - c')) ∧
      (∀ i' j' k' n : Int, ¬ (i' = i ∧ j' = j ∧ k' = 0 ∧ n = 2*m) →
        out''.views.F i' j' k' n = out.views.F i' j' k' n) := by
  have hmem : (i, j) ∈ mfi.tilebox.cells := (Box2D.mem_cells2D _ _ _).2 hc
  have o0 : ¬ (2 * m - 1 = 0) := by omega
  have o1 : 1 ≤ 2 * m - 1 ∧ 2 * m - 1 ≤ 2 * solver.m_nmodes - 2 := by omega
  have o2 : (2 * m - 1) % 2 = 1 := by omega
  have o3 : (2 * m - 1 + 1) / 2 = m := by omega
  have e0 : ¬ (2 * m = 0) := by omega
  have e1 : 1 ≤ 2 * m ∧ 2 * m ≤ 2 * solver.m_nmodes - 2 := by omega
  have e2 : ¬ ((2 * m) % 2 = 1) := by omega
  have e3 : (2 * m) / 2 = m := by omega
  rw [EvolveFCylindrical_step T_Algo ep0 ncomps solver rhocomp dt mf g mfi hg,
    EvolveFCylindrical_step T_Algo ep0 ncomps solver rhocomp dt mf' g _ hg',
    EvolveFCylindrical_step T_Algo ep0 ncomps solver rhocomp dt mf'' g _ hg'']
  refine ⟨_, _, _, rfl, rfl, rfl, ⟨_, _, rfl, rfl, ?_, ?_⟩, ?_, ⟨_, _, rfl, rfl, ?_, ?_⟩, ?_⟩
  · simp only [EvolveFCylindrical_pass, hmem, and_self, if_true]
    unfold cylCellMap incRe
    simp only [if_neg o0, if_pos o1, if_pos hr, if_pos o2, o3]
    ring
  · simp only [EvolveFCylindrical_pass, hmem, and_self, if_true]
    unfold cylCellMap incRe Array4.negateAt
    simp only [if_neg o0, if_pos o1, if_pos hr, if_pos o2, o3, Array4.set_same]
    ring
  · intro i' j' k' n hne
    simp only [EvolveFCylindrical_pass]
    by_cases hcell : k' = 0 ∧ (i', j') ∈ mfi.tilebox.cells
    · simp only [if_pos hcell]
      refine cylCellMap_negateAt _ _ _ _ _ _ _ _ _ _ _ _ _ _ _ _ _ _ _ ?_
      rintro ⟨a1, a2, a3⟩
      refine hne ⟨a1, a2, hcell.1, ?_⟩
      omega
    · simp only [if_neg hcell]
  · simp only [EvolveFCylindrical_pass, hmem, and_self, if_true]
    unfold cylCellMap incIm
    simp only [if_neg e0, if_pos e1, if_pos hr, if_neg e2, e3]
    ring
  · simp only [EvolveFCylindrical_pass, hmem, and_self, if_true]
    unfold cylCellMap incIm Array4.negateAt
    simp only [if_neg e0, if_pos e1, if_pos hr, if_neg e2, e3, Array4.set_same]
    ring
  · intro i' j' k' n hne
    simp only [EvolveFCylindrical_pass]
    by_cases hcell : k' = 0 ∧ (i', j') ∈ mfi.tilebox.cells
    · simp only [if_pos hcell]
      refine cylCellMap_negateAt _ _ _ _ _ _ _ _ _ _ _ _ _ _ _ _ _ _ _ ?_
      rintro ⟨a1, a2, a3⟩
      refine hne ⟨a1, a2, hcell.1, ?_⟩
      omega
    · simp only [if_neg hcell]

/-- Instance of C9 at the off-axis cell `(1, 0)`, mode `1`: the real part goes to
`5 + (-3 + 2) = 4`, and to `5 + (-3 - 2) = 0` once `Et(1,0,0,2)` is negated; the imaginary
part goes to `5 + (-4 - 1) = 0`, and to `5 + (-4 + 1) = 2` once `Et(1,0,0,1)` is negated. -/
theorem C9_mode_coupling_antisymmetry_witness :
    ∃ out out' out'' : Tile FieldsRZ Box2D,
      (EvolveFCylindrical CylindricalYeeAlgorithm 1 3 sampleSolver 0 1
        [⟨sampleFieldsRZ, offAxisBox⟩])[0]? = some out ∧
      (EvolveFCylindrical CylindricalYeeAlgorithm 1 3 sampleSolver 0 1
        [⟨{ sampleFieldsRZ with Et := Array4.negateAt sampleFieldsRZ.Et 1 0 0 (2*1) },
          offAxisBox⟩])[0]? = some out' ∧
      (EvolveFCylindrical CylindricalYeeAlgorithm 1 3 sampleSolver 0 1
        [⟨{ sampleFieldsRZ with Et := Array4.negateAt sampleFieldsRZ.Et 1 0 0 (2*1-1) },
          offAxisBox⟩])[0]? = some out'' ∧
      out.views.F 1 0 0 (2*1-1) = 4 ∧ out'.views.F 1 0 0 (2*1-1) = 0 ∧
      out.views.F 1 0 0 (2*1) = 0 ∧ out''.views.F 1 0 0 (2*1) = 2 := by
  obtain ⟨out, out', out'', h, h', h'', ⟨S, c, hS, hc, a1, a2⟩, -, ⟨S', c', hS', hc', b1, b2⟩, -⟩ :=
    C9_mode_coupling_antisymmetry CylindricalYeeAlgorithm 1 3 sampleSolver 0 1
      [⟨sampleFieldsRZ, offAxisBox⟩]
      [⟨{ sampleFieldsRZ with Et := Array4.negateAt sampleFieldsRZ.Et 1 0 0 (2*1) },
        offAxisBox⟩]
      [⟨{ sampleFieldsRZ with Et := Array4.negateAt sampleFieldsRZ.Et 1 0 0 (2*1-1) },
        offAxisBox⟩]
      0 ⟨sampleFieldsRZ, offAxisBox⟩ 1 0 1 rfl rfl rfl (by decide)
      (by simp [sampleSolver]) (by decide)
  have eS : S = -3 := by
    rw [hS]
    simp [sampleFieldsRZ, sampleSolver, CylindricalYeeAlgorithm, rho_shift]
    norm_num
  have ec : c = 2 := by
    rw [hc]
    simp [sampleFieldsRZ, sampleSolver]
  have eS' : S' = -4 := by
    rw [hS']
    simp [sampleFieldsRZ, sampleSolver, CylindricalYeeAlgorithm, rho_shift]
    norm_num
  have ec' : c' = -1 := by
    rw [hc']
    simp [sampleFieldsRZ, sampleSolver]
  have eF1 : sampleFieldsRZ.F 1 0 0 (2*1-1) = 5 := rfl
  have eF2 : sampleFieldsRZ.F 1 0 0 (2*1) = 5 := rfl
  refine ⟨out, out', out'', h, h', h'', ?_, ?_, ?_, ?_⟩
  · rw [a1, eS, ec, eF1]; norm_num
  · rw [a2, eS, ec, eF1]; norm_num
  · rw [b1, eS', ec', eF2]; norm_num
  · rw [b2, eS', ec', eF2]; norm_num

theorem mem_rhoComponentsRead (rho_shift nmodes c : Int) :
    c ∈ rhoComponentsRead rho_shift nmodes
      ↔ c = rho_shift ∨ ∃ m, 1 ≤ m ∧ m < nmodes ∧ c = rho_shift + 2*m-1 := by
  unfold rhoComponentsRead
  simp only [List.mem_cons, List.mem_flatMap, mem_intRange, List.mem_singleton, or_self,
    List.not_mem_nil, or_false]
  constructor
  · rintro (h | ⟨m, ⟨h1, h2⟩, h3⟩)
    · exact Or.inl h
    · exact Or.inr ⟨m, h1, h2, h3⟩
  · rintro (h | ⟨m, h1, h2, h3⟩)
    · exact Or.inl h
    · exact Or.inr ⟨m, ⟨h1, h2⟩, h3⟩

/-- What the per-cell lambda makes of a component depends on `rho` only through the
components of `rhoComponentsRead` at its own cell. -/
theorem cylCellMap_congr_rho (T_Algo : CylindricalAlgorithm) (ep0 : ℚ)
    (coefs_r : List ℚ) (n_coefs_r : Int) (coefs_z : List ℚ) (n_coefs_z : Int)
    (dr : ℚ) (nmodes : Int) (rmin : ℚ) (rho_shift : Int) (dt : ℚ)
    (s s' : FieldsRZ) (i j n : Int) (w : ℚ)
    (hEr : s'.Er = s.Er) (hEt : s'.Et = s.Et) (hEz : s'.Ez = s.Ez)
    (hrho : ∀ c ∈ rhoComponentsRead rho_shift nmodes, s'.rho i j 0 c = s.rho i j 0 c) :
    cylCellMap T_Algo ep0 coefs_r n_coefs_r coefs_z n_coefs_z dr nmodes rmin rho_shift dt
        s' i j n w
      = cylCellMap T_Algo ep0 coefs_r n_coefs_r coefs_z n_coefs_z dr nmodes rmin rho_shift dt
        s i j n w := by
  unfold cylCellMap
  by_cases h0 : n = 0
  · simp only [if_pos h0]
    unfold inc0
    rw [hEr, hEz, hrho rho_shift ((mem_rhoComponentsRead _ _ _).2 (Or.inl rfl))]
  · simp only [if_neg h0]
    by_cases h1 : 1 ≤ n ∧ n ≤ 2 * nmodes - 2
    · simp only [if_pos h1]
      by_cases hr : rmin + (i : ℚ) * dr ≠ 0
      · simp only [if_pos hr]
        by_cases h2 : n % 2 = 1
        · simp only [if_pos h2]
          unfold incRe
          rw [hEr, hEt, hEz, hrho (rho_shift + 2 * ((n + 1) / 2) - 1)
            ((mem_rhoComponentsRead _ _ _).2 (Or.inr ⟨(n + 1) / 2, by omega, by omega, rfl⟩))]
        · simp only [if_neg h2]
          unfold incIm
          rw [hEr, hEt, hEz, hrho (rho_shift + 2 * (n / 2) - 1)
            ((mem_rhoComponentsRead _ _ _).2 (Or.inr ⟨n / 2, by omega, by omega, rfl⟩))]
      · simp only [if_neg hr]
    · simp only [if_neg h1]

/-- C6: charge-density time-level selection in the cylindrical kernel.  With
`ncomps = 2*nmodes - 1` components per time level (`nmodes ≥ 1`) and `rhocomp` equal to `0`
or `1`: `rho_shift` is `rhocomp * ncomps` (`0`, or exactly `ncomps`); every component at
which `rho` is read lies in `[rhocomp*ncomps, rhocomp*ncomps + ncomps)`, that is in
`[0, ncomps)` for `rhocomp = 0` and in `[ncomps, 2*ncomps)` for `rhocomp = 1`; and two runs of
`EvolveFCylindrical` whose inputs agree except on components of `rho` outside that range
give the same `F`. -/
theorem C6_rho_time_level (T_Algo : CylindricalAlgorithm) (ep0 : ℚ) (ncomps : Int)
    (solver : FiniteDifferenceSolver) (rhocomp : Int) (dt : ℚ)
    (mf mf' : List (Tile FieldsRZ Box2D)) (g : Nat) (mfi mfi' : Tile FieldsRZ Box2D)
    (hn : ncomps = 2 * solver.m_nmodes - 1) (hmodes : 1 ≤ solver.m_nmodes)
    (hrc : rhocomp = 0 ∨ rhocomp = 1)
    (hg : mf[g]? = some mfi) (hg' : mf'[g]? = some mfi')
    (hbox : mfi'.tilebox = mfi.tilebox) (hF : mfi'.views.F = mfi.views.F)
    (hEr : mfi'.views.Er = mfi.views.Er) (hEt : mfi'.views.Et = mfi.views.Et)
    (hEz : mfi'.views.Ez = mfi.views.Ez)
    (hrho : ∀ i j k c : Int, rhocomp * ncomps ≤ c → c < rhocomp * ncomps + ncomps →
      mfi'.views.rho i j k c = mfi.views.rho i j k c) :
    rho_shift ncomps rhocomp = rhocomp * ncomps ∧
    (∀ c ∈ rhoComponentsRead (rho_shift ncomps rhocomp) solver.m_nmodes,
      rhocomp * ncomps ≤ c ∧ c < rhocomp * ncomps + ncomps) ∧
    ∃ out out' : Tile FieldsRZ Box2D,
      (EvolveFCylindrical T_Algo ep0 ncomps solver rhocomp dt mf)[g]? = some out ∧
      (EvolveFCylindrical T_Algo ep0 ncomps solver rhocomp dt mf')[g]? = some out' ∧
      out'.views.F = out.views.F := by
  have hshift : rho_shift ncomps rhocomp = rhocomp * ncomps := by
    unfold rho_shift
    rcases hrc with h | h <;> simp [h]
  have hrange : ∀ c ∈ rhoComponentsRead (rho_shift ncomps rhocomp) solver.m_nmodes,
      rhocomp * ncomps ≤ c ∧ c < rhocomp * ncomps + ncomps := by
    intro c hcmem
    rw [hshift, mem_rhoComponentsRead] at hcmem
    rcases hcmem with h | ⟨m, h1, h2, h3⟩
    · omega
    · omega
  refine ⟨hshift, hrange, ?_⟩
  rw [EvolveFCylindrical_step T_Algo ep0 ncomps solver rhocomp dt mf g mfi hg,
    EvolveFCylindrical_step T_Algo ep0 ncomps solver rhocomp dt mf' g mfi' hg']
  refine ⟨_, _, rfl, rfl, ?_⟩
  simp only [EvolveFCylindrical_pass, hbox, hF]
  funext i j k n
  by_cases hcell : k = 0 ∧ (i, j) ∈ mfi.tilebox.cells
  · simp only [if_pos hcell]
    refine cylCellMap_congr_rho _ _ _ _ _ _ _ _ _ _ _ _ _ _ _ _ _ hEr hEt hEz ?_
    intro c hcmem
    exact hrho i j 0 c (hrange c hcmem).1 (hrange c hcmem).2
  · simp only [if_neg hcell]

/-- Instance of C6 with two modes (`ncomps = 3`) and `rhocomp = 0`: the two inputs differ
in component `3` of `rho`, which belongs to the second time level, and give the same `F`. -/
theorem C6_rho_time_level_witness :
    sampleFieldsRZ_otherRho.rho 0 0 0 3 ≠ sampleFieldsRZ.rho 0 0 0 3 ∧
    ∃ out out' : Tile FieldsRZ Box2D,
      (EvolveFCylindrical CylindricalYeeAlgorithm 1 3 sampleSolver 0 1
        [⟨sampleFieldsRZ, offAxisBox⟩])[0]? = some out ∧
      (EvolveFCylindrical CylindricalYeeAlgorithm 1 3 sampleSolver 0 1
        [⟨sampleFieldsRZ_otherRho, offAxisBox⟩])[0]? = some out' ∧
      out'.views.F = out.views.F := by
  refine ⟨by simp [sampleFieldsRZ_otherRho, sampleFieldsRZ], ?_⟩
  exact (C6_rho_time_level CylindricalYeeAlgorithm 1 3 sampleSolver 0 1
    [⟨sampleFieldsRZ, offAxisBox⟩] [⟨sampleFieldsRZ_otherRho, offAxisBox⟩] 0
    ⟨sampleFieldsRZ, offAxisBox⟩ ⟨sampleFieldsRZ_otherRho, offAxisBox⟩
    (by decide) (by decide) (Or.inl rfl) rfl rfl rfl rfl rfl rfl rfl
    (by
      intro i j k c h1 h2
      have h3 : ¬ (3 ≤ c) := by omega
      simp [sampleFieldsRZ_otherRho, sampleFieldsRZ, h3])).2.2

/-! ## Claims on the dispatchers -/

/-- C3 (the claim as stated fails): in the Cartesian build, with a collocated grid and a
family that is neither `Yee` nor `CKC`, `EvolveF` does not abort: it runs the kernel with
the nodal stencil and changes `F` (from `5` to `4` at the cell `(0, 0, 0)`). -/
theorem C3_collocated_counterexample :
    collocatedSolver.m_fdtd_algo ≠ ElectromagneticSolverAlgo.Yee ∧
    collocatedSolver.m_fdtd_algo ≠ ElectromagneticSolverAlgo.CKC ∧
    sampleFields.F 0 0 0 0 = 5 ∧
    ∃ (out : List (Tile Fields Box)) (t : Tile Fields Box),
      EvolveF CartesianNodalAlgorithm CartesianYeeAlgorithm CartesianCKCAlgorithm 1
        collocatedSolver 0 1 [⟨sampleFields, unitBox⟩] = Run.done out ∧
      out[0]? = some t ∧ t.views.F 0 0 0 0 = 4 := by
  refine ⟨by decide, by decide, rfl, ?_⟩
  have hmem : ((0 : Int), (0 : Int), (0 : Int)) ∈ unitBox.cells :=
    (Box.mem_cells _ _ _ _).2 (by decide)
  refine ⟨_, _, rfl, EvolveFCartesian_step CartesianNodalAlgorithm 1 collocatedSolver 0 1
    [⟨sampleFields, unitBox⟩] 0 ⟨sampleFields, unitBox⟩ rfl, ?_⟩
  simp only [EvolveFCartesian_pass, if_pos hmem, if_true]
  simp [sampleFields, collocatedSolver, sampleSolver, CartesianNodalAlgorithm]
  norm_num

/-- C3 (amended): in the cylindrical build, for every configuration (every grid centering
included) whose family is not `Yee`, and in the Cartesian build, for every configuration
whose grid centering is not collocated and whose family is neither `Yee` nor `CKC`,
`EvolveF` aborts with the message `EvolveF: Unknown algorithm` and the fields are those it
was called with. -/
theorem C3_unknown_algorithm (Nodal Yee CKC : CartesianAlgorithm)
    (CylindricalYee : CylindricalAlgorithm) (ep0 : ℚ) (ncomps : Int)
    (solver : FiniteDifferenceSolver) (rhocomp : Int) (dt : ℚ)
    (mf : List (Tile Fields Box)) (mfRZ : List (Tile FieldsRZ Box2D))
    (hYee : solver.m_fdtd_algo ≠ ElectromagneticSolverAlgo.Yee) :
    EvolveF_RZ CylindricalYee ep0 ncomps solver rhocomp dt mfRZ
      = Run.abort "EvolveF: Unknown algorithm" mfRZ ∧
    (solver.m_grid_type ≠ GridType.Collocated →
      solver.m_fdtd_algo ≠ ElectromagneticSolverAlgo.CKC →
      EvolveF Nodal Yee CKC ep0 solver rhocomp dt mf
        = Run.abort "EvolveF: Unknown algorithm" mf) := by
  constructor
  · unfold EvolveF_RZ
    rw [if_neg hYee]
  · intro hgrid hCKC
    unfold EvolveF
    rw [if_neg hgrid, if_neg hYee, if_neg hCKC]

/-- Instance of the amended C3: a staggered grid with a family that is neither `Yee` nor
`CKC`. -/
theorem C3_unknown_algorithm_witness :
    EvolveF_RZ CylindricalYeeAlgorithm 1 3 unknownSolver 0 1 [⟨sampleFieldsRZ, axisBox⟩]
      = Run.abort "EvolveF: Unknown algorithm" [⟨sampleFieldsRZ, axisBox⟩] ∧
    EvolveF CartesianNodalAlgorithm CartesianYeeAlgorithm CartesianCKCAlgorithm 1
        unknownSolver 0 1 [⟨sampleFields, unitBox⟩]
      = Run.abort "EvolveF: Unknown algorithm" [⟨sampleFields, unitBox⟩] :=
  have h := C3_unknown_algorithm CartesianNodalAlgorithm CartesianYeeAlgorithm
    CartesianCKCAlgorithm CylindricalYeeAlgorithm 1 3 unknownSolver 0 1
    [⟨sampleFields, unitBox⟩] [⟨sampleFieldsRZ, axisBox⟩] (by decide)
  ⟨h.1, h.2 (by decide) (by decide)⟩

/-- C8: PML in cylindrical geometry.  In the cylindrical build, for every `F`, `E`, `dt`
and solver configuration, `EvolveFPML` aborts with the message
`PML are not implemented in cylindrical geometry.`, no kernel having run: the fields are
those it was called with. -/
theorem C8_PML_cylindrical_abort (solver : FiniteDifferenceSolver) (dt : ℚ)
    (mf : List (Tile FieldsPML Box2D)) :
    EvolveFPML_RZ solver dt mf
      = Run.abort "PML are not implemented in cylindrical geometry." mf := by
  unfold EvolveFPML_RZ
  rfl

/-! ## The PML kernel -/

/-- The per-cell lambda of `EvolveFPMLCartesian` rewrites the components of its own cell
as `pmlCellMap` says, and nothing else. -/
theorem EvolveFPMLCartesian_cell_eq (T_Algo : CartesianAlgorithm) (pc : PMLComp)
    (coefs_x : List ℚ) (n_coefs_x : Int) (coefs_y : List ℚ) (n_coefs_y : Int)
    (coefs_z : List ℚ) (n_coefs_z : Int) (dt : ℚ) (i j k : Int) (s : FieldsPML) :
    EvolveFPMLCartesian_cell T_Algo pc coefs_x n_coefs_x coefs_y n_coefs_y coefs_z n_coefs_z
        dt i j k s
      = { s with F := (Array4.mapCell s.F i j k (pmlCellMap T_Algo pc coefs_x n_coefs_x
          coefs_y n_coefs_y coefs_z n_coefs_z dt s i j k)) } := by
  unfold EvolveFPMLCartesian_cell
  simp only [Array4.set_add_eq_mapCell, Array4.mapCell_mapCell]
  rfl

/-- One pass of the PML kernel over a box, in closed form. -/
theorem EvolveFPMLCartesian_pass (T_Algo : CartesianAlgorithm) (pc : PMLComp)
    (coefs_x : List ℚ) (n_coefs_x : Int) (coefs_y : List ℚ) (n_coefs_y : Int)
    (coefs_z : List ℚ) (n_coefs_z : Int) (dt : ℚ) (b : Box) (s : FieldsPML) :
    ParallelFor b (EvolveFPMLCartesian_cell T_Algo pc coefs_x n_coefs_x coefs_y n_coefs_y
        coefs_z n_coefs_z dt) s
      = { s with F := (fun i j k n => if (i, j, k) ∈ b.cells then
            pmlCellMap T_Algo pc coefs_x n_coefs_x coefs_y n_coefs_y coefs_z n_coefs_z dt
              s i j k n (s.F i j k n)
          else s.F i j k n) } := by
  unfold ParallelFor
  rw [foldl_viaF (fun s : FieldsPML => s.F) (fun s F => { s with F := F })
    (fun (c : Int × Int × Int) s => EvolveFPMLCartesian_cell T_Algo pc coefs_x n_coefs_x
      coefs_y n_coefs_y coefs_z n_coefs_z dt c.1 c.2.1 c.2.2 s)
    (fun s c F => Array4.mapCell F c.1 c.2.1 c.2.2 (pmlCellMap T_Algo pc coefs_x n_coefs_x
      coefs_y n_coefs_y coefs_z n_coefs_z dt s c.1 c.2.1 c.2.2))
    (fun c s => EvolveFPMLCartesian_cell_eq _ _ _ _ _ _ _ _ _ _ _ _ s)
    (fun _ _ _ => rfl) (fun _ _ => rfl) (fun _ _ _ => rfl) (fun _ => rfl)]
  rw [foldl_mapCell (fun c => pmlCellMap T_Algo pc coefs_x n_coefs_x
      coefs_y n_coefs_y coefs_z n_coefs_z dt s c.1 c.2.1 c.2.2) b.cells b.nodup_cells]

/-- The step of `EvolveFPMLCartesian` on grid `g`: one pass over its tile box. -/
theorem EvolveFPMLCartesian_step (T_Algo : CartesianAlgorithm) (pc : PMLComp)
    (solver : FiniteDifferenceSolver) (dt : ℚ)
    (mf : List (Tile FieldsPML Box)) (g : Nat) (mfi : Tile FieldsPML Box)
    (hg : mf[g]? = some mfi) :
    (EvolveFPMLCartesian T_Algo pc solver dt mf)[g]?
      = some ⟨ParallelFor mfi.tilebox (EvolveFPMLCartesian_cell T_Algo pc
          solver.m_stencil_coefs_x solver.m_stencil_coefs_x.length
          solver.m_stencil_coefs_y solver.m_stencil_coefs_y.length
          solver.m_stencil_coefs_z solver.m_stencil_coefs_z.length dt) mfi.views,
        mfi.tilebox⟩ := by
  unfold EvolveFPMLCartesian
  rw [List.getElem?_map, hg]
  rfl

/-- When two of the three split sub-components are identically zero, the increment of one
direction is `dt` times the derivative of the third. -/
theorem pmlIncrement_single (D : Stencil) (hD : ZeroOnZero D) (E : Array4)
    (coefs : List ℚ) (n_coefs : Int) (dt : ℚ) (i j k a b c : Int) :
    ((∀ i' j' k', E i' j' k' b = 0) → (∀ i' j' k', E i' j' k' c = 0) →
      pmlIncrement D E coefs n_coefs dt i j k a b c = dt * D E coefs n_coefs i j k a) ∧
    ((∀ i' j' k', E i' j' k' a = 0) → (∀ i' j' k', E i' j' k' c = 0) →
      pmlIncrement D E coefs n_coefs dt i j k a b c = dt * D E coefs n_coefs i j k b) ∧
    ((∀ i' j' k', E i' j' k' a = 0) → (∀ i' j' k', E i' j' k' b = 0) →
      pmlIncrement D E coefs n_coefs dt i j k a b c = dt * D E coefs n_coefs i j k c) := by
  unfold pmlIncrement
  refine ⟨fun hb hc => ?_, fun ha hc => ?_, fun ha hb => ?_⟩
  · rw [hD E coefs n_coefs i j k b hb, hD E coefs n_coefs i j k c hc]; ring
  · rw [hD E coefs n_coefs i j k a ha, hD E coefs n_coefs i j k c hc]; ring
  · rw [hD E coefs n_coefs i j k a ha, hD E coefs n_coefs i j k b hb]; ring

/-- The increment of one direction for a general split field is the sum of the increments
for the three fields that keep one sub-component each. -/
theorem pmlIncrement_superposition (D : Stencil) (hD : ZeroOnZero D)
    (hD' : ReadsOwnComponent D) (E : Array4)
    (coefs : List ℚ) (n_coefs : Int) (dt : ℚ) (i j k a b c : Int)
    (hab : a ≠ b) (hac : a ≠ c) (hbc : b ≠ c) :
    pmlIncrement D E coefs n_coefs dt i j k a b c
      = pmlIncrement D (Array4.keepComp E a) coefs n_coefs dt i j k a b c
        + pmlIncrement D (Array4.keepComp E b) coefs n_coefs dt i j k a b c
        + pmlIncrement D (Array4.keepComp E c) coefs n_coefs dt i j k a b c := by
  have keep_same : ∀ x, D (Array4.keepComp E x) coefs n_coefs i j k x
      = D E coefs n_coefs i j k x := by
    intro x
    apply hD'
    intro i' j' k'
    simp [Array4.keepComp]
  have keep_other : ∀ x y, x ≠ y → D (Array4.keepComp E x) coefs n_coefs i j k y = 0 := by
    intro x y hxy
    apply hD
    intro i' j' k'
    simp [Array4.keepComp, Ne.symm hxy]
  unfold pmlIncrement
  rw [keep_same a, keep_same b, keep_same c, keep_other a b hab, keep_other a c hac,
    keep_other b a (Ne.symm hab), keep_other b c hbc, keep_other c a (Ne.symm hac),
    keep_other c b (Ne.symm hbc)]
  ring

theorem CartesianYee_ZeroOnZero :
    ZeroOnZero CartesianYeeAlgorithm.DownwardDx ∧ ZeroOnZero CartesianYeeAlgorithm.DownwardDy ∧
    ZeroOnZero CartesianYeeAlgorithm.DownwardDz := by
  refine ⟨?_, ?_, ?_⟩ <;>
  · intro E coefs n_coefs i j k c h
    simp [CartesianYeeAlgorithm, h]

theorem CartesianYee_ReadsOwnComponent :
    ReadsOwnComponent CartesianYeeAlgorithm.DownwardDx ∧
    ReadsOwnComponent CartesianYeeAlgorithm.DownwardDy ∧
    ReadsOwnComponent CartesianYeeAlgorithm.DownwardDz := by
  refine ⟨?_, ?_, ?_⟩ <;>
  · intro E E' coefs n_coefs i j k c h
    simp [CartesianYeeAlgorithm, h]

/-! ## Claims on the PML kernel -/

/-- C7: PML split update and its additivity.  For every cell of a tile box,
`EvolveFPMLCartesian` adds to `F` component `x` exactly
`dt * (DownwardDx(Ex,xx) + DownwardDx(Ex,xy) + DownwardDx(Ex,xz))`, to component `y` the
like sum of `DownwardDy(Ey, ·)` over `yx, yy, yz` and to component `z` the like sum of
`DownwardDz(Ez, ·)` over `zx, zy, zz` (the three components of `F` being distinct), with no
charge-density term.  Each increment is the expression `pmlIncrement`; for a stencil whose
derivative of an identically-zero sub-component is `0`, when two of the three
sub-components are identically zero it equals `dt` times the derivative of the third; and
for such a stencil that reads only the sub-component it is called with, the increment for a
general split field is the sum of the increments for the three fields keeping one
sub-component each. -/
theorem C7_PML_split_update (T_Algo : CartesianAlgorithm) (pc : PMLComp)
    (solver : FiniteDifferenceSolver) (dt : ℚ)
    (mf : List (Tile FieldsPML Box)) (g : Nat) (mfi : Tile FieldsPML Box)
    (hg : mf[g]? = some mfi) (i j k : Int) (hc : mfi.tilebox.contains i j k)
    (hxy : pc.x ≠ pc.y) (hxz : pc.x ≠ pc.z) (hyz : pc.y ≠ pc.z) :
    (∃ out : Tile FieldsPML Box,
      (EvolveFPMLCartesian T_Algo pc solver dt mf)[g]? = some out ∧
      out.views.F i j k pc.x = mfi.views.F i j k pc.x + dt * (
          T_Algo.DownwardDx mfi.views.Ex solver.m_stencil_coefs_x
            solver.m_stencil_coefs_x.length i j k pc.xx
        + T_Algo.DownwardDx mfi.views.Ex solver.m_stencil_coefs_x
            solver.m_stencil_coefs_x.length i j k pc.xy
        + T_Algo.DownwardDx mfi.views.Ex solver.m_stencil_coefs_x
            solver.m_stencil_coefs_x.length i j k pc.xz ) ∧
      out.views.F i j k pc.y = mfi.views.F i j k pc.y + dt * (
          T_Algo.DownwardDy mfi.views.Ey solver.m_stencil_coefs_y
            solver.m_stencil_coefs_y.length i j k pc.yx
        + T_Algo.DownwardDy mfi.views.Ey solver.m_stencil_coefs_y
            solver.m_stencil_coefs_y.length i j k pc.yy
        + T_Algo.DownwardDy mfi.views.Ey solver.m_stencil_coefs_y
            solver.m_stencil_coefs_y.length i j k pc.yz ) ∧
      out.views.F i j k pc.z = mfi.views.F i j k pc.z + dt * (
          T_Algo.DownwardDz mfi.views.Ez solver.m_stencil_coefs_z
            solver.m_stencil_coefs_z.length i j k pc.zx
        + T_Algo.DownwardDz mfi.views.Ez solver.m_stencil_coefs_z
            solver.m_stencil_coefs_z.length i j k pc.zy
        + T_Algo.DownwardDz mfi.views.Ez solver.m_stencil_coefs_z
            solver.m_stencil_coefs_z.length i j k pc.zz )) ∧
    (∀ (D : Stencil) (E : Array4) (coefs : List ℚ) (n_coefs a b c : Int),
      pmlIncrement D E coefs n_coefs dt i j k a b c
        = dt * (D E coefs n_coefs i j k a + D E coefs n_coefs i j k b
            + D E coefs n_coefs i j k c)) ∧
    (∀ (D : Stencil) (E : Array4) (coefs : List ℚ) (n_coefs a b c : Int), ZeroOnZero D →
      ((∀ i' j' k', E i' j' k' b = 0) → (∀ i' j' k', E i' j' k' c = 0) →
        pmlIncrement D E coefs n_coefs dt i j k a b c = dt * D E coefs n_coefs i j k a) ∧
      ((∀ i' j' k', E i' j' k' a = 0) → (∀ i' j' k', E i' j' k' c = 0) →
        pmlIncrement D E coefs n_coefs dt i j k a b c = dt * D E coefs n_coefs i j k b) ∧
      ((∀ i' j' k', E i' j' k' a = 0) → (∀ i' j' k', E i' j' k' b = 0) →
        pmlIncrement D E coefs n_coefs dt i j k a b c = dt * D E coefs n_coefs i j k c)) ∧
    (∀ (D : Stencil) (E : Array4) (coefs : List ℚ) (n_coefs a b c : Int), ZeroOnZero D →
      ReadsOwnComponent D → a ≠ b → a ≠ c → b ≠ c →
      pmlIncrement D E coefs n_coefs dt i j k a b c
        = pmlIncrement D (Array4.keepComp E a) coefs n_coefs dt i j k a b c
          + pmlIncrement D (Array4.keepComp E b) coefs n_coefs dt i j k a b c
          + pmlIncrement D (Array4.keepComp E c) coefs n_coefs dt i j k a b c) := by
  have hmem : (i, j, k) ∈ mfi.tilebox.cells := (Box.mem_cells _ _ _ _).2 hc
  refine ⟨?_, fun _ _ _ _ _ _ _ => rfl,
    fun D E coefs n_coefs a b c hD => pmlIncrement_single D hD E coefs n_coefs dt i j k a b c,
    fun D E coefs n_coefs a b c hD hD' hab hac hbc =>
      pmlIncrement_superposition D hD hD' E coefs n_coefs dt i j k a b c hab hac hbc⟩
  rw [EvolveFPMLCartesian_step T_Algo pc solver dt mf g mfi hg]
  refine ⟨_, rfl, ?_, ?_, ?_⟩
  · simp only [EvolveFPMLCartesian_pass, if_pos hmem]
    unfold pmlCellMap pmlIncrement
    simp only [if_true, if_neg hxy, if_neg hxz]
  · simp only [EvolveFPMLCartesian_pass, if_pos hmem]
    unfold pmlCellMap pmlIncrement
    simp only [if_true, if_neg (Ne.symm hxy), if_neg hyz]
  · simp only [EvolveFPMLCartesian_pass, if_pos hmem]
    unfold pmlCellMap pmlIncrement
    simp only [if_true, if_neg (Ne.symm hxz), if_neg (Ne.symm hyz)]

/-- Instance of C7 on a one-cell box with the Yee stencil: component `x` goes from `5`
to `5 + (1 + 2 + 3) = 11`, component `y`, whose field has one nonzero sub-component, to
`5 + 1 = 6`, and component `z` stays at `5`; the increment of `y` is the single term of
sub-component `0`. -/
theorem C7_PML_split_update_witness :
    (∃ out : Tile FieldsPML Box,
      (EvolveFPMLCartesian CartesianYeeAlgorithm samplePMLComp sampleSolver 1
        [⟨sampleFieldsPML, unitBox⟩])[0]? = some out ∧
      out.views.F 0 0 0 0 = 11 ∧ out.views.F 0 0 0 1 = 6 ∧ out.views.F 0 0 0 2 = 5) ∧
    pmlIncrement CartesianYeeAlgorithm.DownwardDy sampleFieldsPML.Ey [1] 1 1 0 0 0 0 1 2
      = 1 * CartesianYeeAlgorithm.DownwardDy sampleFieldsPML.Ey [1] 1 0 0 0 0 := by
  obtain ⟨⟨out, h, hx, hy, hz⟩, -, hsingle, -⟩ := C7_PML_split_update CartesianYeeAlgorithm
    samplePMLComp sampleSolver 1 [⟨sampleFieldsPML, unitBox⟩] 0 ⟨sampleFieldsPML, unitBox⟩
    rfl 0 0 0 (by decide) (by decide) (by decide) (by decide)
  refine ⟨⟨out, h, ?_, ?_, ?_⟩, ?_⟩
  · refine (show out.views.F 0 0 0 0 = _ from hx).trans ?_
    simp [sampleFieldsPML, sampleSolver, samplePMLComp, CartesianYeeAlgorithm]
    norm_num
  · refine (show out.views.F 0 0 0 1 = _ from hy).trans ?_
    simp [sampleFieldsPML, sampleSolver, samplePMLComp, CartesianYeeAlgorithm]
    norm_num
  · refine (show out.views.F 0 0 0 2 = _ from hz).trans ?_
    simp [sampleFieldsPML, sampleSolver, samplePMLComp, CartesianYeeAlgorithm]
  · refine (hsingle CartesianYeeAlgorithm.DownwardDy sampleFieldsPML.Ey [1] 1 0 1 2
      CartesianYee_ZeroOnZero.2.1).1 ?_ ?_
    · intro i' j' k'; simp [sampleFieldsPML]
    · intro i' j' k'; simp [sampleFieldsPML]

/-! ## Order of the cells -/

theorem EvolveFCartesian_cell_comm (T_Algo : CartesianAlgorithm) (ep0 : ℚ)
    (coefs_x : List ℚ) (n_coefs_x : Int) (coefs_y : List ℚ) (n_coefs_y : Int)
    (coefs_z : List ℚ) (n_coefs_z : Int) (rhocomp : Int) (dt : ℚ)
    (i j k i' j' k' : Int) (s : Fields) :
    EvolveFCartesian_cell T_Algo ep0 coefs_x n_coefs_x coefs_y n_coefs_y coefs_z n_coefs_z
        rhocomp dt i' j' k'
        (EvolveFCartesian_cell T_Algo ep0 coefs_x n_coefs_x coefs_y n_coefs_y coefs_z
          n_coefs_z rhocomp dt i j k s)
      = EvolveFCartesian_cell T_Algo ep0 coefs_x n_coefs_x coefs_y n_coefs_y coefs_z n_coefs_z
        rhocomp dt i j k
        (EvolveFCartesian_cell T_Algo ep0 coefs_x n_coefs_x coefs_y n_coefs_y coefs_z
          n_coefs_z rhocomp dt i' j' k' s) := by
  simp only [EvolveFCartesian_cell_eq]
  congr 1
  apply Array4.mapCell_comm
  rintro ⟨rfl, rfl, rfl⟩ n v
  rfl

theorem EvolveFCylindrical_cell_comm (T_Algo : CylindricalAlgorithm) (ep0 : ℚ)
    (coefs_r : List ℚ) (n_coefs_r : Int) (coefs_z : List ℚ) (n_coefs_z : Int)
    (dr : ℚ) (nmodes : Int) (rmin : ℚ) (rho_shift : Int) (dt : ℚ)
    (i j k i' j' k' : Int) (s : FieldsRZ) :
    EvolveFCylindrical_cell T_Algo ep0 coefs_r n_coefs_r coefs_z n_coefs_z dr nmodes rmin
        rho_shift dt i' j' k'
        (EvolveFCylindrical_cell T_Algo ep0 coefs_r n_coefs_r coefs_z n_coefs_z dr nmodes
          rmin rho_shift dt i j k s)
      = EvolveFCylindrical_cell T_Algo ep0 coefs_r n_coefs_r coefs_z n_coefs_z dr nmodes rmin
        rho_shift dt i j k
        (EvolveFCylindrical_cell T_Algo ep0 coefs_r n_coefs_r coefs_z n_coefs_z dr nmodes
          rmin rho_shift dt i' j' k' s) := by
  simp only [EvolveFCylindrical_cell_eq]
  congr 1
  apply Array4.mapCell_comm
  rintro ⟨rfl, rfl, -⟩ n v
  rfl

theorem EvolveFPMLCartesian_cell_comm (T_Algo : CartesianAlgorithm) (pc : PMLComp)
    (coefs_x : List ℚ) (n_coefs_x : Int) (coefs_y : List ℚ) (n_coefs_y : Int)
    (coefs_z : List ℚ) (n_coefs_z : Int) (dt : ℚ)
    (i j k i' j' k' : Int) (s : FieldsPML) :
    EvolveFPMLCartesian_cell T_Algo pc coefs_x n_coefs_x coefs_y n_coefs_y coefs_z n_coefs_z
        dt i' j' k'
        (EvolveFPMLCartesian_cell T_Algo pc coefs_x n_coefs_x coefs_y n_coefs_y coefs_z
          n_coefs_z dt i j k s)
      = EvolveFPMLCartesian_cell T_Algo pc coefs_x n_coefs_x coefs_y n_coefs_y coefs_z
        n_coefs_z dt i j k
        (EvolveFPMLCartesian_cell T_Algo pc coefs_x n_coefs_x coefs_y n_coefs_y coefs_z
          n_coefs_z dt i' j' k' s) := by
  simp only [EvolveFPMLCartesian_cell_eq]
  congr 1
  apply Array4.mapCell_comm
  rintro ⟨rfl, rfl, rfl⟩ n v
  rfl

/-- C10: order independence of the per-cell body.  For each of the three kernels
(Cartesian, cylindrical, PML), the per-cell update at one cell followed by the update at
another gives the same fields as the two updates in the other order; hence visiting the
cells of a box in any order `L` gives the fields of the pass `ParallelFor`. -/
theorem C10_order_independence (T_Algo : CartesianAlgorithm) (T_RZ : CylindricalAlgorithm)
    (pc : PMLComp) (ep0 : ℚ)
    (coefs_x : List ℚ) (n_coefs_x : Int) (coefs_y : List ℚ) (n_coefs_y : Int)
    (coefs_z : List ℚ) (n_coefs_z : Int) (coefs_r : List ℚ) (n_coefs_r : Int)
    (dr : ℚ) (nmodes : Int) (rmin : ℚ) (rho_shift : Int) (rhocomp : Int) (dt : ℚ)
    (b : Box) (L : List (Int × Int × Int)) (hL : L.Perm b.cells)
    (b2 : Box2D) (L2 : List (Int × Int)) (hL2 : L2.Perm b2.cells) :
    (∀ (i j k i' j' k' : Int) (s : Fields),
      EvolveFCartesian_cell T_Algo ep0 coefs_x n_coefs_x coefs_y n_coefs_y coefs_z n_coefs_z
          rhocomp dt i' j' k'
          (EvolveFCartesian_cell T_Algo ep0 coefs_x n_coefs_x coefs_y n_coefs_y coefs_z
            n_coefs_z rhocomp dt i j k s)
        = EvolveFCartesian_cell T_Algo ep0 coefs_x n_coefs_x coefs_y n_coefs_y coefs_z
          n_coefs_z rhocomp dt i j k
          (EvolveFCartesian_cell T_Algo ep0 coefs_x n_coefs_x coefs_y n_coefs_y coefs_z
            n_coefs_z rhocomp dt i' j' k' s)) ∧
    (∀ (i j k i' j' k' : Int) (s : FieldsRZ),
      EvolveFCylindrical_cell T_RZ ep0 coefs_r n_coefs_r coefs_z n_coefs_z dr nmodes rmin
          rho_shift dt i' j' k'
          (EvolveFCylindrical_cell T_RZ ep0 coefs_r n_coefs_r coefs_z n_coefs_z dr nmodes
            rmin rho_shift dt i j k s)
        = EvolveFCylindrical_cell T_RZ ep0 coefs_r n_coefs_r coefs_z n_coefs_z dr nmodes rmin
          rho_shift dt i j k
          (EvolveFCylindrical_cell T_RZ ep0 coefs_r n_coefs_r coefs_z n_coefs_z dr nmodes
            rmin rho_shift dt i' j' k' s)) ∧
    (∀ (i j k i' j' k' : Int) (s : FieldsPML),
      EvolveFPMLCartesian_cell T_Algo pc coefs_x n_coefs_x coefs_y n_coefs_y coefs_z
          n_coefs_z dt i' j' k'
          (EvolveFPMLCartesian_cell T_Algo pc coefs_x n_coefs_x coefs_y n_coefs_y coefs_z
            n_coefs_z dt i j k s)
        = EvolveFPMLCartesian_cell T_Algo pc coefs_x n_coefs_x coefs_y n_coefs_y coefs_z
          n_coefs_z dt i j k
          (EvolveFPMLCartesian_cell T_Algo pc coefs_x n_coefs_x coefs_y n_coefs_y coefs_z
            n_coefs_z dt i' j' k' s)) ∧
    (∀ s : Fields,
      L.foldl (fun s c => EvolveFCartesian_cell T_Algo ep0 coefs_x n_coefs_x coefs_y
          n_coefs_y coefs_z n_coefs_z rhocomp dt c.1 c.2.1 c.2.2 s) s
        = ParallelFor b (EvolveFCartesian_cell T_Algo ep0 coefs_x n_coefs_x coefs_y
          n_coefs_y coefs_z n_coefs_z rhocomp dt) s) ∧
    (∀ s : FieldsRZ,
      L2.foldl (fun s c => EvolveFCylindrical_cell T_RZ ep0 coefs_r n_coefs_r coefs_z
          n_coefs_z dr nmodes rmin rho_shift dt c.1 c.2 0 s) s
        = ParallelFor2D b2 (EvolveFCylindrical_cell T_RZ ep0 coefs_r n_coefs_r coefs_z
          n_coefs_z dr nmodes rmin rho_shift dt) s) ∧
    (∀ s : FieldsPML,
      L.foldl (fun s c => EvolveFPMLCartesian_cell T_Algo pc coefs_x n_coefs_x coefs_y
          n_coefs_y coefs_z n_coefs_z dt c.1 c.2.1 c.2.2 s) s
        = ParallelFor b (EvolveFPMLCartesian_cell T_Algo pc coefs_x n_coefs_x coefs_y
          n_coefs_y coefs_z n_coefs_z dt) s) := by
  refine ⟨fun i j k i' j' k' s => EvolveFCartesian_cell_comm _ _ _ _ _ _ _ _ _ _ i j k i' j' k' s,
    fun i j k i' j' k' s => EvolveFCylindrical_cell_comm _ _ _ _ _ _ _ _ _ _ _ i j k i' j' k' s,
    fun i j k i' j' k' s => EvolveFPMLCartesian_cell_comm _ _ _ _ _ _ _ _ _ i j k i' j' k' s,
    fun s => ?_, fun s => ?_, fun s => ?_⟩
  · unfold ParallelFor
    exact List.Perm.foldl_eq' hL
      (fun x _ y _ z => EvolveFCartesian_cell_comm _ _ _ _ _ _ _ _ _ _ _ _ _ _ _ _ z) s
  · unfold ParallelFor2D
    exact List.Perm.foldl_eq' hL2
      (fun x _ y _ z => EvolveFCylindrical_cell_comm _ _ _ _ _ _ _ _ _ _ _ _ _ _ _ _ _ z) s
  · unfold ParallelFor
    exact List.Perm.foldl_eq' hL
      (fun x _ y _ z => EvolveFPMLCartesian_cell_comm _ _ _ _ _ _ _ _ _ _ _ _ _ _ _ z) s

/-- Instance of C10 on boxes of two cells visited in the reverse order. -/
theorem C10_order_independence_witness :
    [((1 : Int), (0 : Int), (0 : Int)), (0, 0, 0)].foldl
        (fun s c => EvolveFCartesian_cell CartesianYeeAlgorithm 1 [1] 1 [1] 1 [1] 1 0 1
          c.1 c.2.1 c.2.2 s) sampleFields
      = ParallelFor twoCellBox
        (EvolveFCartesian_cell CartesianYeeAlgorithm 1 [1] 1 [1] 1 [1] 1 0 1) sampleFields ∧
    [((1 : Int), (0 : Int)), (0, 0)].foldl
        (fun s c => EvolveFCylindrical_cell CylindricalYeeAlgorithm 1 [1] 1 [1] 1 1 2 0 0 1
          c.1 c.2 0 s) sampleFieldsRZ
      = ParallelFor2D twoCellBox2D
        (EvolveFCylindrical_cell CylindricalYeeAlgorithm 1 [1] 1 [1] 1 1 2 0 0 1)
        sampleFieldsRZ ∧
    [((1 : Int), (0 : Int), (0 : Int)), (0, 0, 0)].foldl
        (fun s c => EvolveFPMLCartesian_cell CartesianYeeAlgorithm samplePMLComp
          [1] 1 [1] 1 [1] 1 1 c.1 c.2.1 c.2.2 s) sampleFieldsPML
      = ParallelFor twoCellBox
        (EvolveFPMLCartesian_cell CartesianYeeAlgorithm samplePMLComp [1] 1 [1] 1 [1] 1 1)
        sampleFieldsPML :=
  have h := C10_order_independence CartesianYeeAlgorithm CylindricalYeeAlgorithm
    samplePMLComp 1 [1] 1 [1] 1 [1] 1 [1] 1 1 2 0 0 0 1
    twoCellBox [(1, 0, 0), (0, 0, 0)] (List.Perm.swap _ _ _)
    twoCellBox2D [(1, 0), (0, 0)] (List.Perm.swap _ _ _)
  ⟨h.2.2.2.1 sampleFields, h.2.2.2.2.1 sampleFieldsRZ, h.2.2.2.2.2 sampleFieldsPML⟩

/-! ## Frame of one cell update -/

/-- C11: frame of one cell update.  For each kernel the per-cell update at a cell leaves
every value of `Ex`/`Er`, `Ey`/`Et`, `Ez` and `rho` unchanged and leaves `F` unchanged at
every other cell; at its own cell it changes only component `0` (Cartesian), only the
components `0 .. 2*nmodes-2` (cylindrical, where the cell is `(i, j, 0)` and the mode count
is at least `1`), or only the components `x`, `y`, `z` (PML). -/
theorem C11_cell_update_frame (T_Algo : CartesianAlgorithm) (T_RZ : CylindricalAlgorithm)
    (pc : PMLComp) (ep0 : ℚ)
    (coefs_x : List ℚ) (n_coefs_x : Int) (coefs_y : List ℚ) (n_coefs_y : Int)
    (coefs_z : List ℚ) (n_coefs_z : Int) (coefs_r : List ℚ) (n_coefs_r : Int)
    (dr : ℚ) (nmodes : Int) (rmin : ℚ) (rho_shift : Int) (rhocomp : Int) (dt : ℚ)
    (i j k : Int) (hmodes : 1 ≤ nmodes) :
    (∀ s : Fields,
      (EvolveFCartesian_cell T_Algo ep0 coefs_x n_coefs_x coefs_y n_coefs_y coefs_z n_coefs_z
        rhocomp dt i j k s).Ex = s.Ex ∧
      (EvolveFCartesian_cell T_Algo ep0 coefs_x n_coefs_x coefs_y n_coefs_y coefs_z n_coefs_z
        rhocomp dt i j k s).Ey = s.Ey ∧
      (EvolveFCartesian_cell T_Algo ep0 coefs_x n_coefs_x coefs_y n_coefs_y coefs_z n_coefs_z
        rhocomp dt i j k s).Ez = s.Ez ∧
      (EvolveFCartesian_cell T_Algo ep0 coefs_x n_coefs_x coefs_y n_coefs_y coefs_z n_coefs_z
        rhocomp dt i j k s).rho = s.rho ∧
      ∀ i' j' k' n : Int, ¬ (i' = i ∧ j' = j ∧ k' = k ∧ n = 0) →
        (EvolveFCartesian_cell T_Algo ep0 coefs_x n_coefs_x coefs_y n_coefs_y coefs_z
          n_coefs_z rhocomp dt i j k s).F i' j' k' n = s.F i' j' k' n) ∧
    (∀ s : FieldsRZ,
      (EvolveFCylindrical_cell T_RZ ep0 coefs_r n_coefs_r coefs_z n_coefs_z dr nmodes rmin
        rho_shift dt i j 0 s).Er = s.Er ∧
      (EvolveFCylindrical_cell T_RZ ep0 coefs_r n_coefs_r coefs_z n_coefs_z dr nmodes rmin
        rho_shift dt i j 0 s).Et = s.Et ∧
      (EvolveFCylindrical_cell T_RZ ep0 coefs_r n_coefs_r coefs_z n_coefs_z dr nmodes rmin
        rho_shift dt i j 0 s).Ez = s.Ez ∧
      (EvolveFCylindrical_cell T_RZ ep0 coefs_r n_coefs_r coefs_z n_coefs_z dr nmodes rmin
        rho_shift dt i j 0 s).rho = s.rho ∧
      ∀ i' j' k' n : Int, ¬ (i' = i ∧ j' = j ∧ k' = 0 ∧ 0 ≤ n ∧ n ≤ 2 * nmodes - 2) →
        (EvolveFCylindrical_cell T_RZ ep0 coefs_r n_coefs_r coefs_z n_coefs_z dr nmodes rmin
          rho_shift dt i j 0 s).F i' j' k' n = s.F i' j' k' n) ∧
    (∀ s : FieldsPML,
      (EvolveFPMLCartesian_cell T_Algo pc coefs_x n_coefs_x coefs_y n_coefs_y coefs_z
        n_coefs_z dt i j k s).Ex = s.Ex ∧
      (EvolveFPMLCartesian_cell T_Algo pc coefs_x n_coefs_x coefs_y n_coefs_y coefs_z
        n_coefs_z dt i j k s).Ey = s.Ey ∧
      (EvolveFPMLCartesian_cell T_Algo pc coefs_x n_coefs_x coefs_y n_coefs_y coefs_z
        n_coefs_z dt i j k s).Ez = s.Ez ∧
      ∀ i' j' k' n : Int,
        ¬ (i' = i ∧ j' = j ∧ k' = k ∧ (n = pc.x ∨ n = pc.y ∨ n = pc.z)) →
        (EvolveFPMLCartesian_cell T_Algo pc coefs_x n_coefs_x coefs_y n_coefs_y coefs_z
          n_coefs_z dt i j k s).F i' j' k' n = s.F i' j' k' n) := by
  refine ⟨fun s => ?_, fun s => ?_, fun s => ?_⟩
  · rw [EvolveFCartesian_cell_eq]
    refine ⟨rfl, rfl, rfl, rfl, fun i' j' k' n h => ?_⟩
    dsimp only
    unfold Array4.mapCell
    by_cases hc : i' = i ∧ j' = j ∧ k' = k
    · have hn : ¬ (n = 0) := fun hn => h ⟨hc.1, hc.2.1, hc.2.2, hn⟩
      simp only [if_pos hc, if_neg hn]
    · simp only [if_neg hc]
  · rw [EvolveFCylindrical_cell_eq]
    refine ⟨rfl, rfl, rfl, rfl, fun i' j' k' n h => ?_⟩
    dsimp only
    unfold Array4.mapCell
    by_cases hc : i' = i ∧ j' = j ∧ k' = 0
    · have hn : ¬ (0 ≤ n ∧ n ≤ 2 * nmodes - 2) := fun hn => h ⟨hc.1, hc.2.1, hc.2.2, hn⟩
      have h0 : ¬ (n = 0) := by omega
      have h1 : ¬ (1 ≤ n ∧ n ≤ 2 * nmodes - 2) := by omega
      unfold cylCellMap
      simp only [if_pos hc, if_neg h0, if_neg h1]
    · simp only [if_neg hc]
  · rw [EvolveFPMLCartesian_cell_eq]
    refine ⟨rfl, rfl, rfl, fun i' j' k' n h => ?_⟩
    dsimp only
    unfold Array4.mapCell
    by_cases hc : i' = i ∧ j' = j ∧ k' = k
    · have hx : ¬ (n = pc.x) := fun hn => h ⟨hc.1, hc.2.1, hc.2.2, Or.inl hn⟩
      have hy : ¬ (n = pc.y) := fun hn => h ⟨hc.1, hc.2.1, hc.2.2, Or.inr (Or.inl hn)⟩
      have hz : ¬ (n = pc.z) := fun hn => h ⟨hc.1, hc.2.1, hc.2.2, Or.inr (Or.inr hn)⟩
      unfold pmlCellMap
      simp only [if_pos hc, if_neg hx, if_neg hy, if_neg hz]
    · simp only [if_neg hc]

/-- Instance of C11 at the cell `(0, 0, 0)` with two modes: the neighbouring cell
`(1, 0, 0)` and the components beyond the written ones keep the value `5`. -/
theorem C11_cell_update_frame_witness :
    (EvolveFCartesian_cell CartesianYeeAlgorithm 1 [1] 1 [1] 1 [1] 1 0 1 0 0 0
      sampleFields).F 1 0 0 0 = 5 ∧
    (EvolveFCartesian_cell CartesianYeeAlgorithm 1 [1] 1 [1] 1 [1] 1 0 1 0 0 0
      sampleFields).F 0 0 0 1 = 5 ∧
    (EvolveFCylindrical_cell CylindricalYeeAlgorithm 1 [1] 1 [1] 1 1 2 0 0 1 0 0 0
      sampleFieldsRZ).F 0 0 0 3 = 5 ∧
    (EvolveFPMLCartesian_cell CartesianYeeAlgorithm samplePMLComp [1] 1 [1] 1 [1] 1 1 0 0 0
      sampleFieldsPML).F 0 0 0 3 = 5 :=
  have h := C11_cell_update_frame CartesianYeeAlgorithm CylindricalYeeAlgorithm
    samplePMLComp 1 [1] 1 [1] 1 [1] 1 [1] 1 1 2 0 0 0 1 0 0 0 (by decide)
  ⟨(h.1 sampleFields).2.2.2.2 1 0 0 0 (by decide),
    (h.1 sampleFields).2.2.2.2 0 0 0 1 (by decide),
    (h.2.1 sampleFieldsRZ).2.2.2.2 0 0 0 3 (by decide),
    (h.2.2 sampleFieldsPML).2.2.2 0 0 0 3 (by decide)⟩

/-! ## The two dispatchers of the Cartesian build -/

/-- C14: stencil selection table and agreement of the two dispatchers.  In the Cartesian
build, for every solver configuration, `EvolveF` and `EvolveFPML` take the branch that the
selection table names: the nodal stencil when the grid centering is collocated (whatever
the family), otherwise Yee for the Yee family, otherwise CKC for the CKC family, otherwise
the `Unknown algorithm` abort with the fields untouched; so one aborts if and only if the
other does, and when neither aborts both kernels run with the same stencil algorithm. -/
theorem C14_dispatch_table (Nodal Yee CKC : CartesianAlgorithm) (pc : PMLComp) (ep0 : ℚ)
    (solver : FiniteDifferenceSolver) (rhocomp : Int) (dt : ℚ)
    (mf : List (Tile Fields Box)) (mfPML : List (Tile FieldsPML Box)) :
    (EvolveF Nodal Yee CKC ep0 solver rhocomp dt mf =
      match selectStencil_spec solver with
      | some c => Run.done (EvolveFCartesian (c.pick Nodal Yee CKC) ep0 solver rhocomp dt mf)
      | none => Run.abort "EvolveF: Unknown algorithm" mf) ∧
    (EvolveFPML Nodal Yee CKC pc solver dt mfPML =
      match selectStencil_spec solver with
      | some c => Run.done (EvolveFPMLCartesian (c.pick Nodal Yee CKC) pc solver dt mfPML)
      | none => Run.abort "EvolveFPML: Unknown algorithm" mfPML) ∧
    ((EvolveF Nodal Yee CKC ep0 solver rhocomp dt mf).aborts
      = (EvolveFPML Nodal Yee CKC pc solver dt mfPML).aborts) ∧
    ((EvolveF Nodal Yee CKC ep0 solver rhocomp dt mf).aborts = true
      ↔ selectStencil_spec solver = none) := by
  unfold EvolveF EvolveFPML selectStencil_spec
  cases hgrid : solver.m_grid_type with
  | Collocated => simp [StencilChoice.pick, Run.aborts]
  | Other t =>
    cases hfam : solver.m_fdtd_algo with
    | Yee => simp [StencilChoice.pick, Run.aborts]
    | CKC => simp [StencilChoice.pick, Run.aborts]
    | Other u => simp [Run.aborts]

/-! ## Inputs of the cylindrical kernel that are never read -/

theorem CylindricalYee_ReadsOwnComponentR :
    ReadsOwnComponentR CylindricalYeeAlgorithm.DownwardDrr_over_r := by
  intro E E' r dr coefs n_coefs i j k c h
  simp [CylindricalYeeAlgorithm, h]

/-- What the per-cell lambda makes of a component does not depend on the imaginary
components `2m` of `Er` nor on the components `rho_shift + 2m` of `rho`, `m ≥ 1`, when the
radial operator reads only the component it is called with. -/
theorem cylCellMap_congr_imag (T_Algo : CylindricalAlgorithm) (ep0 : ℚ)
    (coefs_r : List ℚ) (n_coefs_r : Int) (coefs_z : List ℚ) (n_coefs_z : Int)
    (dr : ℚ) (nmodes : Int) (rmin : ℚ) (rho_shift : Int) (dt : ℚ)
    (s s' : FieldsRZ) (i j n : Int) (w : ℚ)
    (hloc : ReadsOwnComponentR T_Algo.DownwardDrr_over_r)
    (hEt : s'.Et = s.Et) (hEz : s'.Ez = s.Ez)
    (hEr : ∀ i' j' k' c : Int, ¬ (k' = 0 ∧ ∃ m : Int, 1 ≤ m ∧ c = 2*m) →
      s'.Er i' j' k' c = s.Er i' j' k' c)
    (hrho : ∀ i' j' k' c : Int, ¬ (k' = 0 ∧ ∃ m : Int, 1 ≤ m ∧ c = rho_shift + 2*m) →
      s'.rho i' j' k' c = s.rho i' j' k' c) :
    cylCellMap T_Algo ep0 coefs_r n_coefs_r coefs_z n_coefs_z dr nmodes rmin rho_shift dt
        s' i j n w
      = cylCellMap T_Algo ep0 coefs_r n_coefs_r coefs_z n_coefs_z dr nmodes rmin rho_shift dt
        s i j n w := by
  have er0 : ∀ i' j' k' : Int, s'.Er i' j' k' 0 = s.Er i' j' k' 0 := by
    intro i' j' k'
    apply hEr
    rintro ⟨-, m, h1, h2⟩
    omega
  have erOdd : ∀ x i' j' k' : Int, s'.Er i' j' k' (2*x-1) = s.Er i' j' k' (2*x-1) := by
    intro x i' j' k'
    apply hEr
    rintro ⟨-, m, h1, h2⟩
    omega
  have rho0 : s'.rho i j 0 rho_shift = s.rho i j 0 rho_shift := by
    apply hrho
    rintro ⟨-, m, h1, h2⟩
    omega
  have rhoOdd : ∀ x : Int, s'.rho i j 0 (rho_shift + 2*x-1) = s.rho i j 0 (rho_shift + 2*x-1) := by
    intro x
    apply hrho
    rintro ⟨-, m, h1, h2⟩
    omega
  unfold cylCellMap
  by_cases h0 : n = 0
  · simp only [if_pos h0]
    unfold inc0
    rw [hEz, rho0, er0 i j 0, hloc s'.Er s.Er _ _ _ _ i j 0 0 (er0)]
  · simp only [if_neg h0]
    by_cases h1 : 1 ≤ n ∧ n ≤ 2 * nmodes - 2
    · simp only [if_pos h1]
      by_cases hr : rmin + (i : ℚ) * dr ≠ 0
      · simp only [if_pos hr]
        by_cases h2 : n % 2 = 1
        · simp only [if_pos h2]
          unfold incRe
          rw [hEt, hEz, rhoOdd, hloc s'.Er s.Er _ _ _ _ i j 0 _ (erOdd ((n + 1) / 2))]
        · simp only [if_neg h2]
          unfold incIm
          rw [hEt, hEz, rhoOdd, hloc s'.Er s.Er _ _ _ _ i j 0 _ (erOdd (n / 2))]
      · simp only [if_neg hr]
    · simp only [if_neg h1]

/-- C15: imaginary-part inputs that never influence `F`.  The components at which the
cylindrical update reads `rho` are `rho_shift` and `rho_shift + 2m-1`, never
`rho_shift + 2m` with `m ≥ 1`; and when the radial operator reads only the component it is
called with (it is called with the components `0` and `2m-1` of `Er`), two runs of
`EvolveFCylindrical` whose inputs differ only in the components `Er(.,.,0,2m)` and
`rho(.,.,0,rho_shift+2m)`, `m ≥ 1`, give the same `F` at every cell and component, the
imaginary components `F(.,.,0,2m)` included. -/
theorem C15_imaginary_inputs_unread (T_Algo : CylindricalAlgorithm) (ep0 : ℚ) (ncomps : Int)
    (solver : FiniteDifferenceSolver) (rhocomp : Int) (dt : ℚ)
    (mf mf' : List (Tile FieldsRZ Box2D)) (g : Nat) (mfi mfi' : Tile FieldsRZ Box2D)
    (hloc : ReadsOwnComponentR T_Algo.DownwardDrr_over_r)
    (hg : mf[g]? = some mfi) (hg' : mf'[g]? = some mfi')
    (hbox : mfi'.tilebox = mfi.tilebox) (hF : mfi'.views.F = mfi.views.F)
    (hEt : mfi'.views.Et = mfi.views.Et) (hEz : mfi'.views.Ez = mfi.views.Ez)
    (hEr : ∀ i j k c : Int, ¬ (k = 0 ∧ ∃ m : Int, 1 ≤ m ∧ c = 2*m) →
      mfi'.views.Er i j k c = mfi.views.Er i j k c)
    (hrho : ∀ i j k c : Int,
      ¬ (k = 0 ∧ ∃ m : Int, 1 ≤ m ∧ c = rho_shift ncomps rhocomp + 2*m) →
      mfi'.views.rho i j k c = mfi.views.rho i j k c) :
    (∀ c ∈ rhoComponentsRead (rho_shift ncomps rhocomp) solver.m_nmodes,
      ¬ ∃ m : Int, 1 ≤ m ∧ c = rho_shift ncomps rhocomp + 2*m) ∧
    ∃ out out' : Tile FieldsRZ Box2D,
      (EvolveFCylindrical T_Algo ep0 ncomps solver rhocomp dt mf)[g]? = some out ∧
      (EvolveFCylindrical T_Algo ep0 ncomps solver rhocomp dt mf')[g]? = some out' ∧
      out'.views.F = out.views.F := by
  constructor
  · intro c hc
    rw [mem_rhoComponentsRead] at hc
    rintro ⟨m, h1, h2⟩
    rcases hc with h | ⟨m', _, _, h3⟩
    · omega
    · omega
  · rw [EvolveFCylindrical_step T_Algo ep0 ncomps solver rhocomp dt mf g mfi hg,
      EvolveFCylindrical_step T_Algo ep0 ncomps solver rhocomp dt mf' g mfi' hg']
    refine ⟨_, _, rfl, rfl, ?_⟩
    simp only [EvolveFCylindrical_pass, hbox, hF]
    funext i j k n
    by_cases hcell : k = 0 ∧ (i, j) ∈ mfi.tilebox.cells
    · simp only [if_pos hcell]
      exact cylCellMap_congr_imag _ _ _ _ _ _ _ _ _ _ _ _ _ _ _ _ _ hloc hEt hEz hEr hrho
    · simp only [if_neg hcell]

/-- Instance of C15 with two modes on a box holding an on-axis and an off-axis cell: the
two inputs differ in component `2` of `Er` and of `rho` and give the same `F`. -/
theorem C15_imaginary_inputs_unread_witness :
    sampleFieldsRZ_otherImag.Er 1 0 0 2 ≠ sampleFieldsRZ.Er 1 0 0 2 ∧
    sampleFieldsRZ_otherImag.rho 1 0 0 2 ≠ sampleFieldsRZ.rho 1 0 0 2 ∧
    ∃ out out' : Tile FieldsRZ Box2D,
      (EvolveFCylindrical CylindricalYeeAlgorithm 1 3 sampleSolver 0 1
        [⟨sampleFieldsRZ, twoCellBox2D⟩])[0]? = some out ∧
      (EvolveFCylindrical CylindricalYeeAlgorithm 1 3 sampleSolver 0 1
        [⟨sampleFieldsRZ_otherImag, twoCellBox2D⟩])[0]? = some out' ∧
      out'.views.F = out.views.F := by
  refine ⟨by simp [sampleFieldsRZ_otherImag, sampleFieldsRZ],
    by simp [sampleFieldsRZ_otherImag, sampleFieldsRZ], ?_⟩
  refine (C15_imaginary_inputs_unread CylindricalYeeAlgorithm 1 3 sampleSolver 0 1
    [⟨sampleFieldsRZ, twoCellBox2D⟩] [⟨sampleFieldsRZ_otherImag, twoCellBox2D⟩] 0
    ⟨sampleFieldsRZ, twoCellBox2D⟩ ⟨sampleFieldsRZ_otherImag, twoCellBox2D⟩
    CylindricalYee_ReadsOwnComponentR rfl rfl rfl rfl rfl rfl ?_ ?_).2
  · intro i j k c h
    have h' : ¬ (k = 0 ∧ 2 ≤ c ∧ c % 2 = 0) := by
      rintro ⟨a, b, d⟩
      exact h ⟨a, c / 2, by omega, by omega⟩
    show (if k = 0 ∧ 2 ≤ c ∧ c % 2 = 0 then (100 : ℚ) else 3) = 3
    rw [if_neg h']
  · intro i j k c h
    have h' : ¬ (k = 0 ∧ 2 ≤ c ∧ c % 2 = 0) := by
      rintro ⟨a, b, d⟩
      exact h ⟨a, c / 2, by omega, by simp [rho_shift]; omega⟩
    show (if k = 0 ∧ 2 ≤ c ∧ c % 2 = 0 then (200 : ℚ) else 7) = 7
    rw [if_neg h']

/-! ## Scenarios -/

theorem CartesianYee_ZeroOnConstant :
    ZeroOnConstant CartesianYeeAlgorithm.DownwardDx ∧
    ZeroOnConstant CartesianYeeAlgorithm.DownwardDy ∧
    ZeroOnConstant CartesianYeeAlgorithm.DownwardDz := by
  refine ⟨?_, ?_, ?_⟩ <;>
  · intro E coefs n_coefs i j k c v h
    simp [CartesianYeeAlgorithm, h]

/-- C13: zero-divergence baseline.  With a stencil whose derivative of a spatially
constant field is `0` (such as a coefficient-weighted sum of differences of neighbouring
values), a spatially constant `E` (ghost cells included) and `rho = 0`, `EvolveFCartesian`
leaves `F` unchanged at every cell, for every `dt`: the increment is `dt * (0+0+0+0) = 0`. -/
theorem C13_zero_divergence_baseline (T_Algo : CartesianAlgorithm) (ep0 : ℚ)
    (solver : FiniteDifferenceSolver) (rhocomp : Int) (dt : ℚ)
    (mf : List (Tile Fields Box)) (g : Nat) (mfi : Tile Fields Box)
    (hg : mf[g]? = some mfi)
    (hDx : ZeroOnConstant T_Algo.DownwardDx) (hDy : ZeroOnConstant T_Algo.DownwardDy)
    (hDz : ZeroOnConstant T_Algo.DownwardDz) (ex ey ez : ℚ)
    (hEx : ∀ i j k, mfi.views.Ex i j k 0 = ex) (hEy : ∀ i j k, mfi.views.Ey i j k 0 = ey)
    (hEz : ∀ i j k, mfi.views.Ez i j k 0 = ez)
    (hrho : ∀ i j k, mfi.views.rho i j k rhocomp = 0) :
    ∃ out : Tile Fields Box,
      (EvolveFCartesian T_Algo ep0 solver rhocomp dt mf)[g]? = some out ∧
      out.views.F = mfi.views.F := by
  rw [EvolveFCartesian_step T_Algo ep0 solver rhocomp dt mf g mfi hg]
  refine ⟨_, rfl, ?_⟩
  simp only [EvolveFCartesian_pass]
  funext i j k n
  rw [hDx _ _ _ i j k 0 ex hEx, hDy _ _ _ i j k 0 ey hEy, hDz _ _ _ i j k 0 ez hEz, hrho]
  simp

/-- Instance of C13: the `4 × 4` grid with the Yee stencil, `dt = 1/1000`, the uniform
field `E = (1, 0, 0)` and `rho = 0`. -/
theorem C13_zero_divergence_baseline_witness :
    ∃ out : Tile Fields Box,
      (EvolveFCartesian CartesianYeeAlgorithm 1 sampleSolver 0 (1 / 1000)
        [⟨uniformEFields, grid4x4⟩])[0]? = some out ∧
      out.views.F = uniformEFields.F :=
  C13_zero_divergence_baseline CartesianYeeAlgorithm 1 sampleSolver 0 (1 / 1000)
    [⟨uniformEFields, grid4x4⟩] 0 ⟨uniformEFields, grid4x4⟩ rfl
    CartesianYee_ZeroOnConstant.1 CartesianYee_ZeroOnConstant.2.1
    CartesianYee_ZeroOnConstant.2.2 1 0 0
    (fun _ _ _ => rfl) (fun _ _ _ => rfl) (fun _ _ _ => rfl) (fun _ _ _ => rfl)

/-- C12: on-axis regularization against the off-axis formula for a linear `Er`.  With
`rmin = 0`, `dr ≠ 0`, the first radial coefficient equal to `1/dr`, and `Er = a*r` sampled
at `r_i = (i + 1/2)*dr`: the on-axis term `4*Er(0,j,0,0)/dr` is `2a`; the analytic operator
`(1/r) d/dr (r*Er)` is `2a` at every `r ≠ 0`; the ring operator
`(1/(r*dr)) * ((r + dr/2)*Er(i) - (r - dr/2)*Er(i-1))`, which is the radial operator of the
cylindrical Yee algorithm, is `2a` at every node `r = i*dr`, `i ≠ 0`; and after
`EvolveFCylindrical` with that algorithm the mode-0 value of every cell of the tile box, on
or off the axis, is the value before plus `dt * (-rho/ep0 + 2a + DownwardDz(Ez))`. -/
theorem C12_onaxis_regularization_linear (ep0 : ℚ) (ncomps : Int)
    (solver : FiniteDifferenceSolver) (rhocomp : Int) (dt : ℚ)
    (mf : List (Tile FieldsRZ Box2D)) (g : Nat) (mfi : Tile FieldsRZ Box2D) (a : ℚ)
    (hg : mf[g]? = some mfi)
    (hrmin : solver.m_rmin = 0) (hdr : solver.m_dr ≠ 0)
    (hcoef : solver.m_stencil_coefs_r.getD 0 0 = 1 / solver.m_dr)
    (hEr : ∀ i j k : Int, mfi.views.Er i j k 0 = a * ((i : ℚ) + 1 / 2) * solver.m_dr) :
    (∀ j : Int, 4 * mfi.views.Er 0 j 0 0 / solver.m_dr = 2 * a) ∧
    (∀ r : ℝ, r ≠ 0 → deriv (fun x : ℝ => x * ((a : ℝ) * x)) r / r = 2 * (a : ℝ)) ∧
    (∀ i j : Int, i ≠ 0 →
      1 / (((i : ℚ) * solver.m_dr) * solver.m_dr)
        * (((i : ℚ) * solver.m_dr + solver.m_dr / 2) * mfi.views.Er i j 0 0
          - ((i : ℚ) * solver.m_dr - solver.m_dr / 2) * mfi.views.Er (i - 1) j 0 0) = 2 * a ∧
      CylindricalYeeAlgorithm.DownwardDrr_over_r mfi.views.Er ((i : ℚ) * solver.m_dr)
        solver.m_dr solver.m_stencil_coefs_r solver.m_stencil_coefs_r.length i j 0 0
        = 2 * a) ∧
    (∀ i j : Int, mfi.tilebox.contains i j →
      ∃ out : Tile FieldsRZ Box2D,
        (EvolveFCylindrical CylindricalYeeAlgorithm ep0 ncomps solver rhocomp dt mf)[g]?
          = some out ∧
        out.views.F i j 0 0 = mfi.views.F i j 0 0 + dt * (
          - mfi.views.rho i j 0 (rho_shift ncomps rhocomp) / ep0
          + 2 * a
          + CylindricalYeeAlgorithm.DownwardDz mfi.views.Ez solver.m_stencil_coefs_z
              solver.m_stencil_coefs_z.length i j 0 0 )) := by
  have haxis : ∀ j : Int, 4 * mfi.views.Er 0 j 0 0 / solver.m_dr = 2 * a := by
    intro j
    rw [hEr]
    field_simp
    ring
  have hring : ∀ i j : Int, i ≠ 0 →
      CylindricalYeeAlgorithm.DownwardDrr_over_r mfi.views.Er ((i : ℚ) * solver.m_dr)
        solver.m_dr solver.m_stencil_coefs_r solver.m_stencil_coefs_r.length i j 0 0
        = 2 * a := by
    intro i j hi
    have hi' : (i : ℚ) ≠ 0 := by exact_mod_cast hi
    simp only [CylindricalYeeAlgorithm, hcoef, hEr]
    push_cast
    field_simp
    ring
  refine ⟨haxis, ?_, ?_, ?_⟩
  · intro r hr
    have h1 : HasDerivAt (fun x : ℝ => x * ((a : ℝ) * x))
        (1 * ((a : ℝ) * r) + r * ((a : ℝ) * 1)) r :=
      (hasDerivAt_id r).mul ((hasDerivAt_id r).const_mul (a : ℝ))
    rw [h1.deriv]
    field_simp
    ring
  · intro i j hi
    refine ⟨?_, hring i j hi⟩
    have hi' : (i : ℚ) ≠ 0 := by exact_mod_cast hi
    rw [hEr, hEr]
    push_cast
    field_simp
    ring
  · intro i j hc
    obtain ⟨out, h1, h2⟩ := EvolveFCylindrical_at CylindricalYeeAlgorithm ep0 ncomps solver
      rhocomp dt mf g mfi hg i j hc
    refine ⟨out, h1, ?_⟩
    rw [h2]
    unfold cylCellMap inc0
    simp only [if_true, hrmin, zero_add]
    by_cases hi : i = 0
    · have hr : ¬ ((i : ℚ) * solver.m_dr ≠ 0) := by simp [hi]
      rw [if_neg hr, hi, haxis j]
      ring
    · have hi' : (i : ℚ) ≠ 0 := by exact_mod_cast hi
      have hr : (i : ℚ) * solver.m_dr ≠ 0 := mul_ne_zero hi' hdr
      rw [if_pos hr, hring i j hi]
      ring

/-- Instance of C12 with `a = 3`, `dr = 1/2` on a box holding the on-axis cell `(0, 0)` and
the off-axis cell `(1, 0)`: both mode-0 values go from `5` to `5 + (-7 + 2*3 + 0) = 4`. -/
theorem C12_onaxis_regularization_linear_witness :
    ∃ out : Tile FieldsRZ Box2D,
      (EvolveFCylindrical CylindricalYeeAlgorithm 1 3 halfStepSolver 0 1
        [⟨linearErFields, twoCellBox2D⟩])[0]? = some out ∧
      out.views.F 0 0 0 0 = 4 ∧ out.views.F 1 0 0 0 = 4 := by
  have h := (C12_onaxis_regularization_linear 1 3 halfStepSolver 0 1
    [⟨linearErFields, twoCellBox2D⟩] 0 ⟨linearErFields, twoCellBox2D⟩ 3 rfl rfl
    (by simp [halfStepSolver]) (by simp [halfStepSolver])
    (by intro i j k; simp [linearErFields, halfStepSolver])).2.2.2
  obtain ⟨out, h1, h2⟩ := h 0 0 (by decide)
  obtain ⟨out', h1', h2'⟩ := h 1 0 (by decide)
  have e : out' = out := by
    rw [h1] at h1'
    exact (Option.some.inj h1').symm
  subst e
  refine ⟨out', h1, ?_, ?_⟩
  · rw [h2]
    simp [linearErFields, halfStepSolver, sampleSolver, CylindricalYeeAlgorithm, rho_shift]
    norm_num
  · rw [h2']
    simp [linearErFields, halfStepSolver, sampleSolver, CylindricalYeeAlgorithm, rho_shift]
    norm_num

/-! ## The secant loop -/

theorem secantLoop_length (jn : Int → ℚ → ℚ) (n : Int) (tol : ℚ) (ntry : Nat) :
    ∀ (turns : Nat) (it : Int) (p0 p1 q0 q1 p : ℚ),
      (secantLoop jn n tol ntry turns it p0 p1 q0 q1 p).steps.length ≤ turns := by
  intro turns
  induction turns with
  | zero => intro it p0 p1 q0 q1 p; simp [secantLoop]
  | succ t ih =>
    intro it p0 p1 q0 q1 p
    simp only [secantLoop]
    split_ifs with h1 h2
    · simp
    · simp
    · simp only [List.length_cons]
      exact Nat.succ_le_succ (ih _ _ _ _ _ _)

/-- Every recorded turn divided by a nonzero `q1 - q0`, belongs to the try of the loop, and
holds the secant iterate `p = p1 - q1*(p1 - p0)/(q1 - q0)` and the step `dp = p - p1`. -/
theorem secantLoop_mem (jn : Int → ℚ → ℚ) (n : Int) (tol : ℚ) (ntry : Nat) :
    ∀ (turns : Nat) (it : Int) (p0 p1 q0 q1 p : ℚ),
      ∀ st ∈ (secantLoop jn n tol ntry turns it p0 p1 q0 q1 p).steps,
        st.q1 ≠ st.q0 ∧ st.ntry = ntry ∧
        st.p = st.p1 - st.q1 * (st.p1 - st.p0) / (st.q1 - st.q0) ∧ st.dp = st.p - st.p1 := by
  intro turns
  induction turns with
  | zero => intro it p0 p1 q0 q1 p st hst; simp [secantLoop] at hst
  | succ t ih =>
    intro it p0 p1 q0 q1 p st hst
    simp only [secantLoop] at hst
    split_ifs at hst with h1 h2
    · simp at hst
    · simp only [List.mem_singleton] at hst
      subst hst
      exact ⟨h1, rfl, rfl, rfl⟩
    · simp only [List.mem_cons] at hst
      rcases hst with hst | hst
      · subst hst
        exact ⟨h1, rfl, rfl, rfl⟩
      · exact ih _ _ _ _ _ _ st hst

/-- The recorded turns carry consecutive loop indices, starting from the first. -/
theorem secantLoop_it (jn : Int → ℚ → ℚ) (n : Int) (tol : ℚ) (ntry : Nat) :
    ∀ (turns : Nat) (it : Int) (p0 p1 q0 q1 p : ℚ) (t : Nat) (st : SecantStep),
      (secantLoop jn n tol ntry turns it p0 p1 q0 q1 p).steps[t]? = some st →
        st.it = it + (t : Int) := by
  intro turns
  induction turns with
  | zero => intro it p0 p1 q0 q1 p t st hst; simp [secantLoop] at hst
  | succ u ih =>
    intro it p0 p1 q0 q1 p t st hst
    simp only [secantLoop] at hst
    split_ifs at hst with h1 h2
    · simp at hst
    · cases t with
      | zero =>
        simp only [List.getElem?_cons_zero, Option.some.injEq] at hst
        subst hst
        simp
      | succ t' => simp at hst
    · cases t with
      | zero =>
        simp only [List.getElem?_cons_zero, Option.some.injEq] at hst
        subst hst
        simp
      | succ t' =>
        simp only [List.getElem?_cons_succ] at hst
        have := ih _ _ _ _ _ _ t' st hst
        rw [this]
        push_cast
        ring

/-- The first recorded turn of a loop works on the points and values the loop started
with. -/
theorem secantLoop_head (jn : Int → ℚ → ℚ) (n : Int) (tol : ℚ) (ntry : Nat)
    (turns : Nat) (it : Int) (p0 p1 q0 q1 p : ℚ) (st : SecantStep)
    (hst : (secantLoop jn n tol ntry turns it p0 p1 q0 q1 p).steps[0]? = some st) :
    st.p0 = p0 ∧ st.p1 = p1 ∧ st.q0 = q0 ∧ st.q1 = q1 := by
  cases turns with
  | zero => simp [secantLoop] at hst
  | succ u =>
    simp only [secantLoop] at hst
    split_ifs at hst with h1 h2
    · simp at hst
    · simp only [List.getElem?_cons_zero, Option.some.injEq] at hst
      subst hst
      exact ⟨rfl, rfl, rfl, rfl⟩
    · simp only [List.getElem?_cons_zero, Option.some.injEq] at hst
      subst hst
      exact ⟨rfl, rfl, rfl, rfl⟩

/-- The loop is left by its `return` exactly when a recorded turn with index `it > 1` made
a step with `|dp| < tol`. -/
theorem secantLoop_converged_iff (jn : Int → ℚ → ℚ) (n : Int) (tol : ℚ) (ntry : Nat) :
    ∀ (turns : Nat) (it : Int) (p0 p1 q0 q1 p : ℚ),
      (secantLoop jn n tol ntry turns it p0 p1 q0 q1 p).converged = true ↔
        ∃ st ∈ (secantLoop jn n tol ntry turns it p0 p1 q0 q1 p).steps,
          1 < st.it ∧ |st.dp| < tol := by
  intro turns
  induction turns with
  | zero => intro it p0 p1 q0 q1 p; simp [secantLoop]
  | succ u ih =>
    intro it p0 p1 q0 q1 p
    simp only [secantLoop]
    split_ifs with h1 h2
    · simp
    · simp only [List.mem_singleton, exists_eq_left, true_iff]
      exact ⟨h2.1, h2.2⟩
    · simp only [List.mem_cons, exists_eq_or_imp]
      rw [ih]
      constructor
      · intro h
        exact Or.inr h
      · rintro (h | h)
        · exact absurd ⟨h.1, h.2⟩ h2
        · exact h

/-- When the loop is left by its `return`, the last recorded turn is the one with
`it > 1` and `|dp| < tol`. -/
theorem secantLoop_last (jn : Int → ℚ → ℚ) (n : Int) (tol : ℚ) (ntry : Nat) :
    ∀ (turns : Nat) (it : Int) (p0 p1 q0 q1 p : ℚ),
      (secantLoop jn n tol ntry turns it p0 p1 q0 q1 p).converged = true →
        ∃ st, (secantLoop jn n tol ntry turns it p0 p1 q0 q1 p).steps.getLast? = some st ∧
          1 < st.it ∧ |st.dp| < tol := by
  intro turns
  induction turns with
  | zero => intro it p0 p1 q0 q1 p h; simp [secantLoop] at h
  | succ u ih =>
    intro it p0 p1 q0 q1 p h
    simp only [secantLoop] at h ⊢
    split_ifs at h ⊢ with h1 h2
    · exact ⟨_, rfl, h2.1, h2.2⟩
    · obtain ⟨st, hst, hit, hdp⟩ := ih _ _ _ _ _ _ h
      refine ⟨st, ?_, hit, hdp⟩
      simp only [List.getLast?_cons, hst, Option.getD_some]

/-- The value of `p` when the loop is left is the last iterate it computed, or the value
it started with when it computed none. -/
theorem secantLoop_p (jn : Int → ℚ → ℚ) (n : Int) (tol : ℚ) (ntry : Nat) :
    ∀ (turns : Nat) (it : Int) (p0 p1 q0 q1 p : ℚ),
      (secantLoop jn n tol ntry turns it p0 p1 q0 q1 p).p
        = ((secantLoop jn n tol ntry turns it p0 p1 q0 q1 p).steps.getLast?.map
            (fun st => st.p)).getD p := by
  intro turns
  induction turns with
  | zero => intro it p0 p1 q0 q1 p; simp [secantLoop]
  | succ u ih =>
    intro it p0 p1 q0 q1 p
    simp only [secantLoop]
    split_ifs with h1 h2
    · simp
    · simp
    · simp only [List.getLast?_cons, Option.map_some', Option.getD_some]
      rw [ih]
      cases (secantLoop jn n tol ntry u (it + 1) p1
        (p1 - q1 * (p1 - p0) / (q1 - q0)) q1 (jn n (p1 - q1 * (p1 - p0) / (q1 - q0)))
        (p1 - q1 * (p1 - p0) / (q1 - q0))).steps.getLast? <;> simp

/-- A recorded turn with loop index `1` of a loop started at index `1` works on the points
the loop started with. -/
theorem secantLoop_first (jn : Int → ℚ → ℚ) (n : Int) (tol : ℚ) (ntry : Nat)
    (turns : Nat) (p0 p1 q0 q1 p : ℚ) :
    ∀ st ∈ (secantLoop jn n tol ntry turns 1 p0 p1 q0 q1 p).steps, st.it = 1 →
      st.p0 = p0 ∧ st.p1 = p1 := by
  intro st hst hit
  obtain ⟨t, ht⟩ := List.mem_iff_getElem?.1 hst
  have h1 := secantLoop_it jn n tol ntry turns 1 p0 p1 q0 q1 p t st ht
  have ht0 : t = 0 := by omega
  subst ht0
  have h2 := secantLoop_head jn n tol ntry turns 1 p0 p1 q0 q1 p st ht
  exact ⟨h2.1, h2.2.1⟩

/-- C18: termination and outcome of `SecantRootFinder`.  For every order `n`, every
`nitmx ≥ 0`, every `tol`, every starting value and every function `jn`, the function
returns after at most `2*nitmx` secant iterations, made in two tries whose first points
are `0.95` and `0.999` times the starting value; every iteration divides by a nonzero
`q1 - q0`; the code is `0` or `3`; it is `0` exactly when some iteration with index `it > 1`
made a step with `|dp| < tol`, and then that iteration is the last one and `zeroj` is its
iterate; otherwise it is `3` and `zeroj` is the last iterate computed, or the unchanged
starting value when none was. -/
theorem C18_SecantRootFinder_outcome (jn : Int → ℚ → ℚ) (n nitmx : Int) (tol zeroj : ℚ)
    (hnitmx : 0 ≤ nitmx) :
    ∃ r : SecantResult, r = SecantRootFinder jn n nitmx tol zeroj ∧
      (r.steps.length : Int) ≤ 2 * nitmx ∧
      (∀ st ∈ r.steps, st.q1 - st.q0 ≠ 0 ∧ (st.ntry = 0 ∨ st.ntry = 1) ∧
        st.p = st.p1 - st.q1 * (st.p1 - st.p0) / (st.q1 - st.q0) ∧ st.dp = st.p - st.p1) ∧
      (∀ st ∈ r.steps, st.it = 1 →
        st.p1 = zeroj ∧ st.p0 = (if st.ntry = 0 then 95 / 100 else 999 / 1000) * zeroj) ∧
      (r.ier = 0 ∨ r.ier = 3) ∧
      (r.ier = 0 ↔ ∃ st ∈ r.steps, 1 < st.it ∧ |st.dp| < tol) ∧
      (r.ier = 0 → ∃ st, r.steps.getLast? = some st ∧ 1 < st.it ∧ |st.dp| < tol ∧
        r.zeroj = st.p) ∧
      (r.ier = 3 → r.zeroj = (r.steps.getLast?.map (fun st => st.p)).getD zeroj) := by
  refine ⟨_, rfl, ?_⟩
  have L0 := secantLoop_length jn n tol 0 nitmx.toNat 1 (95 / 100 * zeroj) zeroj
    (jn n (95 / 100 * zeroj)) (jn n zeroj) zeroj
  have M0 := secantLoop_mem jn n tol 0 nitmx.toNat 1 (95 / 100 * zeroj) zeroj
    (jn n (95 / 100 * zeroj)) (jn n zeroj) zeroj
  have F0 := secantLoop_first jn n tol 0 nitmx.toNat (95 / 100 * zeroj) zeroj
    (jn n (95 / 100 * zeroj)) (jn n zeroj) zeroj
  have C0 := secantLoop_converged_iff jn n tol 0 nitmx.toNat 1 (95 / 100 * zeroj) zeroj
    (jn n (95 / 100 * zeroj)) (jn n zeroj) zeroj
  have E0 := secantLoop_last jn n tol 0 nitmx.toNat 1 (95 / 100 * zeroj) zeroj
    (jn n (95 / 100 * zeroj)) (jn n zeroj) zeroj
  have P0 := secantLoop_p jn n tol 0 nitmx.toNat 1 (95 / 100 * zeroj) zeroj
    (jn n (95 / 100 * zeroj)) (jn n zeroj) zeroj
  unfold SecantRootFinder
  simp only []
  generalize secantLoop jn n tol 0 nitmx.toNat 1 (95 / 100 * zeroj) zeroj
    (jn n (95 / 100 * zeroj)) (jn n zeroj) zeroj = t0 at L0 M0 F0 C0 E0 P0 ⊢
  have L1 := secantLoop_length jn n tol 1 nitmx.toNat 1 (999 / 1000 * zeroj) zeroj
    (jn n (999 / 1000 * zeroj)) (jn n zeroj) t0.p
  have M1 := secantLoop_mem jn n tol 1 nitmx.toNat 1 (999 / 1000 * zeroj) zeroj
    (jn n (999 / 1000 * zeroj)) (jn n zeroj) t0.p
  have F1 := secantLoop_first jn n tol 1 nitmx.toNat (999 / 1000 * zeroj) zeroj
    (jn n (999 / 1000 * zeroj)) (jn n zeroj) t0.p
  have C1 := secantLoop_converged_iff jn n tol 1 nitmx.toNat 1 (999 / 1000 * zeroj) zeroj
    (jn n (999 / 1000 * zeroj)) (jn n zeroj) t0.p
  have E1 := secantLoop_last jn n tol 1 nitmx.toNat 1 (999 / 1000 * zeroj) zeroj
    (jn n (999 / 1000 * zeroj)) (jn n zeroj) t0.p
  have P1 := secantLoop_p jn n tol 1 nitmx.toNat 1 (999 / 1000 * zeroj) zeroj
    (jn n (999 / 1000 * zeroj)) (jn n zeroj) t0.p
  generalize secantLoop jn n tol 1 nitmx.toNat 1 (999 / 1000 * zeroj) zeroj
    (jn n (999 / 1000 * zeroj)) (jn n zeroj) t0.p = t1 at L1 M1 F1 C1 E1 P1 ⊢
  have hmem0 : ∀ st ∈ t0.steps, st.q1 - st.q0 ≠ 0 ∧ (st.ntry = 0 ∨ st.ntry = 1) ∧
      st.p = st.p1 - st.q1 * (st.p1 - st.p0) / (st.q1 - st.q0) ∧ st.dp = st.p - st.p1 :=
    fun st hst => ⟨sub_ne_zero.2 (M0 st hst).1, Or.inl (M0 st hst).2.1, (M0 st hst).2.2⟩
  have hmem1 : ∀ st ∈ t1.steps, st.q1 - st.q0 ≠ 0 ∧ (st.ntry = 0 ∨ st.ntry = 1) ∧
      st.p = st.p1 - st.q1 * (st.p1 - st.p0) / (st.q1 - st.q0) ∧ st.dp = st.p - st.p1 :=
    fun st hst => ⟨sub_ne_zero.2 (M1 st hst).1, Or.inr (M1 st hst).2.1, (M1 st hst).2.2⟩
  have hfirst0 : ∀ st ∈ t0.steps, st.it = 1 →
      st.p1 = zeroj ∧ st.p0 = (if st.ntry = 0 then 95 / 100 else 999 / 1000) * zeroj := by
    intro st hst hit
    have h := F0 st hst hit
    rw [(M0 st hst).2.1]
    exact ⟨h.2, by simpa using h.1⟩
  have hfirst1 : ∀ st ∈ t1.steps, st.it = 1 →
      st.p1 = zeroj ∧ st.p0 = (if st.ntry = 0 then 95 / 100 else 999 / 1000) * zeroj := by
    intro st hst hit
    have h := F1 st hst hit
    rw [(M1 st hst).2.1]
    exact ⟨h.2, by simpa using h.1⟩
  have hL0 : (t0.steps.length : Int) ≤ nitmx := by
    rw [← Int.toNat_of_nonneg hnitmx]
    exact_mod_cast L0
  have hL1 : (t1.steps.length : Int) ≤ nitmx := by
    rw [← Int.toNat_of_nonneg hnitmx]
    exact_mod_cast L1
  by_cases h0 : t0.converged = true
  · rw [if_pos h0]
    refine ⟨by linarith, hmem0, hfirst0, Or.inl rfl, ?_, ?_, ?_⟩
    · exact ⟨fun _ => C0.1 h0, fun _ => rfl⟩
    · intro _
      obtain ⟨st, hst, hit, hdp⟩ := E0 h0
      refine ⟨st, hst, hit, hdp, ?_⟩
      rw [P0, hst]
      rfl
    · intro h
      exact absurd h (by simp)
  · have h0' : ¬ ∃ st ∈ t0.steps, 1 < st.it ∧ |st.dp| < tol := fun h => h0 (C0.2 h)
    have hmem : ∀ st ∈ t0.steps ++ t1.steps, st.q1 - st.q0 ≠ 0 ∧
        (st.ntry = 0 ∨ st.ntry = 1) ∧
        st.p = st.p1 - st.q1 * (st.p1 - st.p0) / (st.q1 - st.q0) ∧ st.dp = st.p - st.p1 := by
      intro st hst
      rcases List.mem_append.1 hst with h | h
      · exact hmem0 st h
      · exact hmem1 st h
    have hfirst : ∀ st ∈ t0.steps ++ t1.steps, st.it = 1 →
        st.p1 = zeroj ∧ st.p0 = (if st.ntry = 0 then 95 / 100 else 999 / 1000) * zeroj := by
      intro st hst
      rcases List.mem_append.1 hst with h | h
      · exact hfirst0 st h
      · exact hfirst1 st h
    have hlen : ((t0.steps ++ t1.steps).length : Int) ≤ 2 * nitmx := by
      rw [List.length_append]
      push_cast
      linarith
    have hex : (∃ st ∈ t0.steps ++ t1.steps, 1 < st.it ∧ |st.dp| < tol)
        ↔ t1.converged = true := by
      rw [C1]
      constructor
      · rintro ⟨st, hst, hc⟩
        rcases List.mem_append.1 hst with h | h
        · exact absurd ⟨st, h, hc⟩ h0'
        · exact ⟨st, h, hc⟩
      · rintro ⟨st, hst, hc⟩
        exact ⟨st, List.mem_append.2 (Or.inr hst), hc⟩
    rw [if_neg h0]
    by_cases h1 : t1.converged = true
    · rw [if_pos h1]
      refine ⟨hlen, hmem, hfirst, Or.inl rfl, ?_, ?_, ?_⟩
      · exact ⟨fun _ => hex.2 h1, fun _ => rfl⟩
      · intro _
        obtain ⟨st, hst, hit, hdp⟩ := E1 h1
        refine ⟨st, ?_, hit, hdp, ?_⟩
        · rw [List.getLast?_append, hst]
          rfl
        · rw [P1, hst]
          rfl
      · intro h
        exact absurd h (by simp)
    · rw [if_neg h1]
      refine ⟨hlen, hmem, hfirst, Or.inr rfl, ?_, ?_, ?_⟩
      · constructor
        · intro h
          exact absurd h (by simp)
        · intro h
          exact absurd (hex.1 h) h1
      · intro h
        exact absurd h (by simp)
      · intro _
        rw [P1, P0, List.getLast?_append]
        cases t1.steps.getLast? <;> rfl

/-- Instance of C18 with `jn(n, x) = x - 3`, `nitmx = 10`, `tol = 1/100` and the starting
value `4`: the second iteration of the first try makes the step `0`, so the code is `0` and
`zeroj` is `3`. -/
theorem C18_SecantRootFinder_outcome_witness :
    (SecantRootFinder sampleJn 0 10 (1 / 100) 4).ier = 0 ∧
    (SecantRootFinder sampleJn 0 10 (1 / 100) 4).zeroj = 3 ∧
    ∃ r : SecantResult, r = SecantRootFinder sampleJn 0 10 (1 / 100) 4 ∧
      (r.steps.length : Int) ≤ 2 * 10 ∧
      (∀ st ∈ r.steps, st.q1 - st.q0 ≠ 0) ∧
      (r.ier = 0 ↔ ∃ st ∈ r.steps, 1 < st.it ∧ |st.dp| < 1 / 100) := by
  obtain ⟨r, hr, h1, h2, -, -, h5, -, -⟩ :=
    C18_SecantRootFinder_outcome sampleJn 0 10 (1 / 100) 4 (by decide)
  refine ⟨?_, ?_, r, hr, h1, fun st hst => (h2 st hst).1, h5⟩
  · norm_num [SecantRootFinder, secantLoop, sampleJn]
  · norm_num [SecantRootFinder, secantLoop, sampleJn]

/-! ## The stores of `GetBesselRoots` -/

theorem SecantRootFinder_ier (jn : Int → ℚ → ℚ) (n nitmx : Int) (tol zeroj : ℚ) :
    (SecantRootFinder jn n nitmx tol zeroj).ier = 0 ∨
    (SecantRootFinder jn n nitmx tol zeroj).ier = 3 := by
  unfold SecantRootFinder
  simp only []
  split_ifs
  · exact Or.inl rfl
  · exact Or.inl rfl
  · exact Or.inr rfl

theorem besselLoop_length (jn : Int → ℚ → ℚ) (pi : ℚ) (n : Int) :
    ∀ (turns : Nat) (ik k ierror : Int),
      (besselLoop jn pi n turns ik k ierror).length = turns := by
  intro turns
  induction turns with
  | zero => intro ik k ierror; rfl
  | succ t ih =>
    intro ik k ierror
    simp only [besselLoop, List.length_cons, ih]

/-- The turns of the loop store at consecutive indices, starting from `ik`. -/
theorem besselLoop_index (jn : Int → ℚ → ℚ) (pi : ℚ) (n : Int) :
    ∀ (turns : Nat) (ik k ierror : Int),
      (besselLoop jn pi n turns ik k ierror).map (fun w => w.index)
        = (List.range turns).map (fun (t : Nat) => ik + (t : Int)) := by
  intro turns
  induction turns with
  | zero => intro ik k ierror; rfl
  | succ t ih =>
    intro ik k ierror
    simp only [besselLoop, List.map_cons, ih, List.range_succ_eq_map, List.map_map]
    refine congrArg₂ List.cons (by simp) ?_
    apply List.map_congr_left
    intro a _
    simp only [Function.comp_apply, Nat.succ_eq_add_one]
    push_cast
    ring

theorem besselLoop_ier (jn : Int → ℚ → ℚ) (pi : ℚ) (n : Int) :
    ∀ (turns : Nat) (ik k ierror : Int), (ierror = 0 ∨ ierror = 3) →
      ∀ w ∈ besselLoop jn pi n turns ik k ierror, w.ier = 0 ∨ w.ier = 3 := by
  intro turns
  induction turns with
  | zero => intro ik k ierror _ w hw; simp [besselLoop] at hw
  | succ t ih =>
    intro ik k ierror hier w hw
    simp only [besselLoop, List.mem_cons] at hw
    have hnew : (if |jn n (macMahon pi n k)| > besselTol
        then (SecantRootFinder jn n besselNitmx besselTol (macMahon pi n k)).ier
        else ierror) = 0 ∨
      (if |jn n (macMahon pi n k)| > besselTol
        then (SecantRootFinder jn n besselNitmx besselTol (macMahon pi n k)).ier
        else ierror) = 3 := by
      split_ifs
      · exact SecantRootFinder_ier _ _ _ _ _
      · exact hier
    rcases hw with hw | hw
    · subst hw
      exact hnew
    · exact ih _ _ _ hnew w hw

/-- Every store of the loop relates to the store before it as `RootAfter` says, the store
before the first turn being the one that left `ierror`. -/
theorem besselLoop_pair (jn : Int → ℚ → ℚ) (pi : ℚ) (n : Int) :
    ∀ (turns : Nat) (ik k ierror : Int) (wprev : RootWrite),
      wprev.ier = ierror → wprev.index + 1 = ik →
      ∀ (t : Nat) (w w' : RootWrite),
        (wprev :: besselLoop jn pi n turns ik k ierror)[t]? = some w →
        (wprev :: besselLoop jn pi n turns ik k ierror)[t + 1]? = some w' →
        RootAfter jn pi n (k - ik) w w' := by
  intro turns
  induction turns with
  | zero =>
    intro ik k ierror wprev _ _ t w w' _ h2
    simp [besselLoop] at h2
  | succ u ih =>
    intro ik k ierror wprev hier hidx t w w' h1 h2
    simp only [besselLoop] at h1 h2
    cases t with
    | zero =>
      simp only [List.getElem?_cons_zero, Option.some.injEq] at h1
      simp only [zero_add, List.getElem?_cons_succ, List.getElem?_cons_zero,
        Option.some.injEq] at h2
      subst h1 h2
      have hk : ik + (k - ik) = k := by ring
      unfold RootAfter
      simp only [hk]
      refine ⟨hidx.symm, ?_, ?_⟩
      · intro hle
        have hnot : ¬ (|jn n (macMahon pi n k)| > besselTol) := not_lt.2 hle
        simp only [if_neg hnot, hier, and_self]
      · intro hlt
        have hpos : |jn n (macMahon pi n k)| > besselTol := hlt
        simp only [if_pos hpos, and_self]
    | succ t' =>
      rw [List.getElem?_cons_succ] at h1 h2
      have h := ih (ik + 1) (k + 1) _ _ rfl rfl t' w w' h1 h2
      have hk : k + 1 - (ik + 1) = k - ik := by ring
      rw [hk] at h
      exact h

/-- The stores of `GetBesselRoots` go to the indices `0, 1, 2, ...` in this order: `nk` of
them, but never fewer than one when `n = 0` and never fewer than two when `n ≠ 0`. -/
theorem GetBesselRoots_writes_index (jn : Int → ℚ → ℚ) (pi : ℚ) (pow13 : Int → ℚ)
    (n nk : Int) :
    (GetBesselRoots_writes jn pi pow13 n nk).map (fun w => w.index)
      = (List.range (if n = 0 then max 1 nk.toNat else max 2 nk.toNat)).map
          (fun (t : Nat) => (t : Int)) := by
  unfold GetBesselRoots_writes
  by_cases hn : n = 0
  · have hm : max 1 nk.toNat = (nk - 1).toNat + 1 := by omega
    simp only [if_pos hn, List.map_cons, besselLoop_index, hm, List.range_succ_eq_map,
      List.map_map]
    refine congrArg₂ List.cons (by simp) ?_
    apply List.map_congr_left
    intro a _
    simp only [Function.comp_apply, Nat.succ_eq_add_one]
    push_cast
    ring
  · have hm : max 2 nk.toNat = (nk - 2).toNat + 1 + 1 := by omega
    simp only [if_neg hn, List.map_cons, besselLoop_index, hm, List.range_succ_eq_map,
      List.map_map]
    refine congrArg₂ List.cons (by simp) (congrArg₂ List.cons (by simp) ?_)
    apply List.map_congr_left
    intro a _
    simp only [Function.comp_apply, Nat.succ_eq_add_one]
    push_cast
    ring

/-- The store at position `t` of the list of stores goes to the index `t`. -/
theorem GetBesselRoots_writes_at (jn : Int → ℚ → ℚ) (pi : ℚ) (pow13 : Int → ℚ)
    (n nk : Int) (t : Nat) (w : RootWrite)
    (h : (GetBesselRoots_writes jn pi pow13 n nk)[t]? = some w) : w.index = (t : Int) := by
  have h1 : ((GetBesselRoots_writes jn pi pow13 n nk).map (fun w => w.index))[t]?
      = some w.index := by
    rw [List.getElem?_map, h]
    rfl
  rw [GetBesselRoots_writes_index, List.getElem?_map] at h1
  cases hr : (List.range (if n = 0 then max 1 nk.toNat else max 2 nk.toNat))[t]? with
  | none => rw [hr] at h1; simp at h1
  | some a =>
    rw [hr] at h1
    simp only [Option.map_some', Option.some.injEq] at h1
    have hlt : t < (List.range (if n = 0 then max 1 nk.toNat else max 2 nk.toNat)).length := by
      by_contra hge
      rw [List.getElem?_eq_none (not_lt.1 hge)] at hr
      simp at hr
    rw [List.length_range] at hlt
    rw [List.getElem?_range hlt] at hr
    simp only [Option.some.injEq] at hr
    rw [← h1, ← hr]

/-- C17: error codes reported by `GetBesselRoots`, `jn` being any function.  Every stored
code is `0` or `3`; for `n ≠ 0` the first store is the trivial root, `roots[0] = 0` with
`ier[0] = 0`; and for every later root `ik` (`ik ≥ 1` when `n = 0`, `ik ≥ 2` when `n ≠ 0`),
whose estimate by Mac Mahon's series is taken at the counter `k = ik + 1` when `n = 0` and
`k = ik` when `n ≠ 0`: when the estimate already satisfies `|jn(n, zeroj)| ≤ tol` no
refinement is made, `roots[ik]` is the estimate and `ier[ik]` is `ier[ik-1]`; otherwise
`roots[ik]` and `ier[ik]` are the value and the code that `SecantRootFinder` returns. -/
theorem C17_GetBesselRoots_error_codes (jn : Int → ℚ → ℚ) (pi : ℚ) (pow13 : Int → ℚ)
    (n nk : Int) :
    (∀ w ∈ GetBesselRoots_writes jn pi pow13 n nk, w.ier = 0 ∨ w.ier = 3) ∧
    (n ≠ 0 → (GetBesselRoots_writes jn pi pow13 n nk)[0]? = some ⟨0, 0, 0⟩) ∧
    (∀ (ik : Nat) (wprev w : RootWrite), (if n = 0 then 1 ≤ ik else 2 ≤ ik) →
      (GetBesselRoots_writes jn pi pow13 n nk)[ik - 1]? = some wprev →
      (GetBesselRoots_writes jn pi pow13 n nk)[ik]? = some w →
      w.index = (ik : Int) ∧
      (|jn n (macMahon pi n ((ik : Int) + (if n = 0 then 1 else 0)))| ≤ besselTol →
        w.root = macMahon pi n ((ik : Int) + (if n = 0 then 1 else 0)) ∧
        w.ier = wprev.ier) ∧
      (besselTol < |jn n (macMahon pi n ((ik : Int) + (if n = 0 then 1 else 0)))| →
        w.root = (SecantRootFinder jn n besselNitmx besselTol
            (macMahon pi n ((ik : Int) + (if n = 0 then 1 else 0)))).zeroj ∧
        w.ier = (SecantRootFinder jn n besselNitmx besselTol
            (macMahon pi n ((ik : Int) + (if n = 0 then 1 else 0)))).ier)) := by
  refine ⟨?_, ?_, ?_⟩
  · intro w hw
    unfold GetBesselRoots_writes at hw
    by_cases hn : n = 0
    · simp only [if_pos hn, List.mem_cons] at hw
      rcases hw with hw | hw
      · subst hw
        exact SecantRootFinder_ier _ _ _ _ _
      · exact besselLoop_ier jn pi n _ _ _ _ (SecantRootFinder_ier _ _ _ _ _) w hw
    · simp only [if_neg hn, List.mem_cons] at hw
      rcases hw with hw | hw | hw
      · subst hw
        exact Or.inl rfl
      · subst hw
        exact SecantRootFinder_ier _ _ _ _ _
      · exact besselLoop_ier jn pi n _ _ _ _ (SecantRootFinder_ier _ _ _ _ _) w hw
  · intro hn
    unfold GetBesselRoots_writes
    simp only [if_neg hn, List.getElem?_cons_zero]
  · intro ik wprev w hik hprev hw
    have hidx := GetBesselRoots_writes_at jn pi pow13 n nk ik w hw
    have hpair : RootAfter jn pi n (if n = 0 then 1 else 0) wprev w := by
      unfold GetBesselRoots_writes at hprev hw
      by_cases hn : n = 0
      · simp only [if_pos hn] at hik hprev hw ⊢
        obtain ⟨t, rfl⟩ : ∃ t, ik = t + 1 := ⟨ik - 1, by omega⟩
        simp only [Nat.add_sub_cancel] at hprev
        have h := besselLoop_pair jn pi n _ 1 2 _ _ rfl (by norm_num) t wprev w hprev hw
        have e : (2 : Int) - 1 = 1 := by norm_num
        rw [e] at h
        exact h
      · simp only [if_neg hn] at hik hprev hw ⊢
        obtain ⟨t, rfl⟩ : ∃ t, ik = t + 1 + 1 := ⟨ik - 2, by omega⟩
        simp only [Nat.add_sub_cancel] at hprev
        rw [List.getElem?_cons_succ] at hprev hw
        have h := besselLoop_pair jn pi n _ 2 2 _ _ rfl (by norm_num) t wprev w hprev hw
        have e : (2 : Int) - 2 = 0 := by norm_num
        rw [e] at h
        exact h
    unfold RootAfter at hpair
    rw [hidx] at hpair
    exact ⟨hidx, hpair.2.1, hpair.2.2⟩

/-- Instance of C17 with `jn = 0`, `n = 2`, `nk = 4`: the estimate of the root `ik = 2`
already satisfies the tolerance, it is stored unrefined and its code is that of the root
`ik = 1`, which is `3` because the one refinement made stopped on `q1 = q0`. -/
theorem C17_GetBesselRoots_error_codes_witness :
    ∃ wprev w : RootWrite,
      (GetBesselRoots_writes zeroJn 3 (fun _ => 1) 2 4)[1]? = some wprev ∧
      (GetBesselRoots_writes zeroJn 3 (fun _ => 1) 2 4)[2]? = some w ∧
      w.index = 2 ∧ w.root = macMahon 3 2 2 ∧ w.ier = wprev.ier ∧ wprev.ier = 3 := by
  have h1 : (GetBesselRoots_writes zeroJn 3 (fun _ => 1) 2 4)[1]?
      = some ((GetBesselRoots_writes zeroJn 3 (fun _ => 1) 2 4).get ⟨1, by decide⟩) := by
    simp
  have h2 : (GetBesselRoots_writes zeroJn 3 (fun _ => 1) 2 4)[2]?
      = some ((GetBesselRoots_writes zeroJn 3 (fun _ => 1) 2 4).get ⟨2, by decide⟩) := by
    simp
  have h := (C17_GetBesselRoots_error_codes zeroJn 3 (fun _ => 1) 2 4).2.2 2 _ _
    (by decide) h1 h2
  refine ⟨_, _, h1, h2, h.1, ?_, ?_, ?_⟩
  · exact (h.2.1 (by simp [zeroJn, besselTol])).1
  · exact (h.2.1 (by simp [zeroJn, besselTol])).2
  · simp [GetBesselRoots_writes, SecantRootFinder, secantLoop, zeroJn, besselNitmx]

/-! ## Index safety of `GetBesselRoots` -/

theorem resize_length {α : Type} (v : List α) (nk : Nat) (d : α) :
    (resize v nk d).length = nk := by
  unfold resize
  simp only [List.length_append, List.length_take, List.length_replicate]
  omega

/-- The indices at which `GetBesselRoots` stores are the `i` with `0 ≤ i < N`, `N` being
`max 1 nk` when `n = 0` and `max 2 nk` when `n ≠ 0`. -/
theorem GetBesselRoots_writes_mem_index (jn : Int → ℚ → ℚ) (pi : ℚ) (pow13 : Int → ℚ)
    (n nk : Int) (i : Int) :
    (∃ w ∈ GetBesselRoots_writes jn pi pow13 n nk, w.index = i)
      ↔ 0 ≤ i ∧ i < ((if n = 0 then max 1 nk.toNat else max 2 nk.toNat : Nat) : Int) := by
  have h : (∃ w ∈ GetBesselRoots_writes jn pi pow13 n nk, w.index = i)
      ↔ i ∈ (GetBesselRoots_writes jn pi pow13 n nk).map (fun w => w.index) := by
    simp only [List.mem_map]
  rw [h, GetBesselRoots_writes_index]
  simp only [List.mem_map, List.mem_range]
  constructor
  · rintro ⟨t, ht, rfl⟩
    omega
  · rintro ⟨h0, h1⟩
    exact ⟨i.toNat, by omega, by omega⟩

/-- Stores that are all within bounds succeed, keep the lengths, leave the other elements
alone and, when no index is stored at twice, leave each stored value in place. -/
theorem applyWrites_some (ws : List RootWrite) :
    ∀ out : List ℚ × List Int,
      (∀ w ∈ ws, 0 ≤ w.index ∧ w.index < out.1.length ∧ w.index < out.2.length) →
      ∃ res, applyWrites ws out = some res ∧
        res.1.length = out.1.length ∧ res.2.length = out.2.length ∧
        (∀ i : Nat, (∀ w ∈ ws, w.index.toNat ≠ i) →
          res.1[i]? = out.1[i]? ∧ res.2[i]? = out.2[i]?) ∧
        ((ws.map (fun w => w.index)).Nodup →
          ∀ w ∈ ws, res.1[w.index.toNat]? = some w.root ∧
            res.2[w.index.toNat]? = some w.ier) := by
  induction ws with
  | nil =>
    intro out _
    exact ⟨out, rfl, rfl, rfl, fun _ _ => ⟨rfl, rfl⟩, fun _ w hw => absurd hw (by simp)⟩
  | cons w ws ih =>
    intro out hb
    have hw := hb w (List.mem_cons_self _ _)
    have hs1 : storeAt out.1 w.index w.root = some (out.1.set w.index.toNat w.root) := by
      unfold storeAt
      rw [if_pos ⟨hw.1, hw.2.1⟩]
    have hs2 : storeAt out.2 w.index w.ier = some (out.2.set w.index.toNat w.ier) := by
      unfold storeAt
      rw [if_pos ⟨hw.1, hw.2.2⟩]
    obtain ⟨res, hres, hl1, hl2, hkeep, hval⟩ :=
      ih (out.1.set w.index.toNat w.root, out.2.set w.index.toNat w.ier) (by
        intro w' hw'
        have := hb w' (List.mem_cons_of_mem _ hw')
        simp only [List.length_set]
        exact this)
    simp only [List.length_set] at hl1 hl2
    refine ⟨res, ?_, hl1, hl2, ?_, ?_⟩
    · simp only [applyWrites, hs1, hs2]
      exact hres
    · intro i hi
      have h1 := hkeep i (fun w' hw' => hi w' (List.mem_cons_of_mem _ hw'))
      have hne : w.index.toNat ≠ i := hi w (List.mem_cons_self _ _)
      rw [h1.1, h1.2, List.getElem?_set_ne hne, List.getElem?_set_ne hne]
      exact ⟨rfl, rfl⟩
    · intro hnd w' hw'
      simp only [List.map_cons, List.nodup_cons, List.mem_map, not_exists, not_and] at hnd
      rcases List.mem_cons.1 hw' with h | h
      · subst h
        have h1 := hkeep w'.index.toNat (by
          intro w'' hw'' heq
          have hb'' := hb w'' (List.mem_cons_of_mem _ hw'')
          exact hnd.1 w'' hw'' (by omega))
        rw [h1.1, h1.2, List.getElem?_set_self (by omega), List.getElem?_set_self (by omega)]
        exact ⟨rfl, rfl⟩
      · exact hval hnd.2 w' h

/-- A store outside the bounds of the `roots` vector leaves no result. -/
theorem applyWrites_none (ws : List RootWrite) :
    ∀ out : List ℚ × List Int,
      (∃ w ∈ ws, ¬ (0 ≤ w.index ∧ w.index < out.1.length)) → applyWrites ws out = none := by
  induction ws with
  | nil =>
    intro out h
    obtain ⟨w, hw, _⟩ := h
    simp at hw
  | cons w ws ih =>
    intro out h
    by_cases hw : 0 ≤ w.index ∧ w.index < out.1.length
    · have hs1 : storeAt out.1 w.index w.root = some (out.1.set w.index.toNat w.root) := by
        unfold storeAt
        rw [if_pos hw]
      obtain ⟨w', hw', hbad⟩ := h
      have hmem : w' ∈ ws := by
        rcases List.mem_cons.1 hw' with e | e
        · subst e
          exact absurd hw hbad
        · exact e
      cases hs2 : storeAt out.2 w.index w.ier with
      | none => simp only [applyWrites, hs1, hs2]
      | some v2 =>
        simp only [applyWrites, hs1, hs2]
        apply ih
        exact ⟨w', hmem, by simpa only [List.length_set] using hbad⟩
    · have hs1 : storeAt out.1 w.index w.root = none := by
        unfold storeAt
        rw [if_neg hw]
      simp only [applyWrites, hs1]

/-- C16: index safety of `GetBesselRoots`.  For every order `n` and count `nk ≥ 0`, the
vectors being resized to `nk`: every index stored at is below `nk` if and only if
(`n = 0` and `nk ≥ 1`) or (`n ≠ 0` and `nk ≥ 2`); for `n ≠ 0` and `nk = 1` index `1` of
vectors of length `1` is stored at, and for `nk = 0` index `0` of empty vectors, so that
there is no result within bounds; when the condition holds the indices stored at are
`0, 1, ..., nk-1`, each once, the stores succeed, both outputs have length `nk` and hold
the stored values. -/
theorem C16_GetBesselRoots_index_safety (jn : Int → ℚ → ℚ) (pi : ℚ) (pow13 : Int → ℚ)
    (n nk : Int) (roots : List ℚ) (ier : List Int) (hnk : 0 ≤ nk) :
    ((∀ w ∈ GetBesselRoots_writes jn pi pow13 n nk, w.index < nk)
      ↔ ((n = 0 ∧ 1 ≤ nk) ∨ (n ≠ 0 ∧ 2 ≤ nk))) ∧
    (n ≠ 0 → nk = 1 →
      (∃ w ∈ GetBesselRoots_writes jn pi pow13 n nk, w.index = 1) ∧
      (resize roots nk.toNat 0).length = 1 ∧ (resize ier nk.toNat 0).length = 1 ∧
      GetBesselRoots jn pi pow13 n nk roots ier = none) ∧
    (nk = 0 →
      (∃ w ∈ GetBesselRoots_writes jn pi pow13 n nk, w.index = 0) ∧
      (resize roots nk.toNat 0).length = 0 ∧ (resize ier nk.toNat 0).length = 0 ∧
      GetBesselRoots jn pi pow13 n nk roots ier = none) ∧
    (((n = 0 ∧ 1 ≤ nk) ∨ (n ≠ 0 ∧ 2 ≤ nk)) →
      (GetBesselRoots_writes jn pi pow13 n nk).map (fun w => w.index)
        = (List.range nk.toNat).map (fun (t : Nat) => (t : Int)) ∧
      ∃ roots' ier', GetBesselRoots jn pi pow13 n nk roots ier = some (roots', ier') ∧
        (roots'.length : Int) = nk ∧ (ier'.length : Int) = nk ∧
        ∀ w ∈ GetBesselRoots_writes jn pi pow13 n nk,
          roots'[w.index.toNat]? = some w.root ∧ ier'[w.index.toNat]? = some w.ier) := by
  have hidx := GetBesselRoots_writes_mem_index jn pi pow13 n nk
  have hcount : ((n = 0 ∧ 1 ≤ nk) ∨ (n ≠ 0 ∧ 2 ≤ nk)) →
      (if n = 0 then max 1 nk.toNat else max 2 nk.toNat) = nk.toNat := by
    rintro (⟨h1, h2⟩ | ⟨h1, h2⟩)
    · rw [if_pos h1]; omega
    · rw [if_neg h1]; omega
  refine ⟨⟨?_, ?_⟩, ?_, ?_, ?_⟩
  · intro hall
    by_cases hn : n = 0
    · obtain ⟨w, hw, hw0⟩ := (hidx 0).2 ⟨le_refl _, by rw [if_pos hn]; omega⟩
      have := hall w hw
      exact Or.inl ⟨hn, by omega⟩
    · obtain ⟨w, hw, hw1⟩ := (hidx 1).2 ⟨by norm_num, by rw [if_neg hn]; omega⟩
      have := hall w hw
      exact Or.inr ⟨hn, by omega⟩
  · intro hcond w hw
    have h := (hidx w.index).1 ⟨w, hw, rfl⟩
    rw [hcount hcond] at h
    omega
  · intro hn hnk1
    obtain ⟨w, hw, hw1⟩ := (hidx 1).2 ⟨by norm_num, by rw [if_neg hn]; omega⟩
    refine ⟨⟨w, hw, hw1⟩, ?_, ?_, ?_⟩
    · rw [resize_length]; omega
    · rw [resize_length]; omega
    · unfold GetBesselRoots
      apply applyWrites_none
      refine ⟨w, hw, ?_⟩
      simp only [resize_length]
      omega
  · intro hnk0
    obtain ⟨w, hw, hw0⟩ := (hidx 0).2 ⟨le_refl _, by split_ifs <;> omega⟩
    refine ⟨⟨w, hw, hw0⟩, ?_, ?_, ?_⟩
    · rw [resize_length]; omega
    · rw [resize_length]; omega
    · unfold GetBesselRoots
      apply applyWrites_none
      refine ⟨w, hw, ?_⟩
      simp only [resize_length]
      omega
  · intro hcond
    have hmap : (GetBesselRoots_writes jn pi pow13 n nk).map (fun w => w.index)
        = (List.range nk.toNat).map (fun (t : Nat) => (t : Int)) := by
      rw [GetBesselRoots_writes_index, hcount hcond]
    have hnd : ((GetBesselRoots_writes jn pi pow13 n nk).map (fun w => w.index)).Nodup := by
      rw [hmap]
      apply List.Nodup.map _ (List.nodup_range _)
      intro a b hab
      simp only at hab
      omega
    obtain ⟨res, hres, hl1, hl2, -, hval⟩ := applyWrites_some
      (GetBesselRoots_writes jn pi pow13 n nk) (resize roots nk.toNat 0, resize ier nk.toNat 0)
      (by
        intro w hw
        have h := (hidx w.index).1 ⟨w, hw, rfl⟩
        rw [hcount hcond] at h
        simp only [resize_length]
        omega)
    simp only [resize_length] at hl1 hl2
    refine ⟨hmap, res.1, res.2, ?_, by omega, by omega, hval hnd⟩
    unfold GetBesselRoots
    exact hres

/-- Instance of C16 with `n = 2`: for `nk = 1` the store at index `1` is out of bounds and
there is no result; for `nk = 3` the indices `0, 1, 2` are stored at and both outputs have
length `3`. -/
theorem C16_GetBesselRoots_index_safety_witness :
    GetBesselRoots sampleJn 3 (fun _ => 1) 2 1 [] [] = none ∧
    (GetBesselRoots_writes sampleJn 3 (fun _ => 1) 2 3).map (fun w => w.index) = [0, 1, 2] ∧
    ∃ roots' ier', GetBesselRoots sampleJn 3 (fun _ => 1) 2 3 [] [] = some (roots', ier') ∧
      (roots'.length : Int) = 3 ∧ (ier'.length : Int) = 3 := by
  have h1 := (C16_GetBesselRoots_index_safety sampleJn 3 (fun _ => 1) 2 1 [] []
    (by decide)).2.1 (by decide) rfl
  have h3 := (C16_GetBesselRoots_index_safety sampleJn 3 (fun _ => 1) 2 3 [] []
    (by decide)).2.2.2 (Or.inr ⟨by decide, by decide⟩)
  obtain ⟨hmap, roots', ier', hres, hl1, hl2, -⟩ := h3
  exact ⟨h1.2.2.2, hmap, roots', ier', hres, hl1, hl2⟩

end WarpX
